import Mathlib

/-!
Verification of the entity-resolution and cross-reference engine of the
fgMERPModuleGen repository, as a shallow embedding in Lean 4.

The embedding covers:
  * `lib/npc_creature_library_complete.py` (catalog index construction with
    source priority, name lookup, template synthesis),
  * `lib/item_library_complete.py` (the item variant of the same),
  * `lib/entity_matcher.py` (layered name resolution: exact, mapping tables,
    fuzzy matching via `difflib.SequenceMatcher`),
  * the `difflib.SequenceMatcher` ratio algorithm itself (the Python standard
    library code that `EntityMatcher._similarity` calls, with `isjunk = None`
    and the default `autojunk = True`),
  * `lib/db_npcs.py` / `lib/db_battles.py` identifier allocation and the
    registry discipline of `create_npc_from_yaml`.

Python data (JSON/YAML-derived nested dicts) is modelled by the `PyVal` type;
Python dicts are ordered association lists with dict-assignment semantics
(update in place, or append for a new key).  Python floats produced by
`difflib`'s ratio are modelled as exact rationals (the ratio is
`2 * matches / total`, a rational number; the thresholds 0.80 and 0.90 are
the rationals 4/5 and 9/10).
-/

/-- A Python value as it appears in the loaded JSON/YAML data: strings,
integers, booleans, `None`, ordered dicts and lists. -/
inductive PyVal where
  | str (s : String)
  | int (n : Int)
  | bool (b : Bool)
  | null
  | dict (fields : List (String × PyVal))
  | list (items : List PyVal)

/-- A Python dict with string keys, in insertion order. -/
abbrev PyDict := List (String × PyVal)

mutual

/-- Structural boolean equality on `PyVal`. -/
def PyVal.beq : PyVal → PyVal → Bool
  | .str a, .str b => a == b
  | .int a, .int b => a == b
  | .bool a, .bool b => a == b
  | .null, .null => true
  | .dict a, .dict b => PyVal.beqFields a b
  | .list a, .list b => PyVal.beqItems a b
  | _, _ => false

/-- Boolean equality on dict field lists. -/
def PyVal.beqFields : List (String × PyVal) → List (String × PyVal) → Bool
  | [], [] => true
  | (k₁, v₁) :: t₁, (k₂, v₂) :: t₂ => k₁ == k₂ && PyVal.beq v₁ v₂ && PyVal.beqFields t₁ t₂
  | _, _ => false

/-- Boolean equality on lists of values. -/
def PyVal.beqItems : List PyVal → List PyVal → Bool
  | [], [] => true
  | v₁ :: t₁, v₂ :: t₂ => PyVal.beq v₁ v₂ && PyVal.beqItems t₁ t₂
  | _, _ => false

end

mutual

theorem PyVal.beq_refl : ∀ a : PyVal, PyVal.beq a a = true
  | .str a => by simp [PyVal.beq]
  | .int a => by simp [PyVal.beq]
  | .bool a => by simp [PyVal.beq]
  | .null => by simp [PyVal.beq]
  | .dict a => by simp [PyVal.beq]; exact PyVal.beqFields_refl a
  | .list a => by simp [PyVal.beq]; exact PyVal.beqItems_refl a

theorem PyVal.beqFields_refl : ∀ l : List (String × PyVal), PyVal.beqFields l l = true
  | [] => by simp [PyVal.beqFields]
  | (k, v) :: t => by
      simp [PyVal.beqFields]
      exact ⟨PyVal.beq_refl v, PyVal.beqFields_refl t⟩

theorem PyVal.beqItems_refl : ∀ l : List PyVal, PyVal.beqItems l l = true
  | [] => by simp [PyVal.beqItems]
  | v :: t => by
      simp [PyVal.beqItems]
      exact ⟨PyVal.beq_refl v, PyVal.beqItems_refl t⟩

end

mutual

theorem PyVal.eq_of_beq : ∀ a b : PyVal, PyVal.beq a b = true → a = b
  | .str a, .str b => by simp [PyVal.beq]
  | .int a, .int b => by simp [PyVal.beq]
  | .bool a, .bool b => by simp [PyVal.beq]
  | .null, .null => fun _ => rfl
  | .dict a, .dict b => by
      simp [PyVal.beq]
      exact fun h => PyVal.eqFields_of_beq a b h
  | .list a, .list b => by
      simp [PyVal.beq]
      exact fun h => PyVal.eqItems_of_beq a b h
  | .str _, .int _ => by simp [PyVal.beq]
  | .str _, .bool _ => by simp [PyVal.beq]
  | .str _, .null => by simp [PyVal.beq]
  | .str _, .dict _ => by simp [PyVal.beq]
  | .str _, .list _ => by simp [PyVal.beq]
  | .int _, .str _ => by simp [PyVal.beq]
  | .int _, .bool _ => by simp [PyVal.beq]
  | .int _, .null => by simp [PyVal.beq]
  | .int _, .dict _ => by simp [PyVal.beq]
  | .int _, .list _ => by simp [PyVal.beq]
  | .bool _, .str _ => by simp [PyVal.beq]
  | .bool _, .int _ => by simp [PyVal.beq]
  | .bool _, .null => by simp [PyVal.beq]
  | .bool _, .dict _ => by simp [PyVal.beq]
  | .bool _, .list _ => by simp [PyVal.beq]
  | .null, .str _ => by simp [PyVal.beq]
  | .null, .int _ => by simp [PyVal.beq]
  | .null, .bool _ => by simp [PyVal.beq]
  | .null, .dict _ => by simp [PyVal.beq]
  | .null, .list _ => by simp [PyVal.beq]
  | .dict _, .str _ => by simp [PyVal.beq]
  | .dict _, .int _ => by simp [PyVal.beq]
  | .dict _, .bool _ => by simp [PyVal.beq]
  | .dict _, .null => by simp [PyVal.beq]
  | .dict _, .list _ => by simp [PyVal.beq]
  | .list _, .str _ => by simp [PyVal.beq]
  | .list _, .int _ => by simp [PyVal.beq]
  | .list _, .bool _ => by simp [PyVal.beq]
  | .list _, .null => by simp [PyVal.beq]
  | .list _, .dict _ => by simp [PyVal.beq]

theorem PyVal.eqFields_of_beq :
    ∀ a b : List (String × PyVal), PyVal.beqFields a b = true → a = b
  | [], [] => fun _ => rfl
  | [], (_, _) :: _ => by simp [PyVal.beqFields]
  | (_, _) :: _, [] => by simp [PyVal.beqFields]
  | (k₁, v₁) :: t₁, (k₂, v₂) :: t₂ => by
      simp only [PyVal.beqFields, Bool.and_eq_true, beq_iff_eq]
      intro h
      obtain ⟨⟨hk, hv⟩, ht⟩ := h
      rw [hk, PyVal.eq_of_beq v₁ v₂ hv, PyVal.eqFields_of_beq t₁ t₂ ht]

theorem PyVal.eqItems_of_beq :
    ∀ a b : List PyVal, PyVal.beqItems a b = true → a = b
  | [], [] => fun _ => rfl
  | [], _ :: _ => by simp [PyVal.beqItems]
  | _ :: _, [] => by simp [PyVal.beqItems]
  | v₁ :: t₁, v₂ :: t₂ => by
      simp only [PyVal.beqItems, Bool.and_eq_true]
      intro h
      obtain ⟨hv, ht⟩ := h
      rw [PyVal.eq_of_beq v₁ v₂ hv, PyVal.eqItems_of_beq t₁ t₂ ht]

end

instance : DecidableEq PyVal := fun a b =>
  decidable_of_iff (PyVal.beq a b = true)
    ⟨PyVal.eq_of_beq a b, fun h => h ▸ PyVal.beq_refl a⟩

/-! ## Python dict operations

Ordered association lists with Python dict semantics: lookup finds the
(unique) entry for a key; assignment replaces the value in place when the key
exists and appends a new entry otherwise, preserving insertion order. -/

/-- Python `d.get(k)` / `d[k]` lookup. -/
def aGet {κ α : Type} [DecidableEq κ] : List (κ × α) → κ → Option α
  | [], _ => none
  | (k, v) :: t, key => if k = key then some v else aGet t key

/-- Python `d[k] = v` assignment (replace in place, or append for a new key). -/
def aSet {κ α : Type} [DecidableEq κ] : List (κ × α) → κ → α → List (κ × α)
  | [], key, v => [(key, v)]
  | (k, w) :: t, key, v => if k = key then (key, v) :: t else (k, w) :: aSet t key v

/-- Python `k in d`. -/
def aContains {κ α : Type} [DecidableEq κ] (m : List (κ × α)) (k : κ) : Bool :=
  (aGet m k).isSome

/-- Python `d.get(k, default)`. -/
def aGetD {κ α : Type} [DecidableEq κ] (m : List (κ × α)) (k : κ) (d : α) : α :=
  (aGet m k).getD d

/-- Python `list(d.keys())` (insertion order). -/
def aKeys {κ α : Type} (m : List (κ × α)) : List κ := m.map Prod.fst

theorem aGet_set_self {κ α : Type} [DecidableEq κ] (m : List (κ × α)) (k : κ) (v : α) :
    aGet (aSet m k v) k = some v := by
  induction m with
  | nil => simp [aGet, aSet]
  | cons hd t ih =>
      obtain ⟨k', w⟩ := hd
      by_cases h : k' = k
      · simp [aGet, aSet, h]
      · simp [aGet, aSet, h, ih]

theorem aGet_set_ne {κ α : Type} [DecidableEq κ] (m : List (κ × α)) (k k' : κ) (v : α)
    (h : k' ≠ k) : aGet (aSet m k v) k' = aGet m k' := by
  have hk : ¬ k = k' := fun hh => h hh.symm
  induction m with
  | nil => simp [aGet, aSet, hk]
  | cons hd t ih =>
      obtain ⟨k₀, w⟩ := hd
      by_cases h₀ : k₀ = k
      · subst h₀
        simp [aGet, aSet, hk]
      · simp only [aSet, if_neg h₀]
        by_cases h₁ : k₀ = k'
        · simp [aGet, h₁]
        · simp [aGet, h₁, ih]

theorem mem_aKeys_of_aGet {κ α : Type} [DecidableEq κ] (m : List (κ × α)) (k : κ) (v : α)
    (h : aGet m k = some v) : k ∈ aKeys m := by
  induction m with
  | nil => simp [aGet] at h
  | cons hd t ih =>
      obtain ⟨k₀, w⟩ := hd
      by_cases h₀ : k₀ = k
      · simp [aKeys, h₀]
      · simp only [aGet, if_neg h₀] at h
        simp [aKeys] at ih ⊢
        exact Or.inr (ih h)

theorem aGet_isSome_of_mem_aKeys {κ α : Type} [DecidableEq κ] (m : List (κ × α)) (k : κ)
    (h : k ∈ aKeys m) : (aGet m k).isSome := by
  induction m with
  | nil => simp [aKeys] at h
  | cons hd t ih =>
      obtain ⟨k₀, w⟩ := hd
      by_cases h₀ : k₀ = k
      · simp [aGet, h₀]
      · simp [aKeys, h₀] at h
        rcases h with h | h
        · exact absurd h.symm h₀
        · simp [aGet, h₀]
          exact ih (by simp [aKeys, h])

/-! ## Python string conversion

`str(value)` as used by `copy_for_modification` when writing override values
into `_text` fields.  String quoting inside the `repr` of containers is
modelled without escape sequences (no claim exercises quoting). -/

/-- An ASCII single-quote character, used by Python `repr` of strings. -/
def pyQuote : String := String.singleton (Char.ofNat 39)

mutual

/-- Python `repr(value)`. -/
def pyRepr : PyVal → String
  | .str s => pyQuote ++ s ++ pyQuote
  | .int n => toString n
  | .bool b => cond b "True" "False"
  | .null => "None"
  | .dict fs => "\x7b" ++ pyReprFields fs ++ "\x7d"
  | .list xs => "[" ++ pyReprItems xs ++ "]"

/-- Comma-joined `repr` of dict fields. -/
def pyReprFields : List (String × PyVal) → String
  | [] => ""
  | [(k, v)] => pyQuote ++ k ++ pyQuote ++ ": " ++ pyRepr v
  | (k, v) :: t => pyQuote ++ k ++ pyQuote ++ ": " ++ pyRepr v ++ ", " ++ pyReprFields t

/-- Comma-joined `repr` of list items. -/
def pyReprItems : List PyVal → String
  | [] => ""
  | [v] => pyRepr v
  | v :: t => pyRepr v ++ ", " ++ pyReprItems t

end

/-- Python `str(value)`: the raw string for strings, `repr`-style rendering
for everything else (matching `str` on int, bool, None, dict, list). -/
def pyStr : PyVal → String
  | .str s => s
  | v => pyRepr v

/-- Python truthiness (`if not value:`): `None`, `False`, `0`, empty string,
empty dict and empty list are falsy. -/
def pyFalsy : PyVal → Bool
  | .str s => s = ""
  | .int n => n = 0
  | .bool b => !b
  | .null => true
  | .dict fs => fs.isEmpty
  | .list xs => xs.isEmpty

/-- ASCII lower-casing of one character, as CPython's `str.lower` acts on
the ASCII range (the data handled here is ASCII). -/
def charLower (c : Char) : Char :=
  if 65 ≤ c.toNat ∧ c.toNat ≤ 90 then Char.ofNat (c.toNat + 32) else c

/-- Python `s.lower()`, character by character. -/
def strLower (s : String) : String := String.mk (s.data.map charLower)

/-- Python `s.replace(a, b)` for one-character patterns (the only use in the
code is `.replace(' ', '_')`). -/
def strReplaceChar (s : String) (a b : Char) : String :=
  String.mk (s.data.map (fun c => if c = a then b else c))

/-- Decimal digit character. -/
def digitChar (d : Nat) : Char := Char.ofNat (48 + d)

/-- Decimal digits of `n`, most significant first; the fuel bounds the digit
count and `n + 1` always suffices. -/
def natDigits : Nat → Nat → List Char
  | 0, _ => []
  | fuel + 1, n =>
      if n < 10 then [digitChar n]
      else natDigits fuel (n / 10) ++ [digitChar (n % 10)]

/-- Python `str(n)` for a non-negative int. -/
def natDecimal (n : Nat) : String := String.mk (natDigits (n + 1) n)

/-! ## difflib.SequenceMatcher

`EntityMatcher._similarity` computes
`SequenceMatcher(None, a.lower(), b.lower()).ratio()`.  The embedding below
follows CPython's `difflib.py`: `__chain_b` (with `isjunk = None`, so the
junk set is empty, and the default `autojunk = True` popularity purge),
`find_longest_match`, the queue-based `get_matching_blocks`, and
`ratio` / `_calculate_ratio`.  Sequence elements are characters; positions
are naturals; the float ratio `2.0 * matches / length` is the exact rational
`2 * matches / length`.  The `while` loops are written as recursions that
the kernel can evaluate: the two downward extension loops recurse
structurally on `besti`, the two upward ones and the block queue recurse on
an explicit counter that mirrors the loop's decreasing measure exactly, so
each function computes precisely what the Python loop computes. -/

namespace Difflib

/-- Element access `s[i]` (always in range at every use below). -/
def charAt (s : List Char) (i : Nat) : Char := s.getD i (Char.ofNat 0)

/-- The `b2j` table before junk purging: for each element of `b`, the
ascending list of its positions (`__chain_b`, first loop). -/
def b2jRaw (b : List Char) : List (Char × List Nat) :=
  b.enum.foldl
    (fun m p =>
      match aGet m p.2 with
      | some js => aSet m p.2 (js ++ [p.1])
      | none => aSet m p.2 [p.1])
    []

/-- The `b2j` table after `__chain_b`: `isjunk` is `None` (so no junk purge)
and `autojunk` is on, purging "popular" elements when `len(b) >= 200`. -/
def chainB (b : List Char) : List (Char × List Nat) :=
  let b2j := b2jRaw b
  let n := b.length
  if 200 ≤ n then
    let ntest := n / 100 + 1
    let popular := (b2j.filter (fun p => ntest < p.2.length)).map Prod.fst
    b2j.filter (fun p => ¬ p.1 ∈ popular)
  else b2j

/-- Read `j2len.get(j - 1, 0)`: a `j2len` row is a total function that is
zero outside its assigned keys, and `j = 0` reads the absent key `-1`. -/
def j2lenGet (f : Nat → Nat) : Nat → Nat
  | 0 => 0
  | j' + 1 => f j'

/-- Inner loop of `find_longest_match`: walk the ascending occurrence list
`js` of `a[i]` in `b`, reading the previous row `j2len`, writing `newj2len`,
and updating the best block.  `j < blo` is `continue`; `j >= bhi` is
`break`. -/
def innerLoop (i blo bhi : Nat) (j2len : Nat → Nat) :
    List Nat → (Nat → Nat) → Nat × Nat × Nat → (Nat → Nat) × (Nat × Nat × Nat)
  | [], newj2len, best => (newj2len, best)
  | j :: js, newj2len, best =>
      if j < blo then innerLoop i blo bhi j2len js newj2len best
      else if bhi ≤ j then (newj2len, best)
      else
        let k := j2lenGet j2len j + 1
        let newj2len' : Nat → Nat := fun x => if x = j then k else newj2len x
        let best' := if best.2.2 < k then (i + 1 - k, j + 1 - k, k) else best
        innerLoop i blo bhi j2len js newj2len' best'

/-- Outer loop of `find_longest_match` over the rows `i` of `a[alo:ahi]`:
each row starts a fresh `newj2len` and installs it as `j2len` afterwards. -/
def outerLoop (a : List Char) (chain : List (Char × List Nat)) (blo bhi : Nat) :
    List Nat → (Nat → Nat) → Nat × Nat × Nat → Nat × Nat × Nat
  | [], _, best => best
  | i :: rows, j2len, best =>
      let js := aGetD chain (charAt a i) []
      let r := innerLoop i blo bhi j2len js (fun _ => 0) best
      outerLoop a chain blo bhi rows r.1 r.2

/-- First extension loop: extend the best block downwards over non-junk
equal elements.  The loop decrements `besti` by one each iteration and stops
at `besti = alo ≥ 0`, so recursing on the structure of `besti` is exact. -/
def extendLo (a b : List Char) (bjunk : Char → Bool) (alo blo : Nat) :
    Nat → Nat → Nat → Nat × Nat × Nat
  | 0, bestj, bestsize => (0, bestj, bestsize)
  | besti + 1, bestj, bestsize =>
      if alo < besti + 1 ∧ blo < bestj ∧ bjunk (charAt b (bestj - 1)) = false ∧
          charAt a (besti + 1 - 1) = charAt b (bestj - 1) then
        extendLo a b bjunk alo blo besti (bestj - 1) (bestsize + 1)
      else
        (besti + 1, bestj, bestsize)

/-- Second extension loop: extend the best block upwards over non-junk equal
elements.  The counter is exactly `ahi - (besti + bestsize)`: it is zero
precisely when the loop guard `besti + bestsize < ahi` fails, and it
decreases by one each iteration, so the recursion is exact. -/
def extendHiAux (a b : List Char) (bjunk : Char → Bool) (ahi bhi besti bestj : Nat) :
    Nat → Nat → Nat × Nat × Nat
  | 0, bestsize => (besti, bestj, bestsize)
  | fuel + 1, bestsize =>
      if besti + bestsize < ahi ∧ bestj + bestsize < bhi ∧
          bjunk (charAt b (bestj + bestsize)) = false ∧
          charAt a (besti + bestsize) = charAt b (bestj + bestsize) then
        extendHiAux a b bjunk ahi bhi besti bestj fuel (bestsize + 1)
      else
        (besti, bestj, bestsize)

/-- Entry point of the second extension loop. -/
def extendHi (a b : List Char) (bjunk : Char → Bool) (ahi bhi besti bestj bestsize : Nat) :
    Nat × Nat × Nat :=
  extendHiAux a b bjunk ahi bhi besti bestj (ahi - (besti + bestsize)) bestsize

/-- Third extension loop: extend downwards over junk equal elements. -/
def extendLoJunk (a b : List Char) (bjunk : Char → Bool) (alo blo : Nat) :
    Nat → Nat → Nat → Nat × Nat × Nat
  | 0, bestj, bestsize => (0, bestj, bestsize)
  | besti + 1, bestj, bestsize =>
      if alo < besti + 1 ∧ blo < bestj ∧ bjunk (charAt b (bestj - 1)) = true ∧
          charAt a (besti + 1 - 1) = charAt b (bestj - 1) then
        extendLoJunk a b bjunk alo blo besti (bestj - 1) (bestsize + 1)
      else
        (besti + 1, bestj, bestsize)

/-- Fourth extension loop: extend upwards over junk equal elements. -/
def extendHiJunkAux (a b : List Char) (bjunk : Char → Bool) (ahi bhi besti bestj : Nat) :
    Nat → Nat → Nat × Nat × Nat
  | 0, bestsize => (besti, bestj, bestsize)
  | fuel + 1, bestsize =>
      if besti + bestsize < ahi ∧ bestj + bestsize < bhi ∧
          bjunk (charAt b (bestj + bestsize)) = true ∧
          charAt a (besti + bestsize) = charAt b (bestj + bestsize) then
        extendHiJunkAux a b bjunk ahi bhi besti bestj fuel (bestsize + 1)
      else
        (besti, bestj, bestsize)

/-- Entry point of the fourth extension loop. -/
def extendHiJunk (a b : List Char) (bjunk : Char → Bool) (ahi bhi besti bestj bestsize : Nat) :
    Nat × Nat × Nat :=
  extendHiJunkAux a b bjunk ahi bhi besti bestj (ahi - (besti + bestsize)) bestsize

/-- `find_longest_match(alo, ahi, blo, bhi)`: the dynamic-programming pass
followed by the four extension loops. -/
def find_longest_match (a b : List Char) (chain : List (Char × List Nat))
    (bjunk : Char → Bool) (alo ahi blo bhi : Nat) : Nat × Nat × Nat :=
  let best₀ := outerLoop a chain blo bhi (List.range' alo (ahi - alo)) (fun _ => 0)
    (alo, blo, 0)
  let best₁ := extendLo a b bjunk alo blo best₀.1 best₀.2.1 best₀.2.2
  let best₂ := extendHi a b bjunk ahi bhi best₁.1 best₁.2.1 best₁.2.2
  let best₃ := extendLoJunk a b bjunk alo blo best₂.1 best₂.2.1 best₂.2.2
  let best₄ := extendHiJunk a b bjunk ahi bhi best₃.1 best₃.2.1 best₃.2.2
  best₄

end Difflib

namespace Difflib

/-- Invariant of the best block kept by `find_longest_match`: it stays inside
the requested region, and a size-0 best is still the initial `(alo, blo, 0)`. -/
def BestInv (alo ahi blo bhi : Nat) (best : Nat × Nat × Nat) : Prop :=
  (best.2.2 = 0 → best = (alo, blo, 0)) ∧
  alo ≤ best.1 ∧ blo ≤ best.2.1 ∧
  (best.2.2 ≠ 0 → best.1 + best.2.2 ≤ ahi ∧ best.2.1 + best.2.2 ≤ bhi)

/-- Invariant of a `j2len` row: every chain length is bounded by the number
of processed rows, and a nonzero entry at key `j` describes a chain ending
at a position `j` inside `[blo, bhi)`. -/
def J2Inv (blo rows : Nat) (f : Nat → Nat) : Prop :=
  ∀ j, f j ≤ rows ∧ (f j ≠ 0 → blo ≤ j ∧ f j ≤ j + 1 - blo)

theorem J2Inv_zero (blo rows : Nat) : J2Inv blo rows (fun _ => 0) :=
  fun _ => ⟨Nat.zero_le _, fun h => absurd rfl h⟩

theorem innerLoop_inv {alo ahi blo bhi i rows : Nat} {j2len : Nat → Nat}
    (hia : alo ≤ i) (hih : i < ahi) (hrows : rows ≤ i - alo)
    (hJ : J2Inv blo rows j2len) :
    ∀ (js : List Nat) (newj2len : Nat → Nat) (best : Nat × Nat × Nat),
    J2Inv blo (rows + 1) newj2len → BestInv alo ahi blo bhi best →
    J2Inv blo (rows + 1) (innerLoop i blo bhi j2len js newj2len best).1 ∧
      BestInv alo ahi blo bhi (innerLoop i blo bhi j2len js newj2len best).2
  | [], newj2len, best => fun hN hB => by simpa [innerLoop] using ⟨hN, hB⟩
  | j :: js, newj2len, best => fun hN hB => by
      by_cases h₁ : j < blo
      · simpa [innerLoop, h₁] using innerLoop_inv hia hih hrows hJ js newj2len best hN hB
      · by_cases h₂ : bhi ≤ j
        · simpa [innerLoop, h₁, h₂] using ⟨hN, hB⟩
        · have hjb : blo ≤ j := Nat.le_of_not_lt h₁
          have hjh : j < bhi := Nat.lt_of_not_le h₂
          have hprev_le : j2lenGet j2len j ≤ rows := by
            match j with
            | 0 => exact Nat.zero_le _
            | j' + 1 => exact (hJ j').1
          have hprev_blo : j2lenGet j2len j + 1 ≤ j + 1 - blo := by
            match j with
            | 0 =>
                have hblo : blo = 0 := Nat.le_zero.mp hjb
                simp [j2lenGet, hblo]
            | j' + 1 =>
                show j2len j' + 1 ≤ j' + 1 + 1 - blo
                rcases Nat.eq_zero_or_pos (j2len j') with hz | hp
                · omega
                · have h2 := (hJ j').2 (by omega)
                  omega
          have hN' : J2Inv blo (rows + 1)
              (fun x => if x = j then j2lenGet j2len j + 1 else newj2len x) := by
            intro x
            by_cases hx : x = j
            · subst hx
              refine ⟨?_, fun _ => ⟨hjb, ?_⟩⟩
              · show (if x = x then j2lenGet j2len x + 1 else newj2len x) ≤ rows + 1
                rw [if_pos rfl]
                omega
              · show (if x = x then j2lenGet j2len x + 1 else newj2len x) ≤ x + 1 - blo
                rw [if_pos rfl]
                exact hprev_blo
            · simpa [hx] using hN x
          have hB' : BestInv alo ahi blo bhi
              (if best.2.2 < j2lenGet j2len j + 1
               then (i + 1 - (j2lenGet j2len j + 1), j + 1 - (j2lenGet j2len j + 1),
                     j2lenGet j2len j + 1)
               else best) := by
            by_cases hlt : best.2.2 < j2lenGet j2len j + 1
            · rw [if_pos hlt]
              refine ⟨by simp, by simp; omega, by simp; omega,
                fun _ => ⟨by simp; omega, by simp; omega⟩⟩
            · rwa [if_neg hlt]
          have := innerLoop_inv hia hih hrows hJ js
            (fun x => if x = j then j2lenGet j2len j + 1 else newj2len x) _ hN' hB'
          simpa [innerLoop, h₁, h₂] using this

theorem outerLoop_inv {a : List Char} {chain : List (Char × List Nat)}
    {alo ahi blo bhi : Nat} :
    ∀ (m s : Nat), alo ≤ s → s + m = ahi →
    ∀ (j2len : Nat → Nat) (best : Nat × Nat × Nat),
    J2Inv blo (s - alo) j2len → BestInv alo ahi blo bhi best →
    BestInv alo ahi blo bhi
      (outerLoop a chain blo bhi (List.range' s m) j2len best)
  | 0, s, _, _, j2len, best => fun _ hB => by simpa [outerLoop] using hB
  | m + 1, s, hs, hm, j2len, best => fun hJ hB => by
      have hsh : s < ahi := by omega
      have hJ1 : J2Inv blo (s - alo + 1) (fun _ => 0) := J2Inv_zero _ _
      have hstep := @innerLoop_inv alo ahi blo bhi s (s - alo) j2len hs hsh
        (Nat.le_refl _) hJ (aGetD chain (charAt a s) []) (fun _ => 0) best hJ1 hB
      have hJ' : J2Inv blo (s + 1 - alo)
          (innerLoop s blo bhi j2len (aGetD chain (charAt a s) []) (fun _ => 0) best).1 := by
        have heq : s - alo + 1 = s + 1 - alo := by omega
        exact heq ▸ hstep.1
      have hrec := @outerLoop_inv a chain alo ahi blo bhi
        m (s + 1) (by omega) (by omega) _ _ hJ' hstep.2
      simpa [List.range', outerLoop] using hrec

theorem extendLo_inv {a b : List Char} {bjunk : Char → Bool} {alo ahi blo bhi : Nat} :
    ∀ (besti bestj bestsize : Nat),
    BestInv alo ahi blo bhi (besti, bestj, bestsize) →
    BestInv alo ahi blo bhi (extendLo a b bjunk alo blo besti bestj bestsize)
  | 0, bestj, bestsize => fun hB => by simpa [extendLo] using hB
  | besti + 1, bestj, bestsize => fun hB => by
      rw [extendLo]
      split
      · next h =>
          have hne : bestsize ≠ 0 := by
            intro h0
            have h3 : besti + 1 = alo := congrArg Prod.fst (hB.1 h0)
            omega
          have hsum := hB.2.2.2 hne
          refine extendLo_inv besti (bestj - 1) (bestsize + 1)
            ⟨fun h0 => absurd h0 (Nat.succ_ne_zero _), ?_, ?_, fun _ => ?_⟩
          · show alo ≤ besti
            omega
          · show blo ≤ bestj - 1
            omega
          · have h1 : besti + 1 + bestsize ≤ ahi := hsum.1
            have h2 : bestj + bestsize ≤ bhi := hsum.2
            constructor
            · show besti + (bestsize + 1) ≤ ahi
              omega
            · show bestj - 1 + (bestsize + 1) ≤ bhi
              omega
      · exact hB

theorem extendHiAux_inv {a b : List Char} {bjunk : Char → Bool} {alo ahi blo bhi besti bestj : Nat} :
    ∀ (fuel bestsize : Nat),
    BestInv alo ahi blo bhi (besti, bestj, bestsize) →
    BestInv alo ahi blo bhi (extendHiAux a b bjunk ahi bhi besti bestj fuel bestsize)
  | 0, bestsize => fun hB => by simpa [extendHiAux] using hB
  | fuel + 1, bestsize => fun hB => by
      rw [extendHiAux]
      split
      · next h =>
          refine extendHiAux_inv fuel (bestsize + 1)
            ⟨fun h0 => absurd h0 (Nat.succ_ne_zero _), hB.2.1, hB.2.2.1, fun _ => ?_⟩
          have h1 : besti + bestsize < ahi := h.1
          have h2 : bestj + bestsize < bhi := h.2.1
          constructor
          · show besti + (bestsize + 1) ≤ ahi
            omega
          · show bestj + (bestsize + 1) ≤ bhi
            omega
      · exact hB

theorem extendLoJunk_inv {a b : List Char} {bjunk : Char → Bool} {alo ahi blo bhi : Nat} :
    ∀ (besti bestj bestsize : Nat),
    BestInv alo ahi blo bhi (besti, bestj, bestsize) →
    BestInv alo ahi blo bhi (extendLoJunk a b bjunk alo blo besti bestj bestsize)
  | 0, bestj, bestsize => fun hB => by simpa [extendLoJunk] using hB
  | besti + 1, bestj, bestsize => fun hB => by
      rw [extendLoJunk]
      split
      · next h =>
          have hne : bestsize ≠ 0 := by
            intro h0
            have h3 : besti + 1 = alo := congrArg Prod.fst (hB.1 h0)
            omega
          have hsum := hB.2.2.2 hne
          refine extendLoJunk_inv besti (bestj - 1) (bestsize + 1)
            ⟨fun h0 => absurd h0 (Nat.succ_ne_zero _), ?_, ?_, fun _ => ?_⟩
          · show alo ≤ besti
            omega
          · show blo ≤ bestj - 1
            omega
          · have h1 : besti + 1 + bestsize ≤ ahi := hsum.1
            have h2 : bestj + bestsize ≤ bhi := hsum.2
            constructor
            · show besti + (bestsize + 1) ≤ ahi
              omega
            · show bestj - 1 + (bestsize + 1) ≤ bhi
              omega
      · exact hB

theorem extendHiJunkAux_inv {a b : List Char} {bjunk : Char → Bool}
    {alo ahi blo bhi besti bestj : Nat} :
    ∀ (fuel bestsize : Nat),
    BestInv alo ahi blo bhi (besti, bestj, bestsize) →
    BestInv alo ahi blo bhi (extendHiJunkAux a b bjunk ahi bhi besti bestj fuel bestsize)
  | 0, bestsize => fun hB => by simpa [extendHiJunkAux] using hB
  | fuel + 1, bestsize => fun hB => by
      rw [extendHiJunkAux]
      split
      · next h =>
          refine extendHiJunkAux_inv fuel (bestsize + 1)
            ⟨fun h0 => absurd h0 (Nat.succ_ne_zero _), hB.2.1, hB.2.2.1, fun _ => ?_⟩
          have h1 : besti + bestsize < ahi := h.1
          have h2 : bestj + bestsize < bhi := h.2.1
          constructor
          · show besti + (bestsize + 1) ≤ ahi
            omega
          · show bestj + (bestsize + 1) ≤ bhi
            omega
      · exact hB

/-- The block returned by `find_longest_match` lies inside the requested
region (and a size-0 result is `(alo, blo, 0)`). -/
theorem find_longest_match_inv (a b : List Char) (chain : List (Char × List Nat))
    (bjunk : Char → Bool) (alo ahi blo bhi : Nat) :
    BestInv alo ahi blo bhi (find_longest_match a b chain bjunk alo ahi blo bhi) := by
  have hB0 : BestInv alo ahi blo bhi (alo, blo, 0) :=
    ⟨fun _ => rfl, Nat.le_refl _, Nat.le_refl _, fun h => absurd rfl h⟩
  have h₀ : BestInv alo ahi blo bhi
      (outerLoop a chain blo bhi (List.range' alo (ahi - alo)) (fun _ => 0) (alo, blo, 0)) := by
    by_cases hle : alo ≤ ahi
    · exact outerLoop_inv (ahi - alo) alo (Nat.le_refl _) (by omega)
        (fun _ => 0) (alo, blo, 0) (J2Inv_zero _ _) hB0
    · have : ahi - alo = 0 := by omega
      rw [this]
      simpa [List.range', outerLoop] using hB0
  unfold find_longest_match extendHi extendHiJunk
  exact extendHiJunkAux_inv _ _ (extendLoJunk_inv _ _ _ (extendHiAux_inv _ _ (extendLo_inv _ _ _ h₀)))

end Difflib

namespace Difflib

/-- Measure of one queue region: its total size plus one.  The sum of the
measures of the queued regions strictly decreases at every iteration of the
`while queue:` loop, so it bounds the number of remaining iterations. -/
def regionSize : Nat × Nat × Nat × Nat → Nat
  | (alo, ahi, blo, bhi) => ahi - alo + (bhi - blo) + 1

/-- The `while queue:` loop of `get_matching_blocks`.  The Python queue is a
stack (`append`/`pop`); the head of the list here is the top of that stack,
so the region `(i+k, ahi, j+k, bhi)` pushed second is popped first.  The
first argument counts remaining iterations; `get_matching_blocks` passes the
measure of the initial queue, which `gmbLoop_fuel` shows is enough, so the
iteration count never runs out when entered from `get_matching_blocks`. -/
def gmbLoop (a b : List Char) (chain : List (Char × List Nat)) (bjunk : Char → Bool) :
    Nat → List (Nat × Nat × Nat × Nat) → List (Nat × Nat × Nat) → List (Nat × Nat × Nat)
  | _, [], acc => acc
  | 0, _ :: _, acc => acc
  | fuel + 1, (alo, ahi, blo, bhi) :: queue, acc =>
      if (find_longest_match a b chain bjunk alo ahi blo bhi).2.2 ≠ 0 then
        gmbLoop a b chain bjunk fuel
          (if (find_longest_match a b chain bjunk alo ahi blo bhi).1 +
                (find_longest_match a b chain bjunk alo ahi blo bhi).2.2 < ahi ∧
              (find_longest_match a b chain bjunk alo ahi blo bhi).2.1 +
                (find_longest_match a b chain bjunk alo ahi blo bhi).2.2 < bhi then
            ((find_longest_match a b chain bjunk alo ahi blo bhi).1 +
                (find_longest_match a b chain bjunk alo ahi blo bhi).2.2, ahi,
              (find_longest_match a b chain bjunk alo ahi blo bhi).2.1 +
                (find_longest_match a b chain bjunk alo ahi blo bhi).2.2, bhi) ::
              (if alo < (find_longest_match a b chain bjunk alo ahi blo bhi).1 ∧
                  blo < (find_longest_match a b chain bjunk alo ahi blo bhi).2.1 then
                (alo, (find_longest_match a b chain bjunk alo ahi blo bhi).1, blo,
                  (find_longest_match a b chain bjunk alo ahi blo bhi).2.1) :: queue
              else queue)
          else
            (if alo < (find_longest_match a b chain bjunk alo ahi blo bhi).1 ∧
                blo < (find_longest_match a b chain bjunk alo ahi blo bhi).2.1 then
              (alo, (find_longest_match a b chain bjunk alo ahi blo bhi).1, blo,
                (find_longest_match a b chain bjunk alo ahi blo bhi).2.1) :: queue
            else queue))
          (acc ++ [find_longest_match a b chain bjunk alo ahi blo bhi])
      else
        gmbLoop a b chain bjunk fuel queue acc

/-- Any iteration budget at least the measure of the queue computes the same
result: the loop is budget-independent above its measure, hence an exact
rendering of the unbounded Python loop. -/
theorem gmbLoop_fuel (a b : List Char) (chain : List (Char × List Nat)) (bjunk : Char → Bool) :
    ∀ (fuel fuel' : Nat) (queue : List (Nat × Nat × Nat × Nat)) (acc : List (Nat × Nat × Nat)),
    (queue.map regionSize).sum ≤ fuel → (queue.map regionSize).sum ≤ fuel' →
    gmbLoop a b chain bjunk fuel queue acc = gmbLoop a b chain bjunk fuel' queue acc
  | fuel, fuel', [], acc => fun _ _ => by cases fuel <;> cases fuel' <;> rfl
  | 0, fuel', (r :: queue), acc => fun h _ => by
      exfalso
      have : 1 ≤ regionSize r := by
        obtain ⟨alo, ahi, blo, bhi⟩ := r
        simp [regionSize]
      simp only [List.map_cons, List.sum_cons] at h
      omega
  | fuel + 1, 0, (r :: queue), acc => fun _ h' => by
      exfalso
      have : 1 ≤ regionSize r := by
        obtain ⟨alo, ahi, blo, bhi⟩ := r
        simp [regionSize]
      simp only [List.map_cons, List.sum_cons] at h'
      omega
  | fuel + 1, fuel' + 1, ((alo, ahi, blo, bhi) :: queue), acc => fun h h' => by
      have hinv := find_longest_match_inv a b chain bjunk alo ahi blo bhi
      have hi1 : alo ≤ (find_longest_match a b chain bjunk alo ahi blo bhi).1 := hinv.2.1
      have hj1 : blo ≤ (find_longest_match a b chain bjunk alo ahi blo bhi).2.1 := hinv.2.2.1
      simp only [List.map_cons, List.sum_cons, regionSize] at h h'
      rw [gmbLoop, gmbLoop]
      by_cases hk : (find_longest_match a b chain bjunk alo ahi blo bhi).2.2 ≠ 0
      · have hs := hinv.2.2.2 hk
        rw [if_pos hk, if_pos hk]
        split_ifs with hc2 hc1 hc1 <;>
          exact gmbLoop_fuel a b chain bjunk fuel fuel' _ _
            (by first
              | (simp only [List.map_cons, List.sum_cons, regionSize]; omega)
              | omega)
            (by first
              | (simp only [List.map_cons, List.sum_cons, regionSize]; omega)
              | omega)
      · rw [if_neg hk, if_neg hk]
        exact gmbLoop_fuel a b chain bjunk fuel fuel' queue acc (by omega) (by omega)

/-- Lexicographic comparison of block triples (Python tuple `<`). -/
def blockLt (x y : Nat × Nat × Nat) : Bool :=
  decide (x.1 < y.1 ∨ (x.1 = y.1 ∧ (x.2.1 < y.2.1 ∨ (x.2.1 = y.2.1 ∧ x.2.2 < y.2.2))))

/-- Stable insertion of a block into an ascending list (helper for
`matching_blocks.sort()`). -/
def insertBlock (x : Nat × Nat × Nat) : List (Nat × Nat × Nat) → List (Nat × Nat × Nat)
  | [] => [x]
  | y :: ys => if blockLt x y then x :: y :: ys else y :: insertBlock x ys

/-- Stable ascending sort of the collected blocks (`matching_blocks.sort()`;
Python's sort is stable, and so is this insertion sort). -/
def sortBlocks : List (Nat × Nat × Nat) → List (Nat × Nat × Nat)
  | [] => []
  | x :: xs => insertBlock x (sortBlocks xs)

/-- The adjacent-block collapsing loop at the end of `get_matching_blocks`,
starting from `i1 = j1 = k1 = 0`. -/
def collapseLoop : Nat × Nat × Nat → List (Nat × Nat × Nat) → List (Nat × Nat × Nat) →
    List (Nat × Nat × Nat)
  | (i1, j1, k1), [], acc => if k1 ≠ 0 then acc ++ [(i1, j1, k1)] else acc
  | (i1, j1, k1), (i2, j2, k2) :: rest, acc =>
      if i1 + k1 = i2 ∧ j1 + k1 = j2 then
        collapseLoop (i1, j1, k1 + k2) rest acc
      else
        collapseLoop (i2, j2, k2) rest (if k1 ≠ 0 then acc ++ [(i1, j1, k1)] else acc)

/-- `get_matching_blocks()`: queue-driven block collection over the whole
sequences, ascending sort, adjacent collapse, and the `(la, lb, 0)`
sentinel.  The junk set is empty because `_similarity` constructs
`SequenceMatcher(None, ...)`. -/
def get_matching_blocks (a b : List Char) : List (Nat × Nat × Nat) :=
  let la := a.length
  let lb := b.length
  let blocks := gmbLoop a b (chainB b) (fun _ => false) (la + lb + 1) [(0, la, 0, lb)] []
  let nonAdjacent := collapseLoop (0, 0, 0) (sortBlocks blocks) []
  nonAdjacent ++ [(la, lb, 0)]

/-- `_calculate_ratio`: `2.0 * matches / length` for a nonzero total length,
`1.0` otherwise, as an exact rational. -/
def calculateRatio (nmatch len : Nat) : ℚ :=
  if len ≠ 0 then (2 * nmatch : ℚ) / (len : ℚ) else 1

/-- `SequenceMatcher(None, a, b).ratio()`. -/
def ratioQ (a b : List Char) : ℚ :=
  calculateRatio ((get_matching_blocks a b).map (fun t => t.2.2)).sum (a.length + b.length)

end Difflib

namespace Difflib

/-! ### Reflexivity of the ratio

`ratio()` of a sequence against itself is `1.0`: the DP pass always keeps a
best block on the diagonal (off-diagonal chains never strictly beat the
diagonal chain through the same characters), and the extension loops then
grow any diagonal block to the whole sequence. -/

/-- The ascending list of positions at which `c` occurs in `l`, counting
from `k`. -/
def posFrom (c : Char) : Nat → List Char → List Nat
  | _, [] => []
  | k, d :: t => if d = c then k :: posFrom c (k + 1) t else posFrom c (k + 1) t

/-- Positions of `c` in `x`. -/
def posList (x : List Char) (c : Char) : List Nat := posFrom c 0 x

theorem mem_posFrom (c : Char) :
    ∀ (k : Nat) (l : List Char) (j : Nat),
    j ∈ posFrom c k l ↔ (k ≤ j ∧ j < k + l.length ∧ l.getD (j - k) (Char.ofNat 0) = c)
  | k, [], j => by
      simp only [posFrom, List.mem_nil_iff, List.length_nil]
      constructor
      · intro h
        exact absurd h (by simp)
      · intro h
        omega
  | k, d :: t, j => by
      by_cases hd : d = c
      · simp only [posFrom, if_pos hd, List.mem_cons, mem_posFrom c (k + 1) t j]
        constructor
        · rintro (rfl | ⟨h1, h2, h3⟩)
          · simpa using hd
          · refine ⟨by omega, by simp; omega, ?_⟩
            have : j - k = (j - (k + 1)) + 1 := by omega
            simpa [this] using h3
        · rintro ⟨h1, h2, h3⟩
          rcases Nat.eq_or_lt_of_le h1 with rfl | hlt
          · simp at h3
            left
            rfl
          · right
            refine ⟨by omega, by simp at h2 ⊢; omega, ?_⟩
            have : j - k = (j - (k + 1)) + 1 := by omega
            rw [this] at h3
            simpa using h3
      · simp only [posFrom, if_neg hd, mem_posFrom c (k + 1) t j]
        constructor
        · rintro ⟨h1, h2, h3⟩
          refine ⟨by omega, by simp at h2 ⊢; omega, ?_⟩
          have : j - k = (j - (k + 1)) + 1 := by omega
          rw [this]
          simpa using h3
        · rintro ⟨h1, h2, h3⟩
          rcases Nat.eq_or_lt_of_le h1 with rfl | hlt
          · simp at h3
            exact absurd h3 hd
          · refine ⟨by omega, by simp at h2 ⊢; omega, ?_⟩
            have : j - k = (j - (k + 1)) + 1 := by omega
            rw [this] at h3
            simpa using h3

theorem posFrom_ge (c : Char) :
    ∀ (k : Nat) (l : List Char) (j : Nat), j ∈ posFrom c k l → k ≤ j :=
  fun k l j h => ((mem_posFrom c k l j).mp h).1

theorem posFrom_sorted (c : Char) :
    ∀ (k : Nat) (l : List Char), (posFrom c k l).Pairwise (· < ·)
  | k, [] => by simp [posFrom]
  | k, d :: t => by
      by_cases hd : d = c
      · simp only [posFrom, if_pos hd]
        refine List.Pairwise.cons ?_ (posFrom_sorted c (k + 1) t)
        intro j hj
        have := posFrom_ge c (k + 1) t j hj
        omega
      · simpa only [posFrom, if_neg hd] using posFrom_sorted c (k + 1) t

theorem mem_posList (x : List Char) (c : Char) (j : Nat) :
    j ∈ posList x c ↔ (j < x.length ∧ charAt x j = c) := by
  rw [posList, mem_posFrom]
  simp [charAt]

theorem posList_sorted (x : List Char) (c : Char) : (posList x c).Pairwise (· < ·) :=
  posFrom_sorted c 0 x

theorem b2jRaw_step_get (m : List (Char × List Nat)) (k : Nat) (d c : Char) :
    aGet ((fun m (p : Nat × Char) =>
      match aGet m p.2 with
      | some js => aSet m p.2 (js ++ [p.1])
      | none => aSet m p.2 [p.1]) m (k, d)) c =
    if d = c then
      match aGet m c with
      | some js => some (js ++ [k])
      | none => some [k]
    else aGet m c := by
  by_cases hd : d = c
  · subst hd
    cases hm : aGet m d with
    | none => simp [hm, aGet_set_self]
    | some js => simp [hm, aGet_set_self]
  · have hne : c ≠ d := fun h => hd h.symm
    cases hm : aGet m d with
    | none => simp [hm, hd, aGet_set_ne m d c _ hne]
    | some js => simp [hm, hd, aGet_set_ne m d c _ hne]

theorem b2jRaw_fold_get :
    ∀ (l : List Char) (k : Nat) (m : List (Char × List Nat)) (c : Char),
    aGet ((List.enumFrom k l).foldl
      (fun m p =>
        match aGet m p.2 with
        | some js => aSet m p.2 (js ++ [p.1])
        | none => aSet m p.2 [p.1]) m) c =
    match aGet m c with
    | some js => some (js ++ posFrom c k l)
    | none => if c ∈ l then some (posFrom c k l) else none
  | [], k, m, c => by
      cases hm : aGet m c <;> simp [List.enumFrom, posFrom, hm]
  | d :: t, k, m, c => by
      rw [List.enumFrom, List.foldl_cons, b2jRaw_fold_get t (k + 1) _ c]
      rw [b2jRaw_step_get]
      by_cases hd : d = c
      · subst hd
        cases hm : aGet m d with
        | some js => simp [posFrom, List.append_assoc]
        | none => simp [posFrom, hm]
      · have hmem : (c ∈ d :: t) ↔ (c ∈ t) := by
          constructor
          · intro h
            rcases List.mem_cons.mp h with h | h
            · exact absurd h.symm hd
            · exact h
          · exact fun h => List.mem_cons_of_mem _ h
        cases hm : aGet m c <;>
          simp [hd, hm, posFrom, hmem]

/-- Lookup in the raw `b2j` table: the ascending occurrence list, present
exactly for the characters of `b`. -/
theorem b2jRaw_get (b : List Char) (c : Char) :
    aGet (b2jRaw b) c = if c ∈ b then some (posList b c) else none := by
  rw [b2jRaw, List.enum, b2jRaw_fold_get b 0 [] c]
  simp [aGet, posList]

theorem aGet_filter_notMem {α : Type} (pop : List Char) (m : List (Char × α)) (c : Char) :
    aGet (m.filter (fun p => decide (¬ p.1 ∈ pop))) c =
      if c ∈ pop then none else aGet m c := by
  induction m with
  | nil => simp [aGet]
  | cons hd t ih =>
      obtain ⟨k, v⟩ := hd
      by_cases hp : k ∈ pop
      · have hcond : (decide (¬ ((k, v).1 ∈ pop))) = false := by simp [hp]
        simp only [List.filter, hcond]
        rw [ih]
        by_cases hc : c ∈ pop
        · simp [hc]
        · have hk : ¬ k = c := fun h => hc (h ▸ hp)
          simp [hc, aGet, hk]
      · have hcond : (decide (¬ ((k, v).1 ∈ pop))) = true := by simp [hp]
        simp only [List.filter, hcond]
        by_cases hk : k = c
        · subst hk
          simp [aGet, hp]
        · simp only [aGet, if_neg hk]
          rw [ih]

/-- Lookup in the purged `b2j` table: either absent, or exactly the
ascending occurrence list. -/
theorem chainB_get (b : List Char) (c : Char) :
    aGet (chainB b) c = none ∨ aGet (chainB b) c = some (posList b c) := by
  rw [chainB]
  by_cases h2 : 200 ≤ b.length
  · simp only [if_pos h2]
    rw [aGet_filter_notMem]
    split
    · left
      rfl
    · rw [b2jRaw_get]
      split
      · right
        rfl
      · left
        rfl
  · simp only [if_neg h2]
    rw [b2jRaw_get]
    split
    · right
      rfl
    · left
      rfl

end Difflib

namespace Difflib

/-- A character of `b` that survived `__chain_b`'s purge (its occurrence
list is present in `b2j`). -/
def rare (x : List Char) (c : Char) : Bool := aContains (chainB x) c

theorem jsOf_rare (x : List Char) (c : Char) (h : rare x c = true) :
    aGetD (chainB x) c [] = posList x c := by
  rcases chainB_get x c with hc | hc
  · rw [rare, aContains, hc] at h
    simp at h
  · simp [aGetD, hc]

theorem jsOf_not_rare (x : List Char) (c : Char) (h : rare x c = false) :
    aGetD (chainB x) c [] = [] := by
  rcases chainB_get x c with hc | hc
  · simp [aGetD, hc]
  · rw [rare, aContains, hc] at h
    simp at h

/-- Length of the run of surviving ("rare") characters of `x` ending at
position `i`. -/
def rrun (x : List Char) : Nat → Nat
  | 0 => if 0 < x.length ∧ rare x (charAt x 0) = true then 1 else 0
  | i + 1 => if i + 1 < x.length ∧ rare x (charAt x (i + 1)) = true then rrun x i + 1 else 0

/-- The chain value the DP pass computes at row `i`, key `j`, when matching
`x` against itself: the length of the common all-rare suffix of the prefixes
ending at `i` and `j`. -/
def cc (x : List Char) : Nat → Nat → Nat
  | 0, j =>
      if 0 < x.length ∧ j < x.length ∧ charAt x j = charAt x 0 ∧ rare x (charAt x 0) = true
      then 1 else 0
  | i + 1, j =>
      if i + 1 < x.length ∧ j < x.length ∧ charAt x j = charAt x (i + 1) ∧
          rare x (charAt x (i + 1)) = true then
        match j with
        | 0 => 1
        | j' + 1 => cc x i j' + 1
      else 0

/-- The `j2len` row in force when row `i` starts: all zero for the first
row, the previous row's chain values afterwards. -/
def ccPrev (x : List Char) : Nat → Nat → Nat
  | 0, _ => 0
  | i + 1, j => cc x i j

/-- Maximum rare-run length over positions `0..i`. -/
def RR (x : List Char) : Nat → Nat
  | 0 => rrun x 0
  | i + 1 => max (RR x i) (rrun x (i + 1))

/-- The best size in force when row `i` starts. -/
def prevR (x : List Char) : Nat → Nat
  | 0 => 0
  | i + 1 => RR x i

theorem cc_self (x : List Char) : ∀ i, cc x i i = rrun x i
  | 0 => by simp [cc, rrun]
  | i + 1 => by
      by_cases h : i + 1 < x.length ∧ rare x (charAt x (i + 1)) = true
      · rw [cc, if_pos ⟨h.1, h.1, rfl, h.2⟩]
        rw [rrun, if_pos h, cc_self x i]
      · rw [cc, rrun, if_neg h, if_neg]
        intro hc
        exact h ⟨hc.1, hc.2.2.2⟩

theorem cc_le_rrun_right (x : List Char) : ∀ i j, cc x i j ≤ rrun x j
  | 0, j => by
      rw [cc]
      split
      · next h =>
          match j with
          | 0 => rw [rrun, if_pos ⟨h.1, h.2.2.1 ▸ h.2.2.2⟩]
          | j' + 1 =>
              rw [rrun, if_pos ⟨h.2.1, h.2.2.1 ▸ h.2.2.2⟩]
              omega
      · exact Nat.zero_le _
  | i + 1, j => by
      match j with
      | 0 =>
          rw [cc]
          split
          · next h => rw [rrun, if_pos ⟨h.2.1, h.2.2.1 ▸ h.2.2.2⟩]
          · exact Nat.zero_le _
      | j' + 1 =>
          rw [cc]
          split
          · next h =>
              rw [rrun, if_pos ⟨h.2.1, h.2.2.1 ▸ h.2.2.2⟩]
              have := cc_le_rrun_right x i j'
              omega
          · exact Nat.zero_le _

theorem cc_le_rrun_left (x : List Char) : ∀ i j, cc x i j ≤ rrun x i
  | 0, j => by
      rw [cc]
      split
      · next h => rw [rrun, if_pos ⟨h.1, h.2.2.2⟩]
      · exact Nat.zero_le _
  | i + 1, j => by
      match j with
      | 0 =>
          rw [cc]
          split
          · next h =>
              rw [rrun, if_pos ⟨h.1, h.2.2.2⟩]
              omega
          · exact Nat.zero_le _
      | j' + 1 =>
          rw [cc]
          split
          · next h =>
              rw [rrun, if_pos ⟨h.1, h.2.2.2⟩]
              have := cc_le_rrun_left x i j'
              omega
          · exact Nat.zero_le _

theorem rrun_le_RR (x : List Char) : ∀ m j, j ≤ m → rrun x j ≤ RR x m
  | 0, j => fun hj => by
      have : j = 0 := Nat.le_zero.mp hj
      subst this
      exact Nat.le_refl _
  | m + 1, j => fun hj => by
      rcases Nat.eq_or_lt_of_le hj with rfl | hlt
      · rw [RR]
        exact Nat.le_max_right _ _
      · rw [RR]
        exact Nat.le_trans (rrun_le_RR x m j (by omega)) (Nat.le_max_left _ _)

theorem rrun_le (x : List Char) : ∀ i, rrun x i ≤ i + 1
  | 0 => by
      rw [rrun]
      split <;> omega
  | i + 1 => by
      rw [rrun]
      have := rrun_le x i
      split <;> omega

theorem max_prevR_rrun (x : List Char) : ∀ i, max (prevR x i) (rrun x i) = RR x i
  | 0 => by simp [prevR, RR]
  | i + 1 => by rw [prevR, RR]

theorem cc_eq_zero_of_not_mem (x : List Char) (i j : Nat)
    (h : j ∉ posList x (charAt x i)) : cc x i j = 0 := by
  have hni : ¬ (j < x.length ∧ charAt x j = charAt x i) := by
    intro hc
    exact h ((mem_posList x _ j).mpr hc)
  match i with
  | 0 =>
      rw [cc, if_neg]
      intro hc
      exact hni ⟨hc.2.1, hc.2.2.1⟩
  | i + 1 =>
      match j with
      | 0 =>
          rw [cc, if_neg]
          intro hc
          exact hni ⟨hc.2.1, hc.2.2.1⟩
      | j' + 1 =>
          rw [cc, if_neg]
          intro hc
          exact hni ⟨hc.2.1, hc.2.2.1⟩

theorem cc_eq_zero_of_not_rare (x : List Char) (i j : Nat)
    (h : rare x (charAt x i) = false) : cc x i j = 0 := by
  match i with
  | 0 =>
      rw [cc, if_neg]
      intro hc
      rw [hc.2.2.2] at h
      cases h
  | i + 1 =>
      match j with
      | 0 =>
          rw [cc, if_neg]
          intro hc
          rw [hc.2.2.2] at h
          cases h
      | j' + 1 =>
          rw [cc, if_neg]
          intro hc
          rw [hc.2.2.2] at h
          cases h

theorem rrun_eq_zero_of_not_rare (x : List Char) (i : Nat)
    (h : rare x (charAt x i) = false) : rrun x i = 0 := by
  match i with
  | 0 =>
      rw [rrun, if_neg]
      intro hc
      rw [hc.2] at h
      cases h
  | i + 1 =>
      rw [rrun, if_neg]
      intro hc
      rw [hc.2] at h
      cases h

theorem chain_step (x : List Char) (i j : Nat)
    (hmem : j ∈ posList x (charAt x i)) (hi : i < x.length)
    (hrare : rare x (charAt x i) = true) (prevRow : Nat → Nat)
    (hprev : ∀ y, prevRow y = ccPrev x i y) :
    j2lenGet prevRow j + 1 = cc x i j := by
  obtain ⟨hj, hcj⟩ := (mem_posList x _ j).mp hmem
  match j with
  | 0 =>
      match i with
      | 0 => rw [j2lenGet, cc, if_pos ⟨hi, hj, hcj, hrare⟩]
      | i' + 1 => rw [j2lenGet, cc, if_pos ⟨hi, hj, hcj, hrare⟩]
  | j' + 1 =>
      match i with
      | 0 =>
          rw [j2lenGet, hprev j', ccPrev, cc, if_pos ⟨hi, hj, hcj, hrare⟩]
      | i' + 1 =>
          rw [j2lenGet, hprev j', ccPrev, cc, if_pos ⟨hi, hj, hcj, hrare⟩]

theorem innerRow (x : List Char) (i : Nat) (hi : i < x.length)
    (hrare : rare x (charAt x i) = true)
    (prevRow : Nat → Nat) (hprev : ∀ y, prevRow y = ccPrev x i y) :
    ∀ (remaining : List Nat) (newj2len : Nat → Nat) (best : Nat × Nat × Nat),
    (∀ j ∈ remaining, j ∈ posList x (charAt x i)) →
    remaining.Pairwise (· < ·) →
    (∀ j, newj2len j =
      if j ∈ posList x (charAt x i) ∧ j ∉ remaining then cc x i j else 0) →
    best.1 = best.2.1 →
    best.1 + best.2.2 ≤ x.length →
    (best.2.2 = 0 → best = (0, 0, 0)) →
    ((i ∈ remaining ∧ best.2.2 = prevR x i) ∨
      ((∀ j ∈ remaining, i < j) ∧ best.2.2 = max (prevR x i) (rrun x i))) →
    (∀ j, (innerLoop i 0 x.length prevRow remaining newj2len best).1 j =
        if j ∈ posList x (charAt x i) then cc x i j else 0) ∧
      (innerLoop i 0 x.length prevRow remaining newj2len best).2.1 =
        (innerLoop i 0 x.length prevRow remaining newj2len best).2.2.1 ∧
      (innerLoop i 0 x.length prevRow remaining newj2len best).2.1 +
        (innerLoop i 0 x.length prevRow remaining newj2len best).2.2.2 ≤ x.length ∧
      ((innerLoop i 0 x.length prevRow remaining newj2len best).2.2.2 = 0 →
        (innerLoop i 0 x.length prevRow remaining newj2len best).2 = (0, 0, 0)) ∧
      (innerLoop i 0 x.length prevRow remaining newj2len best).2.2.2 =
        max (prevR x i) (rrun x i)
  | [], newj2len, best => fun _ _ hnew hdiag hbound hzero hmode => by
      rw [innerLoop]
      refine ⟨fun j => ?_, hdiag, hbound, hzero, ?_⟩
      · show newj2len j = if j ∈ posList x (charAt x i) then cc x i j else 0
        rw [hnew j]
        by_cases hj : j ∈ posList x (charAt x i) <;> simp [hj, cc_eq_zero_of_not_mem x i j]
      · rcases hmode with ⟨hin, _⟩ | ⟨_, hval⟩
        · exact absurd hin (List.not_mem_nil i)
        · exact hval
  | j :: rest, newj2len, best => fun hsub hasc hnew hdiag hbound hzero hmode => by
      have hjmem : j ∈ posList x (charAt x i) := hsub j (List.mem_cons_self j rest)
      obtain ⟨hjn, hjc⟩ := (mem_posList x _ j).mp hjmem
      have hnotlt : ¬ j < 0 := Nat.not_lt_zero j
      have hnotge : ¬ x.length ≤ j := Nat.not_le_of_lt hjn
      have hk : j2lenGet prevRow j + 1 = cc x i j :=
        chain_step x i j hjmem hi hrare prevRow hprev
      have hjrest : j ∉ rest := by
        intro hmem
        have := (List.pairwise_cons.mp hasc).1 j hmem
        omega
      have hsub' : ∀ y ∈ rest, y ∈ posList x (charAt x i) :=
        fun y hy => hsub y (List.mem_cons_of_mem j hy)
      have hasc' : rest.Pairwise (· < ·) := (List.pairwise_cons.mp hasc).2
      have hnew' : ∀ y,
          (fun y => if y = j then j2lenGet prevRow j + 1 else newj2len y) y =
          if y ∈ posList x (charAt x i) ∧ y ∉ rest then cc x i y else 0 := by
        intro y
        by_cases hy : y = j
        · subst hy
          simp [hjmem, hjrest, hk]
        · simp only [if_neg hy]
          rw [hnew y]
          by_cases hmem : y ∈ posList x (charAt x i)
          · have hiff : (y ∉ j :: rest) ↔ (y ∉ rest) := by
              simp [List.mem_cons, hy]
            by_cases hr : y ∉ rest
            · rw [if_pos ⟨hmem, hiff.mpr hr⟩, if_pos ⟨hmem, hr⟩]
            · rw [if_neg (fun hc => hr (hiff.mp hc.2)), if_neg (fun hc => hr hc.2)]
          · rw [if_neg (fun hc => hmem hc.1), if_neg (fun hc => hmem hc.1)]
      rcases hmode with ⟨hin, hval⟩ | ⟨hgt, hval⟩
      · by_cases hji : j = i
        · -- the diagonal step: only here can the best be replaced
          have hij : i = j := hji.symm
          subst hij
          have hkk : j2lenGet prevRow i + 1 = rrun x i := by rw [hk, cc_self]
          have hgt' : ∀ y ∈ rest, i < y := (List.pairwise_cons.mp hasc).1
          by_cases hlt : best.2.2 < j2lenGet prevRow i + 1
          · have H := innerRow x i hi hrare prevRow hprev rest
              (fun y => if y = i then j2lenGet prevRow i + 1 else newj2len y)
              (i + 1 - (j2lenGet prevRow i + 1), i + 1 - (j2lenGet prevRow i + 1),
                j2lenGet prevRow i + 1)
              hsub' hasc' hnew' rfl ?_ ?_ ?_
            · simpa [innerLoop, hnotlt, hnotge, hlt] using H
            · show i + 1 - (j2lenGet prevRow i + 1) + (j2lenGet prevRow i + 1) ≤ x.length
              have := rrun_le x i
              omega
            · intro h0
              exact absurd h0 (Nat.succ_ne_zero _)
            · right
              refine ⟨hgt', ?_⟩
              show j2lenGet prevRow i + 1 = max (prevR x i) (rrun x i)
              rw [hkk] at hlt ⊢
              rw [hval] at hlt
              omega
          · have H := innerRow x i hi hrare prevRow hprev rest
              (fun y => if y = i then j2lenGet prevRow i + 1 else newj2len y)
              best hsub' hasc' hnew' hdiag hbound hzero ?_
            · simpa [innerLoop, hnotlt, hnotge, hlt] using H
            · right
              refine ⟨hgt', ?_⟩
              rw [hval]
              rw [hkk, hval] at hlt
              omega
        · -- a position strictly left of the diagonal: never an improvement
          have hji' : j < i := by
            have hle : j ≤ i := by
              rcases List.mem_cons.mp hin with h | h
              · omega
              · have := (List.pairwise_cons.mp hasc).1 i h
                omega
            omega
          have hbnd : j2lenGet prevRow j + 1 ≤ prevR x i := by
            rw [hk]
            have h1 := cc_le_rrun_right x i j
            have h2 : rrun x j ≤ RR x (i - 1) := rrun_le_RR x (i - 1) j (by omega)
            have h3 : prevR x i = RR x (i - 1) := by
              match i, hji' with
              | i' + 1, _ => rfl
            omega
          have hnolt : ¬ best.2.2 < j2lenGet prevRow j + 1 := by
            rw [hval]
            omega
          have hin' : i ∈ rest := by
            rcases List.mem_cons.mp hin with h | h
            · exact absurd h.symm hji
            · exact h
          have H := innerRow x i hi hrare prevRow hprev rest
            (fun y => if y = j then j2lenGet prevRow j + 1 else newj2len y)
            best hsub' hasc' hnew' hdiag hbound hzero (Or.inl ⟨hin', hval⟩)
          simpa [innerLoop, hnotlt, hnotge, hnolt] using H
      · -- all remaining positions are right of the diagonal
        have hji : i < j := hgt j (List.mem_cons_self j rest)
        have hbnd : j2lenGet prevRow j + 1 ≤ max (prevR x i) (rrun x i) := by
          rw [hk]
          have h1 := cc_le_rrun_left x i j
          omega
        have hnolt : ¬ best.2.2 < j2lenGet prevRow j + 1 := by
          rw [hval]
          omega
        have H := innerRow x i hi hrare prevRow hprev rest
          (fun y => if y = j then j2lenGet prevRow j + 1 else newj2len y)
          best hsub' hasc' hnew' hdiag hbound hzero
          (Or.inr ⟨fun y hy => hgt y (List.mem_cons_of_mem j hy), hval⟩)
        simpa [innerLoop, hnotlt, hnotge, hnolt] using H

theorem outerRows (x : List Char) :
    ∀ (m s : Nat), s + m = x.length →
    ∀ (j2len : Nat → Nat) (best : Nat × Nat × Nat),
    (∀ y, j2len y = ccPrev x s y) →
    best.1 = best.2.1 →
    best.1 + best.2.2 ≤ x.length →
    (best.2.2 = 0 → best = (0, 0, 0)) →
    best.2.2 = prevR x s →
    (outerLoop x (chainB x) 0 x.length (List.range' s m) j2len best).1 =
        (outerLoop x (chainB x) 0 x.length (List.range' s m) j2len best).2.1 ∧
      (outerLoop x (chainB x) 0 x.length (List.range' s m) j2len best).1 +
        (outerLoop x (chainB x) 0 x.length (List.range' s m) j2len best).2.2 ≤ x.length ∧
      ((outerLoop x (chainB x) 0 x.length (List.range' s m) j2len best).2.2 = 0 →
        (outerLoop x (chainB x) 0 x.length (List.range' s m) j2len best) = (0, 0, 0))
  | 0, s, hm, j2len, best => fun _ hdiag hbound hzero _ => by
      simpa [List.range', outerLoop] using ⟨hdiag, hbound, hzero⟩
  | m + 1, s, hm, j2len, best => fun hj hdiag hbound hzero hval => by
      have hs : s < x.length := by omega
      by_cases hr : rare x (charAt x s) = true
      · have hjs : aGetD (chainB x) (charAt x s) [] = posList x (charAt x s) :=
          jsOf_rare x _ hr
        have hmem : s ∈ posList x (charAt x s) :=
          (mem_posList x _ s).mpr ⟨hs, rfl⟩
        have hzero' : ∀ y, (fun _ => 0 : Nat → Nat) y =
            if y ∈ posList x (charAt x s) ∧ y ∉ posList x (charAt x s) then cc x s y else 0 := by
          intro y
          rw [if_neg (fun hc => hc.2 hc.1)]
        have H := innerRow x s hs hr j2len hj (posList x (charAt x s)) (fun _ => 0) best
          (fun y hy => hy) (posList_sorted x _) hzero' hdiag hbound hzero
          (Or.inl ⟨hmem, hval⟩)
        have hrownew : ∀ y,
            (innerLoop s 0 x.length j2len (posList x (charAt x s)) (fun _ => 0) best).1 y =
            ccPrev x (s + 1) y := by
          intro y
          rw [H.1 y, ccPrev]
          by_cases hy : y ∈ posList x (charAt x s)
          · rw [if_pos hy]
          · rw [if_neg hy, cc_eq_zero_of_not_mem x s y hy]
        have hvnew :
            (innerLoop s 0 x.length j2len (posList x (charAt x s)) (fun _ => 0) best).2.2.2 =
            prevR x (s + 1) := by
          rw [H.2.2.2.2, max_prevR_rrun, prevR]
        have hrec := outerRows x m (s + 1) (by omega) _ _ hrownew H.2.1 H.2.2.1 H.2.2.2.1 hvnew
        simpa [List.range', outerLoop, hjs] using hrec
      · have hr' : rare x (charAt x s) = false := by
          cases h : rare x (charAt x s)
          · rfl
          · exact absurd h hr
        have hjs : aGetD (chainB x) (charAt x s) [] = [] := jsOf_not_rare x _ hr'
        have hrownew : ∀ y, (fun _ => 0 : Nat → Nat) y = ccPrev x (s + 1) y := by
          intro y
          rw [ccPrev, cc_eq_zero_of_not_rare x s y hr']
        have hvnew : best.2.2 = prevR x (s + 1) := by
          rw [hval]
          have h0 : rrun x s = 0 := rrun_eq_zero_of_not_rare x s hr'
          match s with
          | 0 =>
              show prevR x 0 = prevR x 1
              rw [prevR, prevR, RR, h0]
          | s' + 1 =>
              show prevR x (s' + 1) = prevR x (s' + 2)
              show RR x s' = RR x (s' + 1)
              rw [RR, h0]
              omega
        have hrec := outerRows x m (s + 1) (by omega) _ _ hrownew hdiag hbound hzero hvnew
        simpa [List.range', outerLoop, hjs, innerLoop] using hrec

theorem extendLo_self (x : List Char) :
    ∀ (d s : Nat), extendLo x x (fun _ => false) 0 0 d d s = (0, 0, s + d)
  | 0, s => by rw [extendLo, Nat.add_zero]
  | d + 1, s => by
      rw [extendLo, if_pos ⟨Nat.succ_pos d, Nat.succ_pos d, rfl, rfl⟩]
      rw [Nat.add_sub_cancel, extendLo_self x d (s + 1)]
      have : s + 1 + d = s + (d + 1) := by omega
      rw [this]

theorem extendHiAux_self (x : List Char) :
    ∀ (fuel m : Nat), fuel = x.length - m → m ≤ x.length →
    extendHiAux x x (fun _ => false) x.length x.length 0 0 fuel m = (0, 0, x.length)
  | 0, m => fun hf hm => by
      have : m = x.length := by omega
      rw [extendHiAux, this]
  | fuel + 1, m => fun hf hm => by
      have hlt : m < x.length := by omega
      rw [extendHiAux, if_pos ⟨by omega, by omega, rfl, rfl⟩]
      exact extendHiAux_self x fuel (m + 1) (by omega) (by omega)

/-- On identical sequences `find_longest_match` over the full region returns
the whole diagonal. -/
theorem find_longest_match_self (x : List Char) :
    find_longest_match x x (chainB x) (fun _ => false) 0 x.length 0 x.length =
      (0, 0, x.length) := by
  have H := outerRows x x.length 0 (by omega) (fun _ => 0) (0, 0, 0)
    (fun y => by rw [ccPrev]) rfl (by simp) (fun _ => rfl) rfl
  rw [find_longest_match]
  simp only [Nat.sub_zero]
  set b0 := outerLoop x (chainB x) 0 x.length (List.range' 0 x.length) (fun _ => 0)
    (0, 0, 0) with hb0
  obtain ⟨hdiag, hbound, hzero⟩ := H
  have h1 : extendLo x x (fun _ => false) 0 0 b0.1 b0.2.1 b0.2.2 = (0, 0, b0.2.2 + b0.1) := by
    rw [← hdiag]
    exact extendLo_self x b0.1 b0.2.2
  rw [h1]
  have h2 : extendHi x x (fun _ => false) x.length x.length 0 0 (b0.2.2 + b0.1) =
      (0, 0, x.length) := by
    rw [extendHi]
    exact extendHiAux_self x _ _ (by omega) (by omega)
  rw [h2]
  have h3 : extendLoJunk x x (fun _ => false) 0 0 0 0 x.length = (0, 0, x.length) := by
    rw [extendLoJunk]
  rw [h3]
  rw [extendHiJunk]
  have h4 : x.length - (0 + x.length) = 0 := by omega
  rw [h4, extendHiJunkAux]

/-- On identical sequences the matching blocks are the whole diagonal plus
the sentinel. -/
theorem get_matching_blocks_self (x : List Char) :
    get_matching_blocks x x =
      if x.length = 0 then [(0, 0, 0)]
      else [(0, 0, x.length), (x.length, x.length, 0)] := by
  rw [get_matching_blocks]
  by_cases hn : x.length = 0
  · rw [if_pos hn, hn]
    rw [show (0 + 0 + 1 : Nat) = 1 by rfl]
    rw [gmbLoop]
    have h0 : find_longest_match x x (chainB x) (fun _ => false) 0 0 0 0 = (0, 0, 0) := by
      have := find_longest_match_self x
      rwa [hn] at this
    rw [if_neg (by rw [h0]; simp)]
    rw [gmbLoop, sortBlocks, collapseLoop, if_neg (by simp)]
    rfl
  · rw [if_neg hn]
    rw [gmbLoop]
    have h0 := find_longest_match_self x
    rw [if_pos (by rw [h0]; simpa using hn)]
    rw [if_neg (by rw [h0]; simp)]
    rw [if_neg (by rw [h0]; simp)]
    rw [h0, gmbLoop]
    simp [sortBlocks, insertBlock, collapseLoop, hn]

/-- `ratio()` of a sequence against itself is `1.0`. -/
theorem ratioQ_self (x : List Char) : ratioQ x x = 1 := by
  rw [ratioQ, get_matching_blocks_self]
  by_cases hn : x.length = 0
  · rw [if_pos hn, hn]
    rw [calculateRatio]
    simp
  · rw [if_neg hn]
    rw [calculateRatio, if_pos (by omega)]
    simp only [List.map_cons, List.map_nil, List.sum_cons, List.sum_nil]
    have hQ : ((x.length : ℚ) + x.length) ≠ 0 := by
      have : (0 : ℚ) < (x.length : ℚ) := by
        exact_mod_cast Nat.pos_of_ne_zero hn
      linarith
    push_cast
    field_simp
    ring
end Difflib

/-! ## Catalog libraries

`lib/npc_creature_library_complete.py` (`CompleteNPCCreatureLibrary`) and
`lib/item_library_complete.py` (`CompleteItemLibrary`).  A catalog entry is a
loaded JSON dict; the index structure built by `_build_indexes` is shared by
both classes (the item variant differs only in its priority table and in
indexes no claim touches, which are omitted there). -/

/-- A catalog entry: one loaded JSON record. -/
abbrev Entry := PyDict

/-- String value of a metadata field, as read by `entry.get(key, '')`.
Every such field holds a string in the loaded data; a non-string value would
raise in Python at the use sites and is read as `''` here. -/
def entryStr (e : Entry) (k : String) : String :=
  match aGet e k with
  | some (.str s) => s
  | _ => ""

/-- Text of a nested typed field, as read by `entry[key].get('_text', d)`
followed by `int(...)`-style use; non-string values are read as the
default. -/
def dictStrD (d : PyDict) (k : String) (default : String) : String :=
  match aGet d k with
  | some (.str s) => s
  | _ => default

/-- Digit value of a character, if it is one. -/
def digitVal? (c : Char) : Option Nat :=
  if 48 ≤ c.toNat ∧ c.toNat ≤ 57 then some (c.toNat - 48) else none

/-- Decimal accumulation over a digit string; `none` on a non-digit. -/
def parseNatAux : List Char → Nat → Option Nat
  | [], acc => some acc
  | c :: rest, acc =>
      match digitVal? c with
      | some d => parseNatAux rest (acc * 10 + d)
      | none => none

/-- Python `int(s)` on the strings that occur here: an optional sign followed
by decimal digits (`int` additionally tolerates surrounding whitespace and
digit-group underscores, which do not occur in the catalog data), raising —
`none` — otherwise. -/
def pyInt? (s : String) : Option Int :=
  match s.data with
  | [] => none
  | c :: rest =>
      if c = Char.ofNat 45 then
        if rest = [] then none else (parseNatAux rest 0).map (fun n => -(n : Int))
      else if c = Char.ofNat 43 then
        if rest = [] then none else (parseNatAux rest 0).map (fun n => (n : Int))
      else (parseNatAux (c :: rest) 0).map (fun n => (n : Int))

/-- Python truthiness filter on an optional dict (`if entry:` /
`if not base_entry:`): a `None`-or-dict value is truthy exactly when it is a
non-empty dict. -/
def truthyEntry : Option Entry → Option Entry
  | some d => if d.isEmpty then none else some d
  | none => none

/-- The indexes built by `_build_indexes`: the canonical name index, the
all-versions name index, and the id/profession/level indexes. -/
structure Library where
  by_name : List (String × Entry)
  by_name_all : List (String × List Entry)
  by_id : List (String × Entry)
  by_profession : List (String × List Entry)
  by_level : List (Int × List Entry)
deriving DecidableEq

namespace NpcLib

/-- `CompleteNPCCreatureLibrary.SOURCE_PRIORITY` (lower = higher priority). -/
def SOURCE_PRIORITY : List (String × Nat) :=
  [("Character Law", 1), ("Arms Law", 2), ("Spell Law", 3), ("Creatures & Treasures", 4)]

/-- `_get_priority`: table lookup with default 999. -/
def get_priority (source : String) : Nat := aGetD SOURCE_PRIORITY source 999

/-- The id-index step of the indexing loop. -/
def indexById (lib : Library) (entry : Entry) : Library :=
  let entry_id := entryStr entry "_id"
  if entry_id ≠ "" then { lib with by_id := aSet lib.by_id entry_id entry } else lib

/-- The name-index step of the indexing loop: append to `by_name_all`, and
set the canonical `by_name` slot when unset, else replace it exactly when the
new entry's source priority value is strictly lower. -/
def indexByName (lib : Library) (entry : Entry) : Library :=
  let name := strLower (entryStr entry "_display_name")
  let source := entryStr entry "_source_module"
  if name ≠ "" then
    let lib := { lib with
      by_name_all := aSet lib.by_name_all name (aGetD lib.by_name_all name [] ++ [entry]) }
    match aGet lib.by_name name with
    | none => { lib with by_name := aSet lib.by_name name entry }
    | some existing =>
        if get_priority source < get_priority (entryStr existing "_source_module") then
          { lib with by_name := aSet lib.by_name name entry }
        else lib
  else lib

/-- The profession-index step of the indexing loop. -/
def indexByProfession (lib : Library) (entry : Entry) : Library :=
  match aGet entry "profession" with
  | some (.dict d) =>
      let prof := dictStrD d "_text" ""
      if prof ≠ "" then
        { lib with by_profession :=
            (aSet lib.by_profession prof (aGetD lib.by_profession prof [] ++ [entry])) }
      else lib
  | _ => lib

/-- The level-index step of the indexing loop. -/
def indexByLevel (lib : Library) (entry : Entry) : Library :=
  match aGet entry "level" with
  | some (.dict d) =>
      match pyInt? (dictStrD d "_text" "0") with
      | some level =>
          { lib with by_level :=
              (aSet lib.by_level level (aGetD lib.by_level level [] ++ [entry])) }
      | none => lib
  | _ => lib

/-- One iteration of the indexing loop of `_build_indexes`, over one entry. -/
def indexEntry (lib : Library) (entry : Entry) : Library :=
  indexByLevel (indexByProfession (indexByName (indexById lib entry) entry) entry) entry

/-- `_build_indexes` over the collected entries.  The argument is
`all_entries`: the concatenation of the Character Law, Arms Law and
Creatures & Treasures source lists, in the order the code appends them. -/
def build_indexes (entries : List Entry) : Library :=
  entries.foldl indexEntry ⟨[], [], [], [], []⟩

/-- `find_by_name(name, preferred_source)`: case-insensitive, preferring the
requested source when given, else the canonical (highest-priority) entry. -/
def find_by_name (lib : Library) (name : String) (preferred_source : Option String) :
    Option Entry :=
  let name_lower := strLower name
  match preferred_source with
  | some ps =>
      match (aGetD lib.by_name_all name_lower []).find?
          (fun e => entryStr e "_source_module" == ps) with
      | some e => some e
      | none => aGet lib.by_name name_lower
  | none => aGet lib.by_name name_lower

/-- `find_by_profession_and_level`: first entry of the profession bucket
whose `level._text` parses to the requested level. -/
def find_by_profession_and_level (lib : Library) (profession : String) (level : Int) :
    Option Entry :=
  match aGet lib.by_profession profession with
  | none => none
  | some npcs =>
      npcs.find? (fun npc =>
        match aGet npc "level" with
        | some (.dict d) =>
            match pyInt? (dictStrD d "_text" "0") with
            | some npc_level => npc_level == level
            | none => false
        | _ => false)

/-- Numeric fields of the field-type inference table in
`copy_for_modification`. -/
def number_fields : List String := ["hp", "at", "db", "level", "baserate", "reach", "outlook"]

/-- Text fields of the field-type inference table. -/
def string_fields : List String :=
  ["profession", "race", "group", "subgroup", "abilities", "description", "spells",
    "stats", "size"]

/-- The body of the modification loop of `copy_for_modification`: merge one
override into the copied entry. -/
def applyModification (new_entry : Entry) (kv : String × PyVal) : Entry :=
  match aGet new_entry kv.1 with
  | some (.dict d) =>
      if aContains d "_text" then
        aSet new_entry kv.1 (.dict (aSet d "_text" (.str (pyStr kv.2))))
      else if kv.1 ∈ number_fields then
        aSet new_entry kv.1 (.dict [("@type", .str "number"), ("_text", .str (pyStr kv.2))])
      else if kv.1 ∈ string_fields then
        aSet new_entry kv.1 (.dict [("@type", .str "string"), ("_text", .str (pyStr kv.2))])
      else
        aSet new_entry kv.1
          (.dict [("@type", aGetD d "@type" (.str "string")), ("_text", .str (pyStr kv.2))])
  | _ =>
      if kv.1 ∈ number_fields then
        aSet new_entry kv.1 (.dict [("@type", .str "number"), ("_text", .str (pyStr kv.2))])
      else if kv.1 ∈ string_fields then
        aSet new_entry kv.1 (.dict [("@type", .str "string"), ("_text", .str (pyStr kv.2))])
      else
        aSet new_entry kv.1 (.dict [("@type", .str "string"), ("_text", .str (pyStr kv.2))])

/-- `copy_for_modification(name, new_name, modifications, preferred_source)`:
deep-copy the base entry (a value copy here), rewrite the identity and
provenance fields, then merge the overrides. -/
def copy_for_modification (lib : Library) (name new_name : String)
    (modifications : Option PyDict) (preferred_source : Option String) : Option Entry :=
  match truthyEntry (find_by_name lib name preferred_source) with
  | none => none
  | some base_entry =>
      let new_entry := base_entry
      let new_entry := match aGet new_entry "name" with
        | some (.dict d) => aSet new_entry "name" (.dict (aSet d "_text" (.str new_name)))
        | _ => new_entry
      let new_entry := match aGet new_entry "nonid_name" with
        | some (.dict d) => aSet new_entry "nonid_name" (.dict (aSet d "_text" (.str new_name)))
        | _ => new_entry
      let new_entry := aSet new_entry "_display_name" (.str new_name)
      let new_entry := aSet new_entry "_id"
        (.str ("id-custom-" ++ strReplaceChar (strLower new_name) ' ' '_'))
      let new_entry := aSet new_entry "_reference_path" .null
      let new_entry := aSet new_entry "_is_custom" (.bool true)
      let new_entry := aSet new_entry "_based_on" (aGetD base_entry "_display_name" .null)
      let new_entry := aSet new_entry "_based_on_path" (aGetD base_entry "_reference_path" .null)
      let new_entry := aSet new_entry "_based_on_source" (aGetD base_entry "_source_module" .null)
      let new_entry := match modifications with
        | none => new_entry
        | some mods => mods.foldl applyModification new_entry
      some new_entry

end NpcLib

namespace ItemLib

/-- `CompleteItemLibrary.SOURCE_PRIORITY` (Arms Law first for weapons). -/
def SOURCE_PRIORITY : List (String × Nat) :=
  [("Arms Law", 1), ("Character Law", 2), ("Spell Law", 3), ("Creatures & Treasures", 4)]

/-- `CompleteItemLibrary._get_priority`. -/
def get_priority (source : String) : Nat := aGetD SOURCE_PRIORITY source 999

/-- `CompleteItemLibrary.find_by_name`: same code as the NPC variant. -/
def find_by_name (lib : Library) (name : String) (preferred_source : Option String) :
    Option Entry :=
  NpcLib.find_by_name lib name preferred_source

/-- `CompleteItemLibrary.copy_for_modification`: like the NPC variant, but
`_based_on` records the reference path, there is no `_based_on_path`, and
overrides are written verbatim (`new_entry[key] = value`). -/
def copy_for_modification (lib : Library) (name new_name : String)
    (modifications : Option PyDict) (preferred_source : Option String) : Option Entry :=
  match truthyEntry (find_by_name lib name preferred_source) with
  | none => none
  | some base_entry =>
      let new_entry := base_entry
      let new_entry := match aGet new_entry "name" with
        | some (.dict d) => aSet new_entry "name" (.dict (aSet d "_text" (.str new_name)))
        | _ => new_entry
      let new_entry := match aGet new_entry "nonid_name" with
        | some (.dict d) => aSet new_entry "nonid_name" (.dict (aSet d "_text" (.str new_name)))
        | _ => new_entry
      let new_entry := aSet new_entry "_display_name" (.str new_name)
      let new_entry := aSet new_entry "_id"
        (.str ("id-custom-" ++ strReplaceChar (strLower new_name) ' ' '_'))
      let new_entry := aSet new_entry "_reference_path" .null
      let new_entry := aSet new_entry "_is_custom" (.bool true)
      let new_entry := aSet new_entry "_based_on" (aGetD base_entry "_reference_path" .null)
      let new_entry := aSet new_entry "_based_on_source" (aGetD base_entry "_source_module" .null)
      let new_entry := match modifications with
        | none => new_entry
        | some mods => mods.foldl (fun e kv => aSet e kv.1 kv.2) new_entry
      some new_entry

end ItemLib

/-! ## Entity matcher

`lib/entity_matcher.py` (`EntityMatcher`).  Floats are modelled as exact
rationals: `ratio()` values and the thresholds `0.80` / `0.90` are compared
over `ℚ`, which agrees with CPython's float comparison for every input whose
combined length is far below `2^52`.  A `None`-or-dict value guarded by
`if entry:` is truthy exactly when it is a non-empty dict (`truthyEntry`). -/

/-- Zero-padded decimal of a natural number, total width `w`. -/
def natPad0 (w : Nat) (n : Nat) : String :=
  let s := natDecimal n
  if s.length < w then String.mk (List.replicate (w - s.length) '0') ++ s else s

/-- Python `f"\x7bn:0wd\x7d"` for an int: the sign, when present, counts
toward the width. -/
def intFmt0 (w : Nat) (n : Int) : String :=
  if n < 0 then "-" ++ natPad0 (w - 1) n.natAbs else natPad0 w n.toNat

/-- Coerce a `PyVal` that is used as a `str` in the code.  At every use site
the value is a string in any run that does not raise (`.lower()` is called on
it); non-string values are mapped through `str()`. -/
def asString : PyVal → String
  | .str s => s
  | v => pyStr v

/-- The loaded alias tables (`npc_creature_item_mappings.yaml`): each section
of the YAML file, `[]` when a section is absent (`mappings.get(sec, {})`). -/
structure Mappings where
  professions : List (String × String)
  creatures : List (String × String)
  generic_npcs : List (String × String)
  items : List (String × String)
deriving DecidableEq

namespace Matcher

/-- `EntityMatcher.DEFAULT_LEVEL`. -/
def DEFAULT_LEVEL : Int := 5

/-- `EntityMatcher.FUZZY_THRESHOLD`. -/
def FUZZY_THRESHOLD : ℚ := 80 / 100

/-- `_similarity(a, b) = SequenceMatcher(None, a.lower(), b.lower()).ratio()`. -/
def similarity (a b : String) : ℚ :=
  Difflib.ratioQ (strLower a).data (strLower b).data

/-- Stable insertion into a score-descending list (an element moves past
exactly the entries with a strictly smaller score). -/
def insertDesc (x : String × ℚ) : List (String × ℚ) → List (String × ℚ)
  | [] => [x]
  | y :: ys => if y.2 < x.2 then x :: y :: ys else y :: insertDesc x ys

/-- `list.sort(key=lambda x: x[1], reverse=True)`: stable descending sort by
score. -/
def sortDesc (l : List (String × ℚ)) : List (String × ℚ) :=
  l.foldl (fun acc x => insertDesc x acc) []

/-- `_find_fuzzy_matches(name, candidates, threshold)`. -/
def find_fuzzy_matches (name : String) (candidates : List String)
    (threshold : Option ℚ) : List (String × ℚ) :=
  let t := threshold.getD FUZZY_THRESHOLD
  let ms := (candidates.map (fun c => (c, similarity name c))).filter
    (fun p => t ≤ p.2)
  sortDesc ms

/-- The result dict of `match_npc`.  `matched_name` starts as `None`;
`fuzzy_score` is `none` when the key is absent. -/
structure MatchResult where
  found : Bool
  entry : Option Entry
  method : String
  original_name : String
  matched_name : PyVal
  suggestions : List String
  level_used : Option Int
  fuzzy_score : Option ℚ
deriving DecidableEq

/-- The initial result dict of `match_npc`. -/
def initResult (name : String) (level : Option Int) : MatchResult :=
  ⟨false, none, "none", name, .null, [], level, none⟩

/-- Strategy 2 of `match_npc` (profession mappings).  `.inl` is a hit;
`.inr` carries the possibly defaulted local `level` and the possibly updated
result on to the next strategy. -/
def matchNpcProfession (lib : Library) (maps : Mappings) (name : String)
    (level : Option Int) (result : MatchResult) :
    MatchResult ⊕ (Option Int × MatchResult) :=
  if aContains maps.professions name then
    let template_name := aGetD maps.professions name ""
    let lvl := level.getD DEFAULT_LEVEL
    let result := if level = none then { result with level_used := some DEFAULT_LEVEL }
      else result
    match truthyEntry (NpcLib.find_by_profession_and_level lib template_name lvl) with
    | some entry => .inl { result with
        found := true, entry := some entry, method := "mapped_profession",
        matched_name := .str (template_name ++ " Level " ++ intFmt0 2 lvl) }
    | none => .inr (some lvl, result)
  else .inr (level, result)

/-- Strategy 3 of `match_npc` (creature aliases). -/
def matchNpcCreature (lib : Library) (maps : Mappings) (name : String)
    (result : MatchResult) : MatchResult ⊕ MatchResult :=
  if aContains maps.creatures name then
    let alias_target := aGetD maps.creatures name ""
    match truthyEntry (NpcLib.find_by_name lib alias_target none) with
    | some entry => .inl { result with
        found := true, entry := some entry, method := "mapped_alias",
        matched_name := aGetD entry "_display_name" (.str alias_target) }
    | none => .inr result
  else .inr result

/-- Strategy 4 of `match_npc` (generic NPC types). -/
def matchNpcGeneric (lib : Library) (maps : Mappings) (name : String)
    (level : Option Int) (result : MatchResult) :
    MatchResult ⊕ (Option Int × MatchResult) :=
  if aContains maps.generic_npcs name then
    let template_name := aGetD maps.generic_npcs name ""
    let lvl := level.getD DEFAULT_LEVEL
    let result := if level = none then { result with level_used := some DEFAULT_LEVEL }
      else result
    let entry := match truthyEntry
        (NpcLib.find_by_profession_and_level lib template_name lvl) with
      | some e => some e
      | none => NpcLib.find_by_name lib template_name none
    match truthyEntry entry with
    | some entry => .inl { result with
        found := true, entry := some entry, method := "mapped_generic",
        matched_name := aGetD entry "_display_name" (.str template_name) }
    | none => .inr (some lvl, result)
  else .inr (level, result)

/-- Strategy 5 of `match_npc` (fuzzy matching), always final. -/
def matchNpcFuzzy (lib : Library) (name : String) (result : MatchResult) :
    MatchResult :=
  let all_names := aKeys lib.by_name
  let fuzzy_matches := find_fuzzy_matches name all_names none
  match fuzzy_matches with
  | [] => result
  | (best_match_name, score) :: _ =>
      match truthyEntry (NpcLib.find_by_name lib best_match_name none) with
      | some entry =>
          if (90 : ℚ) / 100 ≤ score then
            { result with
              found := true, entry := some entry, method := "fuzzy",
              matched_name := aGetD entry "_display_name" (.str best_match_name),
              fuzzy_score := some score }
          else { result with suggestions := (fuzzy_matches.take 5).map Prod.fst }
      | none => { result with suggestions := (fuzzy_matches.take 5).map Prod.fst }

/-- `EntityMatcher.match_npc(name, level)`. -/
def match_npc (lib : Library) (maps : Mappings) (name : String)
    (level : Option Int) : MatchResult :=
  let result := initResult name level
  match truthyEntry (NpcLib.find_by_name lib name none) with
  | some entry => { result with
      found := true, entry := some entry, method := "exact",
      matched_name := aGetD entry "_display_name" (.str name) }
  | none =>
    match matchNpcProfession lib maps name level result with
    | .inl r => r
    | .inr (level, result) =>
      match matchNpcCreature lib maps name result with
      | .inl r => r
      | .inr result =>
        match matchNpcGeneric lib maps name level result with
        | .inl r => r
        | .inr (_, result) => matchNpcFuzzy lib name result

/-- The result dict of `create_custom_npc`: one record covering the success
and error shapes, absent keys as empty/none defaults. -/
structure CustomResult where
  success : Bool
  entry : Option Entry
  based_on : PyVal
  method : String
  error : String
  suggestions : List String
deriving DecidableEq

/-- `EntityMatcher.create_custom_npc(name, based_on, level, modifications)`. -/
def create_custom_npc (lib : Library) (maps : Mappings) (name based_on : String)
    (level : Option Int) (modifications : Option PyDict) : CustomResult :=
  let base_match := match_npc lib maps based_on level
  if base_match.found = false then
    { success := false, entry := none, based_on := .null, method := "",
      error := "Could not find base template " ++ pyQuote ++ based_on ++ pyQuote,
      suggestions := base_match.suggestions }
  else
    let matched := asString base_match.matched_name
    let custom_npc := NpcLib.copy_for_modification lib matched name modifications none
    let failed : CustomResult :=
      { success := false, entry := none, based_on := .null, method := "",
        error := "Failed to create custom NPC from " ++ pyQuote ++ matched ++ pyQuote,
        suggestions := [] }
    match truthyEntry custom_npc with
    | some d =>
        { success := true, entry := some d, based_on := base_match.matched_name,
          method := base_match.method, error := "", suggestions := [] }
    | none => failed

end Matcher

/-! ## Generators and the name registry

`lib/db_npcs.py` (`NPCGenerator`) and `lib/db_battles.py` (`BattleGenerator`).
The generator state carries the id counter(s) and the loader's `name_to_id`
registry; XML rendering (`create_npc_from_library`, `dict_to_xml`,
token elements) is outside the scope of the claims and an element is modelled
by its assigned tag id together with the entry it renders. -/

namespace NPCGen

/-- `ModuleLoader.__init__`: the registry starts with one empty sub-dict per
entity kind. -/
def initNameToId : List (String × List (String × String)) :=
  [("story", []), ("encounter", []), ("npc", []), ("item", []),
    ("parcel", []), ("image", [])]

/-- The mutable state of `NPCGenerator` that the claims touch: the id counter
(`self.next_id`, initialised to 1) and the shared loader registry
(`self.loader.name_to_id`). -/
structure GenState where
  next_id : Nat
  name_to_id : List (String × List (String × String))
deriving DecidableEq

/-- `NPCGenerator.__init__` counter/registry initialisation. -/
def initState : GenState := ⟨1, initNameToId⟩

/-- `NPCGenerator.get_next_id`: format, then post-increment. -/
def get_next_id (st : GenState) : String × GenState :=
  ("id-" ++ natPad0 5 st.next_id, { st with next_id := st.next_id + 1 })

/-- `self.loader.name_to_id['npc'][npc_name] = npc_id`. -/
def registerNpc (st : GenState) (npc_name npc_id : String) : GenState :=
  { st with name_to_id :=
      (aSet st.name_to_id "npc" (aSet (aGetD st.name_to_id "npc" []) npc_name npc_id)) }

/-- `yaml_npc.get('name')` with the truthiness guard `if not npc_name`.
A truthy non-string name would raise at `find_by_name` in CPython, before
any registry write; string values are the defined behaviour. -/
def yamlName (y : PyDict) : Option String :=
  match aGet y "name" with
  | some v => if pyFalsy v then none else some (asString v)
  | none => none

/-- `yaml_npc.get('level')`: an int or absent (non-int levels are outside the
YAML schema and would raise downstream). -/
def yamlLevel (y : PyDict) : Option Int :=
  match aGet y "level" with
  | some (.int n) => some n
  | _ => none

/-- The structural fields excluded from modification collection. -/
def skip_fields : List String :=
  ["name", "based_on", "modifications", "tokens", "weapons", "defences", "group"]

/-- The modification-collection loop of `create_npc_from_yaml` case 3: the
copied `modifications` dict extended with every top-level key not skipped and
not already present. -/
def collectModifications (y : PyDict) : PyDict :=
  let mods := match aGet y "modifications" with
    | some (.dict d) => d
    | _ => []
  y.foldl (fun m kv =>
    if kv.1 ∉ skip_fields ∧ ¬ aContains m kv.1 then aSet m kv.1 kv.2 else m) mods

/-- The XML element returned on success, abstracted to its assigned tag
(`npc_elem.tag = npc_id`) and the entry it renders. -/
structure NpcElem where
  tag : String
  entry : Entry
deriving DecidableEq

/-- `NPCGenerator.create_npc_from_yaml`: returns the element (or `None`) and
the updated generator state. -/
def create_npc_from_yaml (lib : Library) (maps : Mappings) (st : GenState)
    (yaml_npc : PyDict) : Option NpcElem × GenState :=
  match yamlName yaml_npc with
  | none => (none, st)
  | some npc_name =>
    let idSt := get_next_id st
    let npc_id := idSt.1
    let st := idSt.2
    if ¬ aContains yaml_npc "based_on" then
      let level := yamlLevel yaml_npc
      let result := Matcher.match_npc lib maps npc_name level
      if result.found = false then (none, st)
      else
        let st := registerNpc st npc_name npc_id
        (some ⟨npc_id, result.entry.getD []⟩, st)
    else
      let based_on := asString (aGetD yaml_npc "based_on" .null)
      let level := yamlLevel yaml_npc
      let modifications := collectModifications yaml_npc
      let result := Matcher.create_custom_npc lib maps npc_name based_on level
        (some modifications)
      if result.success = false then (none, st)
      else
        let st := registerNpc st npc_name npc_id
        (some ⟨npc_id, result.entry.getD []⟩, st)

end NPCGen

namespace BattleGen

/-- The id counters of `BattleGenerator` (`next_id` for battles,
`npc_next_id` for battle NPCs), both initialised to 1. -/
structure GenState where
  next_id : Nat
  npc_next_id : Nat
deriving DecidableEq

/-- `BattleGenerator.__init__` counter initialisation. -/
def initState : GenState := ⟨1, 1⟩

/-- `BattleGenerator.get_next_id`. -/
def get_next_id (st : GenState) : String × GenState :=
  ("id-" ++ natPad0 5 st.next_id, { st with next_id := st.next_id + 1 })

/-- `BattleGenerator.get_next_npc_id`. -/
def get_next_npc_id (st : GenState) : String × GenState :=
  ("id-" ++ natPad0 5 st.npc_next_id, { st with npc_next_id := st.npc_next_id + 1 })

end BattleGen

/-! ## Identifier allocation: supporting lemmas -/

/-- Decimal parse, inverse of `natDigits` / `natPad0`. -/
def parseDigits (l : List Char) : Nat :=
  l.foldl (fun acc c => acc * 10 + (c.toNat - 48)) 0

theorem digitChar_toNat (d : Nat) (h : d < 10) : (digitChar d).toNat = 48 + d := by
  interval_cases d <;> decide

theorem parse_natDigits (fuel : Nat) : ∀ n, n < fuel →
    parseDigits (natDigits fuel n) = n := by
  induction fuel with
  | zero => intro n h; omega
  | succ fuel ih =>
      intro n h
      rw [natDigits]
      by_cases h10 : n < 10
      · rw [if_pos h10]
        simp [parseDigits, digitChar_toNat n h10]
      · rw [if_neg h10]
        have hdiv : n / 10 < fuel := by
          have h1 : n / 10 < n := Nat.div_lt_self (by omega) (by omega)
          omega
        have hmod : n % 10 < 10 := Nat.mod_lt _ (by omega)
        simp only [parseDigits, List.foldl_append] at *
        rw [ih (n / 10) hdiv, List.foldl, List.foldl, digitChar_toNat (n % 10) hmod]
        omega

theorem parse_replicate_zero (k : Nat) : ∀ acc : Nat,
    (List.replicate k '0').foldl (fun acc c => acc * 10 + (c.toNat - 48)) acc
      = acc * 10 ^ k := by
  induction k with
  | zero => intro acc; simp
  | succ k ih =>
      intro acc
      rw [List.replicate_succ, List.foldl, ih]
      have : ('0').toNat - 48 = 0 := by decide
      rw [this]
      ring

theorem parse_natPad0 (w n : Nat) : parseDigits (natPad0 w n).data = n := by
  have hd : parseDigits (natDecimal n).data = n := by
    show parseDigits (natDigits (n + 1) n) = n
    exact parse_natDigits (n + 1) n (Nat.lt_succ_self n)
  rw [natPad0]
  by_cases hl : (natDecimal n).length < w
  · rw [if_pos hl]
    show parseDigits ((String.mk (List.replicate (w - (natDecimal n).length) '0')
      ++ natDecimal n).data) = n
    rw [String.data_append]
    show parseDigits (List.replicate (w - (natDecimal n).length) '0'
      ++ (natDecimal n).data) = n
    rw [parseDigits, List.foldl_append]
    rw [show (List.replicate (w - (natDecimal n).length) '0').foldl
        (fun acc c => acc * 10 + (c.toNat - 48)) 0 = 0 by
      rw [parse_replicate_zero]; ring]
    exact hd
  · rw [if_neg hl]; exact hd

theorem natPad0_inj (w m n : Nat) (h : natPad0 w m = natPad0 w n) : m = n := by
  have := congrArg (fun s => parseDigits s.data) h
  simpa [parse_natPad0] using this

namespace NPCGen

/-- `k` successive calls of `get_next_id`, keeping only the state. -/
def allocN : Nat → GenState → GenState
  | 0, st => st
  | k + 1, st => allocN k (get_next_id st).2

theorem allocN_next_id (k : Nat) : ∀ st : GenState,
    (allocN k st).next_id = st.next_id + k := by
  induction k with
  | zero => intro st; rfl
  | succ k ih =>
      intro st
      show (allocN k (get_next_id st).2).next_id = _
      rw [ih]
      show st.next_id + 1 + k = st.next_id + (k + 1)
      omega

theorem allocN_name_to_id (k : Nat) : ∀ st : GenState,
    (allocN k st).name_to_id = st.name_to_id := by
  induction k with
  | zero => intro st; rfl
  | succ k ih => intro st; exact ih (get_next_id st).2

end NPCGen

namespace BattleGen

/-- `k` successive calls of `BattleGenerator.get_next_id`. -/
def allocN : Nat → GenState → GenState
  | 0, st => st
  | k + 1, st => allocN k (get_next_id st).2

/-- `k` successive calls of `BattleGenerator.get_next_npc_id`. -/
def allocNpc : Nat → GenState → GenState
  | 0, st => st
  | k + 1, st => allocNpc k (get_next_npc_id st).2

theorem battle_allocN_next_id (k : Nat) : ∀ st : GenState,
    (allocN k st).next_id = st.next_id + k := by
  induction k with
  | zero => intro st; rfl
  | succ k ih =>
      intro st
      show (allocN k (get_next_id st).2).next_id = _
      rw [ih]
      show st.next_id + 1 + k = st.next_id + (k + 1)
      omega

theorem allocNpc_npc_next_id (k : Nat) : ∀ st : GenState,
    (allocNpc k st).npc_next_id = st.npc_next_id + k := by
  induction k with
  | zero => intro st; rfl
  | succ k ih =>
      intro st
      show (allocNpc k (get_next_npc_id st).2).npc_next_id = _
      rw [ih]
      show st.npc_next_id + 1 + k = st.npc_next_id + (k + 1)
      omega

end BattleGen

/-- Claim C6, counterexample to fixed width: the token allocated by the
100000th call of `NPCGenerator.get_next_id` is one character longer than the
first one, so the identifiers are not fixed-width. -/
theorem c6_counterexample :
    (NPCGen.get_next_id (NPCGen.allocN 99999 NPCGen.initState)).1.length ≠
      (NPCGen.get_next_id NPCGen.initState).1.length := by
  have h : (NPCGen.allocN 99999 NPCGen.initState).next_id = 100000 := by
    rw [NPCGen.allocN_next_id]; rfl
  show ("id-" ++ natPad0 5 (NPCGen.allocN 99999 NPCGen.initState).next_id).length ≠ _
  rw [h]
  decide

/-- Claim C6 (amended: the identifiers of one kind are sequential, unique and
zero-padded to a minimum of five digits, but the width is not fixed once the
counter passes 99999): the `k`-th allocation of each counter returns
`"id-" ++ natPad0 5 (k+1)` and increments that counter, distinct allocations
return distinct tokens, and allocation is total. -/
theorem c6_id_allocation (k j : Nat) (hkj : k ≠ j) :
    (NPCGen.get_next_id (NPCGen.allocN k NPCGen.initState)).1
      = "id-" ++ natPad0 5 (k + 1) ∧
    (NPCGen.get_next_id (NPCGen.allocN k NPCGen.initState)).2.next_id = k + 2 ∧
    (NPCGen.get_next_id (NPCGen.allocN k NPCGen.initState)).1
      ≠ (NPCGen.get_next_id (NPCGen.allocN j NPCGen.initState)).1 ∧
    (BattleGen.get_next_id (BattleGen.allocN k BattleGen.initState)).1
      = "id-" ++ natPad0 5 (k + 1) ∧
    (BattleGen.get_next_npc_id (BattleGen.allocNpc k BattleGen.initState)).1
      = "id-" ++ natPad0 5 (k + 1) := by
  have hn : ∀ m : Nat, (NPCGen.get_next_id (NPCGen.allocN m NPCGen.initState)).1
      = "id-" ++ natPad0 5 (m + 1) := by
    intro m
    show "id-" ++ natPad0 5 (NPCGen.allocN m NPCGen.initState).next_id = _
    rw [NPCGen.allocN_next_id]
    show "id-" ++ natPad0 5 (1 + m) = "id-" ++ natPad0 5 (m + 1)
    rw [Nat.add_comm]
  refine ⟨hn k, ?_, ?_, ?_, ?_⟩
  · show (NPCGen.allocN k NPCGen.initState).next_id + 1 = k + 2
    rw [NPCGen.allocN_next_id]
    show 1 + k + 1 = k + 2
    omega
  · rw [hn k, hn j]
    intro h
    have h2 : natPad0 5 (k + 1) = natPad0 5 (j + 1) := by
      have := congrArg String.data h
      rw [String.data_append, String.data_append] at this
      have h3 := List.append_cancel_left this
      exact String.ext h3
    exact hkj (by have := natPad0_inj 5 (k + 1) (j + 1) h2; omega)
  · show "id-" ++ natPad0 5 (BattleGen.allocN k BattleGen.initState).next_id = _
    rw [BattleGen.battle_allocN_next_id]
    show "id-" ++ natPad0 5 (1 + k) = "id-" ++ natPad0 5 (k + 1)
    rw [Nat.add_comm]
  · show "id-" ++ natPad0 5 (BattleGen.allocNpc k BattleGen.initState).npc_next_id = _
    rw [BattleGen.allocNpc_npc_next_id]
    show "id-" ++ natPad0 5 (1 + k) = "id-" ++ natPad0 5 (k + 1)
    rw [Nat.add_comm]

/-- Witness for C6 at `k = 0`, `j = 1`. -/
theorem c6_id_allocation_witness :
    (NPCGen.get_next_id (NPCGen.allocN 0 NPCGen.initState)).1
      = "id-" ++ natPad0 5 (0 + 1) ∧
    (NPCGen.get_next_id (NPCGen.allocN 0 NPCGen.initState)).2.next_id = 0 + 2 ∧
    (NPCGen.get_next_id (NPCGen.allocN 0 NPCGen.initState)).1
      ≠ (NPCGen.get_next_id (NPCGen.allocN 1 NPCGen.initState)).1 ∧
    (BattleGen.get_next_id (BattleGen.allocN 0 BattleGen.initState)).1
      = "id-" ++ natPad0 5 (0 + 1) ∧
    (BattleGen.get_next_npc_id (BattleGen.allocNpc 0 BattleGen.initState)).1
      = "id-" ++ natPad0 5 (0 + 1) :=
  c6_id_allocation 0 1 (by decide)

/-- Claim C9, counterexample to symmetry: `_similarity("aba", "babba")` is
`3/4` while `_similarity("babba", "aba")` is `1/2`. -/
theorem c9_counterexample :
    Matcher.similarity "aba" "babba" ≠ Matcher.similarity "babba" "aba" := by
  have h1 : Difflib.get_matching_blocks (strLower "aba").data (strLower "babba").data
      = [(0, 1, 2), (2, 4, 1), (3, 5, 0)] := by decide
  have h2 : Difflib.get_matching_blocks (strLower "babba").data (strLower "aba").data
      = [(0, 1, 2), (5, 3, 0)] := by decide
  have l1 : (strLower "aba").length = 3 := by decide
  have l2 : (strLower "babba").length = 5 := by decide
  rw [Matcher.similarity, Matcher.similarity, Difflib.ratioQ, Difflib.ratioQ, h1, h2]
  norm_num [Difflib.calculateRatio, l1, l2]

/-- Claim C9 (amended: the similarity function is reflexive —
`_similarity(x, x) = 1` for every string `x` — but it is not symmetric):
reflexivity, proved for the full `SequenceMatcher.ratio` pipeline including
the autojunk popularity heuristic. -/
theorem c9_similarity_reflexive (x : String) : Matcher.similarity x x = 1 :=
  Difflib.ratioQ_self (strLower x).data

/-- Claim C10: when the requested name has an exact (case-insensitive,
truthy) entry in the catalog, `match_npc` returns found with method `exact`
and that entry for every optional level argument; the level argument does not
influence the selection, `level_used` is exactly the argument (`None` when
omitted), and the default level is not substituted. -/
theorem c10_exact_match (lib : Library) (maps : Mappings) (name : String)
    (level : Option Int) (e : Entry)
    (h : truthyEntry (NpcLib.find_by_name lib name none) = some e) :
    Matcher.match_npc lib maps name level =
      { found := true, entry := some e, method := "exact", original_name := name,
        matched_name := aGetD e "_display_name" (.str name), suggestions := [],
        level_used := level, fuzzy_score := none } := by
  rw [Matcher.match_npc, h]
  rfl

/-- Witness for C10: a one-entry catalog, requested with and without a level. -/
theorem c10_exact_match_witness :
    Matcher.match_npc ⟨[("wolf", [("_display_name", PyVal.str "Wolf")])], [], [], [], []⟩
        ⟨[], [], [], []⟩ "Wolf" none =
      { found := true, entry := some [("_display_name", PyVal.str "Wolf")],
        method := "exact", original_name := "Wolf",
        matched_name := aGetD [("_display_name", PyVal.str "Wolf")] "_display_name"
          (.str "Wolf"),
        suggestions := [], level_used := none, fuzzy_score := none } :=
  c10_exact_match ⟨[("wolf", [("_display_name", PyVal.str "Wolf")])], [], [], [], []⟩
    ⟨[], [], [], []⟩ "Wolf" none [("_display_name", PyVal.str "Wolf")] (by decide)

/-- The catalog of the C8 counterexample: no `by_name` entry for "Guard", one
"Warrior" profession template at level 5 whose display name is "City Guard". -/
def c8lib : Library :=
  { by_name := [], by_name_all := [], by_id := [],
    by_profession := [("Warrior",
      [[("_display_name", PyVal.str "City Guard"),
        ("profession", PyVal.dict [("_text", PyVal.str "Warrior")]),
        ("level", PyVal.dict [("_text", PyVal.str "5")])]])],
    by_level := [] }

/-- The mapping tables of the C8 counterexample: "Guard" is a generic NPC
type mapped to the "Warrior" template. -/
def c8maps : Mappings := ⟨[], [], [("Guard", "Warrior")], []⟩

/-- Claim C8, counterexample: a name resolved through the generic-type table
with no caller level does substitute and record the default level 5, but the
reported matched name is the entry's display name ("City Guard"), not the
claimed "template Level NN" format ("Warrior Level 05"). -/
theorem c8_counterexample :
    (Matcher.match_npc c8lib c8maps "Guard" none).method = "mapped_generic" ∧
    (Matcher.match_npc c8lib c8maps "Guard" none).level_used = some 5 ∧
    (Matcher.match_npc c8lib c8maps "Guard" none).matched_name ≠
      PyVal.str ("Warrior Level " ++ intFmt0 2 5) ∧
    (Matcher.match_npc c8lib c8maps "Guard" none).matched_name =
      PyVal.str "City Guard" := by
  decide

theorem truthyEntry_eq_some {o : Option Entry} {e : Entry}
    (h : truthyEntry o = some e) : o = some e ∧ e.isEmpty = false := by
  match o with
  | none => exact absurd h (by simp [truthyEntry])
  | some d =>
      rw [truthyEntry] at h
      by_cases hd : d.isEmpty
      · rw [if_pos hd] at h; exact absurd h (by simp)
      · rw [if_neg hd] at h
        cases h
        exact ⟨rfl, by simpa using hd⟩

theorem truthyEntry_some {e : Entry} (h : e.isEmpty = false) :
    truthyEntry (some e) = some e := by
  rw [truthyEntry, if_neg (by simp [h])]

/-- Claim C8 (amended: with no caller level, both the profession path and the
generic path substitute `DEFAULT_LEVEL = 5` and record it in `level_used`;
the profession path reports `"<template> Level NN"` zero-padded to two
digits, while the generic path reports the entry's display name, falling
back to the template name): both paths of `match_npc`, plus the format of
the padded default. -/
theorem c8_default_level (lib : Library) (maps : Mappings) (name tpl : String)
    (e : Entry) :
    (truthyEntry (NpcLib.find_by_name lib name none) = none →
      aContains maps.professions name = true →
      aGetD maps.professions name "" = tpl →
      truthyEntry (NpcLib.find_by_profession_and_level lib tpl
        Matcher.DEFAULT_LEVEL) = some e →
      Matcher.match_npc lib maps name none =
        { found := true, entry := some e, method := "mapped_profession",
          original_name := name,
          matched_name := .str (tpl ++ " Level " ++ intFmt0 2 Matcher.DEFAULT_LEVEL),
          suggestions := [], level_used := some Matcher.DEFAULT_LEVEL,
          fuzzy_score := none }) ∧
    (truthyEntry (NpcLib.find_by_name lib name none) = none →
      aContains maps.professions name = false →
      aContains maps.creatures name = false →
      aContains maps.generic_npcs name = true →
      aGetD maps.generic_npcs name "" = tpl →
      truthyEntry (NpcLib.find_by_profession_and_level lib tpl
        Matcher.DEFAULT_LEVEL) = some e →
      Matcher.match_npc lib maps name none =
        { found := true, entry := some e, method := "mapped_generic",
          original_name := name,
          matched_name := aGetD e "_display_name" (.str tpl),
          suggestions := [], level_used := some Matcher.DEFAULT_LEVEL,
          fuzzy_score := none }) ∧
    intFmt0 2 Matcher.DEFAULT_LEVEL = "05" := by
  refine ⟨?_, ?_, by decide⟩
  · intro hex hmem htpl hhit
    have h1 : Matcher.matchNpcProfession lib maps name none (Matcher.initResult name none)
        = .inl { Matcher.initResult name none with
            found := true, entry := some e, method := "mapped_profession",
            matched_name := .str (tpl ++ " Level " ++ intFmt0 2 Matcher.DEFAULT_LEVEL),
            level_used := some Matcher.DEFAULT_LEVEL } := by
      rw [Matcher.matchNpcProfession, if_pos hmem, htpl]
      simp only [Option.getD]
      rw [hhit]
      simp
    simp only [Matcher.match_npc, hex, h1]
    rfl
  · intro hex hpro hcre hmem htpl hhit
    have h1 : Matcher.matchNpcProfession lib maps name none (Matcher.initResult name none)
        = .inr (none, Matcher.initResult name none) := by
      rw [Matcher.matchNpcProfession, if_neg (by simp [hpro])]
    have h2 : Matcher.matchNpcCreature lib maps name (Matcher.initResult name none)
        = .inr (Matcher.initResult name none) := by
      rw [Matcher.matchNpcCreature, if_neg (by simp [hcre])]
    have h3 : Matcher.matchNpcGeneric lib maps name none (Matcher.initResult name none)
        = .inl { Matcher.initResult name none with
            found := true, entry := some e, method := "mapped_generic",
            matched_name := aGetD e "_display_name" (.str tpl),
            level_used := some Matcher.DEFAULT_LEVEL } := by
      rw [Matcher.matchNpcGeneric, if_pos hmem, htpl]
      simp only [Option.getD]
      rw [hhit]
      rw [truthyEntry_some (truthyEntry_eq_some hhit).2]
      simp
    simp only [Matcher.match_npc, hex, h1, h2, h3]
    rfl

/-- Witness for C8: the profession branch, the generic branch and the format,
each at a concrete catalog. -/
theorem c8_default_level_witness :
    Matcher.match_npc c8lib c8maps "Guard" none =
      { found := true,
        entry := some [("_display_name", PyVal.str "City Guard"),
          ("profession", PyVal.dict [("_text", PyVal.str "Warrior")]),
          ("level", PyVal.dict [("_text", PyVal.str "5")])],
        method := "mapped_generic", original_name := "Guard",
        matched_name := PyVal.str "City Guard", suggestions := [],
        level_used := some 5, fuzzy_score := none } :=
  ((c8_default_level c8lib c8maps "Guard" "Warrior"
      [("_display_name", PyVal.str "City Guard"),
        ("profession", PyVal.dict [("_text", PyVal.str "Warrior")]),
        ("level", PyVal.dict [("_text", PyVal.str "5")])]).2.1
    (by decide) (by decide) (by decide) (by decide) (by decide) (by decide))

/-! ## Synthesis merge: supporting lemmas -/

theorem applyModification_ne (e : Entry) (kv : String × PyVal) (k : String)
    (hne : k ≠ kv.1) : aGet (NpcLib.applyModification e kv) k = aGet e k := by
  have hne' : k ≠ kv.1 := hne
  rw [NpcLib.applyModification]
  split
  · split_ifs <;> rw [aGet_set_ne _ _ _ _ hne']
  · split_ifs <;> rw [aGet_set_ne _ _ _ _ hne']

theorem aGet_foldl_applyModification (mods : PyDict) : ∀ (e : Entry) (k : String),
    (∀ kv ∈ mods, k ≠ kv.1) →
    aGet (mods.foldl NpcLib.applyModification e) k = aGet e k := by
  induction mods with
  | nil => intro e k _; rfl
  | cons kv rest ih =>
      intro e k hk
      rw [List.foldl_cons, ih _ k (fun kv h => hk kv (List.mem_cons_of_mem _ h)),
        applyModification_ne _ _ _ (hk kv (List.mem_cons_self _ _))]

theorem aGet_foldl_set (mods : PyDict) : ∀ (e : Entry) (k : String),
    (∀ kv ∈ mods, k ≠ kv.1) →
    aGet (mods.foldl (fun e kv => aSet e kv.1 kv.2) e) k = aGet e k := by
  induction mods with
  | nil => intro e k _; rfl
  | cons kv rest ih =>
      intro e k hk
      rw [List.foldl_cons, ih _ k (fun kv h => hk kv (List.mem_cons_of_mem _ h)),
        aGet_set_ne _ _ _ _ (hk kv (List.mem_cons_self _ _))]

/-- The fields `copy_for_modification` rewrites on every synthesized copy:
the identity fields (`name._text`, `nonid_name._text`, `_display_name`,
`_id`) and the provenance fields (`_reference_path`, `_is_custom`,
`_based_on`, `_based_on_path`, `_based_on_source`). -/
def rewrittenFields : List String :=
  ["name", "nonid_name", "_display_name", "_id", "_reference_path", "_is_custom",
    "_based_on", "_based_on_path", "_based_on_source"]

/-- Claim C5, counterexample: with an empty override mapping, the
synthesized copy's `_display_name` field — not named in the overrides — is
the new name, not the base entry's value. -/
theorem c5_counterexample :
    (NpcLib.copy_for_modification
        ⟨[("warrior", [("_display_name", PyVal.str "Warrior")])], [], [], [], []⟩
        "Warrior" "Skauril" (some []) none).map (fun r => aGet r "_display_name")
      = some (some (PyVal.str "Skauril")) ∧
    aGet [("_display_name", PyVal.str "Warrior")] "_display_name"
      = some (PyVal.str "Warrior") := by
  decide

/-- Claim C5 (amended: every field of the synthesized entity that is neither
named in the override mapping nor one of the identity/provenance fields the
code rewrites — `name`, `nonid_name`, `_display_name`, `_id`,
`_reference_path`, `_is_custom`, `_based_on`, `_based_on_path`,
`_based_on_source` — equals the base entry's corresponding field). -/
theorem c5_untouched_fields (lib : Library) (name new_name : String)
    (mods : PyDict) (ps : Option String) (k : String) (base res : Entry)
    (hbase : truthyEntry (NpcLib.find_by_name lib name ps) = some base)
    (hres : NpcLib.copy_for_modification lib name new_name (some mods) ps = some res)
    (hk1 : ∀ kv ∈ mods, k ≠ kv.1)
    (hk2 : k ∉ rewrittenFields) :
    aGet res k = aGet base k := by
  simp only [rewrittenFields, List.mem_cons, List.not_mem_nil, or_false, not_or] at hk2
  obtain ⟨h1, h2, h3, h4, h5, h6, h7, h8, h9⟩ := hk2
  rw [NpcLib.copy_for_modification, hbase] at hres
  injection hres with hres
  subst hres
  rw [aGet_foldl_applyModification _ _ _ hk1]
  rw [aGet_set_ne _ _ _ _ h9, aGet_set_ne _ _ _ _ h8, aGet_set_ne _ _ _ _ h7,
    aGet_set_ne _ _ _ _ h6, aGet_set_ne _ _ _ _ h5, aGet_set_ne _ _ _ _ h4,
    aGet_set_ne _ _ _ _ h3]
  split
  all_goals try rw [aGet_set_ne _ _ _ _ h2]
  all_goals split
  all_goals try rw [aGet_set_ne _ _ _ _ h1]
  all_goals rfl

/-- Witness for C5: the `hp` field of a synthesized copy with an unrelated
override equals the base's `hp` field. -/
theorem c5_untouched_fields_witness :
    aGet ((NpcLib.copy_for_modification
        ⟨[("warrior", [("_display_name", PyVal.str "Warrior"),
            ("hp", PyVal.dict [("@type", PyVal.str "number"), ("_text", PyVal.str "60")])])],
          [], [], [], []⟩
        "Warrior" "Skauril" (some [("db", PyVal.int 20)]) none).getD []) "hp"
      = aGet [("_display_name", PyVal.str "Warrior"),
          ("hp", PyVal.dict [("@type", PyVal.str "number"), ("_text", PyVal.str "60")])] "hp" :=
  c5_untouched_fields
    ⟨[("warrior", [("_display_name", PyVal.str "Warrior"),
        ("hp", PyVal.dict [("@type", PyVal.str "number"), ("_text", PyVal.str "60")])])],
      [], [], [], []⟩
    "Warrior" "Skauril" [("db", PyVal.int 20)] none "hp"
    [("_display_name", PyVal.str "Warrior"),
      ("hp", PyVal.dict [("@type", PyVal.str "number"), ("_text", PyVal.str "60")])]
    _ (by decide) (by decide) (by decide) (by decide)

/-- Claim C4: an override hitting a field that exists as a typed record
(`isinstance dict` with a `_text` key) replaces only the `_text` value and
leaves `@type` untouched — stated for the merge step in general and for the
`hits`-override synthesis scenario. -/
theorem c4_typed_override (lib : Library) (name new_name : String)
    (ps : Option String) (e d : PyDict) (k : String) (v : PyVal)
    (base res : Entry) :
    (aGet e k = some (.dict d) → aContains d "_text" = true →
      NpcLib.applyModification e (k, v)
          = aSet e k (.dict (aSet d "_text" (.str (pyStr v)))) ∧
        aGet (aSet d "_text" (.str (pyStr v))) "@type" = aGet d "@type") ∧
    (truthyEntry (NpcLib.find_by_name lib name ps) = some base →
      aGet base "hits" = some (.dict d) →
      aContains d "_text" = true →
      NpcLib.copy_for_modification lib name new_name (some [("hits", v)]) ps
        = some res →
      aGet res "hits" = some (.dict (aSet d "_text" (.str (pyStr v)))) ∧
        aGet (aSet d "_text" (.str (pyStr v))) "@type" = aGet d "@type") := by
  have hty : ∀ dd : PyDict, aGet (aSet dd "_text" (.str (pyStr v))) "@type"
      = aGet dd "@type" := fun dd => aGet_set_ne _ _ _ _ (by decide)
  have hstep : ∀ (ee : Entry) (kk : String), aGet ee kk = some (.dict d) →
      aContains d "_text" = true →
      NpcLib.applyModification ee (kk, v)
        = aSet ee kk (.dict (aSet d "_text" (.str (pyStr v)))) := by
    intro ee kk hget htext
    rw [NpcLib.applyModification]
    simp only [hget, htext]
    rfl
  refine ⟨fun hget htext => ⟨hstep e k hget htext, hty d⟩, ?_⟩
  intro hbase hhits htext hres
  rw [NpcLib.copy_for_modification, hbase] at hres
  injection hres with hres
  subst hres
  refine ⟨?_, hty d⟩
  simp only [List.foldl_cons, List.foldl_nil]
  -- the identity rewrites do not touch "hits"
  have hhits' : aGet (aSet (aSet (aSet (aSet (aSet (aSet (aSet
      (match aGet (match aGet base "name" with
        | some (.dict dn) => aSet base "name" (.dict (aSet dn "_text" (.str new_name)))
        | _ => base) "nonid_name" with
        | some (.dict dn) => aSet (match aGet base "name" with
            | some (.dict dm) => aSet base "name" (.dict (aSet dm "_text" (.str new_name)))
            | _ => base) "nonid_name" (.dict (aSet dn "_text" (.str new_name)))
        | _ => (match aGet base "name" with
            | some (.dict dm) => aSet base "name" (.dict (aSet dm "_text" (.str new_name)))
            | _ => base))
      "_display_name" (.str new_name))
      "_id" (.str ("id-custom-" ++ strReplaceChar (strLower new_name) ' ' '_')))
      "_reference_path" .null)
      "_is_custom" (.bool true))
      "_based_on" (aGetD base "_display_name" .null))
      "_based_on_path" (aGetD base "_reference_path" .null))
      "_based_on_source" (aGetD base "_source_module" .null)) "hits"
      = aGet base "hits" := by
    rw [aGet_set_ne _ _ _ _ (by decide), aGet_set_ne _ _ _ _ (by decide),
      aGet_set_ne _ _ _ _ (by decide), aGet_set_ne _ _ _ _ (by decide),
      aGet_set_ne _ _ _ _ (by decide), aGet_set_ne _ _ _ _ (by decide),
      aGet_set_ne _ _ _ _ (by decide)]
    split
    all_goals try rw [aGet_set_ne _ _ _ _ (by decide)]
    all_goals split
    all_goals try rw [aGet_set_ne _ _ _ _ (by decide)]
    all_goals rfl
  rw [hstep _ "hits" (hhits'.trans hhits) htext, aGet_set_self]

/-- Witness for C4: synthesizing "Skauril" from "Warrior" with override
`\x7bhits: 150\x7d` yields `hits._text = "150"` with the numeric `@type`
preserved. -/
theorem c4_typed_override_witness :
    aGet ((NpcLib.copy_for_modification
        ⟨[("warrior", [("_display_name", PyVal.str "Warrior"),
            ("hits", PyVal.dict [("@type", PyVal.str "number"),
              ("_text", PyVal.str "60")])])], [], [], [], []⟩
        "Warrior" "Skauril" (some [("hits", PyVal.int 150)]) none).getD []) "hits"
      = some (.dict (aSet [("@type", PyVal.str "number"), ("_text", PyVal.str "60")]
          "_text" (.str (pyStr (PyVal.int 150))))) ∧
      aGet (aSet [("@type", PyVal.str "number"), ("_text", PyVal.str "60")]
          "_text" (.str (pyStr (PyVal.int 150)))) "@type"
        = aGet [("@type", PyVal.str "number"), ("_text", PyVal.str "60")] "@type" :=
  (c4_typed_override
    ⟨[("warrior", [("_display_name", PyVal.str "Warrior"),
        ("hits", PyVal.dict [("@type", PyVal.str "number"),
          ("_text", PyVal.str "60")])])], [], [], [], []⟩
    "Warrior" "Skauril" none [] [("@type", PyVal.str "number"), ("_text", PyVal.str "60")]
    "hits" (PyVal.int 150)
    [("_display_name", PyVal.str "Warrior"),
      ("hits", PyVal.dict [("@type", PyVal.str "number"), ("_text", PyVal.str "60")])]
    _).2 (by decide) (by decide) (by decide) (by decide)

/-- Claim C7: a failed resolution or synthesis never registers the entity.
Whenever `create_npc_from_yaml` returns `None` the `(npc, name) → id`
registry is exactly as before the call; a failed match makes
`create_custom_npc` report failure with no entry; and both the no-match and
the failed-synthesis paths of `create_npc_from_yaml` do return `None`. -/
theorem c7_failed_not_registered :
    (∀ (lib : Library) (maps : Mappings) (st : NPCGen.GenState) (yaml_npc : PyDict),
      (NPCGen.create_npc_from_yaml lib maps st yaml_npc).1 = none →
      (NPCGen.create_npc_from_yaml lib maps st yaml_npc).2.name_to_id
        = st.name_to_id) ∧
    (∀ (lib : Library) (maps : Mappings) (name based_on : String)
        (level : Option Int) (mods : Option PyDict),
      (Matcher.match_npc lib maps based_on level).found = false →
      (Matcher.create_custom_npc lib maps name based_on level mods).success = false ∧
      (Matcher.create_custom_npc lib maps name based_on level mods).entry = none) ∧
    (∀ (lib : Library) (maps : Mappings) (st : NPCGen.GenState) (yaml_npc : PyDict)
        (nm : String),
      NPCGen.yamlName yaml_npc = some nm →
      aContains yaml_npc "based_on" = false →
      (Matcher.match_npc lib maps nm (NPCGen.yamlLevel yaml_npc)).found = false →
      (NPCGen.create_npc_from_yaml lib maps st yaml_npc).1 = none) ∧
    (∀ (lib : Library) (maps : Mappings) (st : NPCGen.GenState) (yaml_npc : PyDict)
        (nm : String),
      NPCGen.yamlName yaml_npc = some nm →
      aContains yaml_npc "based_on" = true →
      (Matcher.create_custom_npc lib maps nm
          (asString (aGetD yaml_npc "based_on" .null)) (NPCGen.yamlLevel yaml_npc)
          (some (NPCGen.collectModifications yaml_npc))).success = false →
      (NPCGen.create_npc_from_yaml lib maps st yaml_npc).1 = none) := by
  refine ⟨?_, ?_, ?_, ?_⟩
  · intro lib maps st yaml h
    simp only [NPCGen.create_npc_from_yaml] at h ⊢
    rcases hnm : NPCGen.yamlName yaml with _ | nm
    · rfl
    · dsimp only at h ⊢
      split_ifs at h ⊢ <;>
        simp_all [NPCGen.get_next_id, NPCGen.registerNpc]
  · intro lib maps name based_on level mods h
    rw [Matcher.create_custom_npc]
    rw [if_pos h]
    exact ⟨rfl, rfl⟩
  · intro lib maps st yaml nm hnm hb hf
    simp only [NPCGen.create_npc_from_yaml, hnm]
    rw [if_pos (by simp [hb]), if_pos hf]
  · intro lib maps st yaml nm hnm hb hs
    simp only [NPCGen.create_npc_from_yaml, hnm]
    rw [if_neg (by simp [hb]), if_pos hs]

/-- Witness for C7: an unmatched name in an empty catalog yields `None` and
leaves the registry untouched. -/
theorem c7_failed_not_registered_witness :
    (NPCGen.create_npc_from_yaml ⟨[], [], [], [], []⟩ ⟨[], [], [], []⟩
      NPCGen.initState [("name", PyVal.str "Ghost")]).1 = none ∧
    (NPCGen.create_npc_from_yaml ⟨[], [], [], [], []⟩ ⟨[], [], [], []⟩
      NPCGen.initState [("name", PyVal.str "Ghost")]).2.name_to_id
      = NPCGen.initState.name_to_id := by
  constructor
  · decide
  · exact c7_failed_not_registered.1 _ _ _ _ (by decide)

/-! ## Fuzzy candidate sort: supporting lemmas -/

theorem insertDesc_perm (x : String × ℚ) : ∀ l : List (String × ℚ),
    (Matcher.insertDesc x l).Perm (x :: l)
  | [] => List.Perm.refl _
  | y :: ys => by
      rw [Matcher.insertDesc]
      split_ifs
      · exact List.Perm.refl _
      · exact ((insertDesc_perm x ys).cons y).trans (List.Perm.swap x y ys)

theorem sortDesc_foldl_perm : ∀ (l acc : List (String × ℚ)),
    (l.foldl (fun acc x => Matcher.insertDesc x acc) acc).Perm (acc ++ l)
  | [], acc => by simpa using List.Perm.refl acc
  | x :: l, acc => by
      rw [List.foldl_cons]
      refine (sortDesc_foldl_perm l (Matcher.insertDesc x acc)).trans ?_
      have h1 : (Matcher.insertDesc x acc ++ l).Perm ((x :: acc) ++ l) :=
        (insertDesc_perm x acc).append_right l
      refine h1.trans ?_
      simpa using (List.perm_append_comm_assoc [x] acc l)

theorem sortDesc_perm (l : List (String × ℚ)) : (Matcher.sortDesc l).Perm l := by
  simpa using sortDesc_foldl_perm l []

theorem insertDesc_sorted (x : String × ℚ) : ∀ l : List (String × ℚ),
    List.Pairwise (fun p q => q.2 ≤ p.2) l →
    List.Pairwise (fun p q => q.2 ≤ p.2) (Matcher.insertDesc x l)
  | [], _ => by simp [Matcher.insertDesc]
  | y :: ys, h => by
      rw [Matcher.insertDesc]
      rcases List.pairwise_cons.mp h with ⟨hy, hys⟩
      split_ifs with hlt
      · refine List.pairwise_cons.mpr ⟨?_, h⟩
        intro z hz
        rcases List.mem_cons.mp hz with hz | hz
        · subst hz; exact le_of_lt hlt
        · exact le_trans (hy z hz) (le_of_lt hlt)
      · refine List.pairwise_cons.mpr ⟨?_, insertDesc_sorted x ys hys⟩
        intro z hz
        have hz' : z ∈ x :: ys := (insertDesc_perm x ys).subset hz
        rcases List.mem_cons.mp hz' with hz' | hz'
        · subst hz'; exact le_of_not_lt hlt
        · exact hy z hz'

theorem sortDesc_foldl_sorted : ∀ (l acc : List (String × ℚ)),
    List.Pairwise (fun p q => q.2 ≤ p.2) acc →
    List.Pairwise (fun p q => q.2 ≤ p.2)
      (l.foldl (fun acc x => Matcher.insertDesc x acc) acc)
  | [], _, h => h
  | x :: l, acc, h => by
      rw [List.foldl_cons]
      exact sortDesc_foldl_sorted l _ (insertDesc_sorted x acc h)

theorem sortDesc_sorted (l : List (String × ℚ)) :
    List.Pairwise (fun p q => q.2 ≤ p.2) (Matcher.sortDesc l) :=
  sortDesc_foldl_sorted l [] (List.Pairwise.nil)

/-- Claim C2: in the fuzzy stage (reached when the exact, profession,
creature-alias and generic stages all miss), the candidate list is exactly
the canonical names scoring at or above `FUZZY_THRESHOLD = 0.80`, sorted
descending by score; a truthy top candidate scoring at or above `0.90` is
accepted automatically with method `fuzzy` and its score recorded; otherwise
the result keeps `found = false` with at most the five top candidates as
suggestions, and with no candidate at the threshold the result is unchanged
(empty suggestions). -/
theorem c2_fuzzy_stage (lib : Library) (maps : Mappings) (name : String)
    (level : Option Int)
    (hex : truthyEntry (NpcLib.find_by_name lib name none) = none)
    (hpro : aContains maps.professions name = false)
    (hcre : aContains maps.creatures name = false)
    (hgen : aContains maps.generic_npcs name = false) :
    Matcher.match_npc lib maps name level
        = Matcher.matchNpcFuzzy lib name (Matcher.initResult name level) ∧
    (Matcher.find_fuzzy_matches name (aKeys lib.by_name) none).Perm
        (((aKeys lib.by_name).map (fun c => (c, Matcher.similarity name c))).filter
          (fun p => Matcher.FUZZY_THRESHOLD ≤ p.2)) ∧
    List.Pairwise (fun p q => q.2 ≤ p.2)
        (Matcher.find_fuzzy_matches name (aKeys lib.by_name) none) ∧
    (Matcher.find_fuzzy_matches name (aKeys lib.by_name) none = [] →
      Matcher.match_npc lib maps name level = Matcher.initResult name level) ∧
    (∀ (c : String) (s : ℚ) (rest : List (String × ℚ)) (e : Entry),
      Matcher.find_fuzzy_matches name (aKeys lib.by_name) none = (c, s) :: rest →
      truthyEntry (NpcLib.find_by_name lib c none) = some e →
      (90 : ℚ) / 100 ≤ s →
      Matcher.match_npc lib maps name level = { Matcher.initResult name level with
        found := true, entry := some e, method := "fuzzy",
        matched_name := aGetD e "_display_name" (.str c), fuzzy_score := some s }) ∧
    (∀ (c : String) (s : ℚ) (rest : List (String × ℚ)),
      Matcher.find_fuzzy_matches name (aKeys lib.by_name) none = (c, s) :: rest →
      ¬ ((90 : ℚ) / 100 ≤ s ∧
          (truthyEntry (NpcLib.find_by_name lib c none)).isSome = true) →
      Matcher.match_npc lib maps name level = { Matcher.initResult name level with
          suggestions := (((c, s) :: rest).take 5).map Prod.fst } ∧
        (Matcher.match_npc lib maps name level).found = false ∧
        (Matcher.match_npc lib maps name level).suggestions.length ≤ 5) := by
  have h1 : Matcher.matchNpcProfession lib maps name level (Matcher.initResult name level)
      = .inr (level, Matcher.initResult name level) := by
    rw [Matcher.matchNpcProfession, if_neg (by simp [hpro])]
  have h2 : Matcher.matchNpcCreature lib maps name (Matcher.initResult name level)
      = .inr (Matcher.initResult name level) := by
    rw [Matcher.matchNpcCreature, if_neg (by simp [hcre])]
  have h3 : Matcher.matchNpcGeneric lib maps name level (Matcher.initResult name level)
      = .inr (level, Matcher.initResult name level) := by
    rw [Matcher.matchNpcGeneric, if_neg (by simp [hgen])]
  have hred : Matcher.match_npc lib maps name level
      = Matcher.matchNpcFuzzy lib name (Matcher.initResult name level) := by
    simp only [Matcher.match_npc, hex, h1, h2, h3]
  refine ⟨hred, ?_, ?_, ?_, ?_, ?_⟩
  · rw [Matcher.find_fuzzy_matches]
    exact sortDesc_perm _
  · rw [Matcher.find_fuzzy_matches]
    exact sortDesc_sorted _
  · intro hfm
    rw [hred]
    simp only [Matcher.matchNpcFuzzy, hfm]
  · intro c s rest e hfm he hs
    rw [hred]
    simp only [Matcher.matchNpcFuzzy, hfm, he]
    rw [if_pos hs]
  · intro c s rest hfm hno
    rw [hred]
    rcases ht : truthyEntry (NpcLib.find_by_name lib c none) with _ | e
    · have hres : Matcher.matchNpcFuzzy lib name (Matcher.initResult name level)
          = { Matcher.initResult name level with
              suggestions := (((c, s) :: rest).take 5).map Prod.fst } := by
        simp only [Matcher.matchNpcFuzzy, hfm, ht]
      refine ⟨hres, by rw [hres]; rfl, ?_⟩
      rw [hres]
      show ((((c, s) :: rest).take 5).map Prod.fst).length ≤ 5
      rw [List.length_map, List.length_take]
      exact Nat.min_le_left _ _
    · have hs' : ¬ ((90 : ℚ) / 100 ≤ s) := fun h => hno ⟨h, by rw [ht]; rfl⟩
      have hres : Matcher.matchNpcFuzzy lib name (Matcher.initResult name level)
          = { Matcher.initResult name level with
              suggestions := (((c, s) :: rest).take 5).map Prod.fst } := by
        simp only [Matcher.matchNpcFuzzy, hfm, ht]
        rw [if_neg hs']
      refine ⟨hres, by rw [hres]; rfl, ?_⟩
      rw [hres]
      show ((((c, s) :: rest).take 5).map Prod.fst).length ≤ 5
      rw [List.length_map, List.length_take]
      exact Nat.min_le_left _ _

/-- The one-entry catalog of the C2 witness. -/
def c2lib : Library :=
  ⟨[("direwolf", [("_display_name", PyVal.str "Direwolf")])], [], [], [], []⟩

/-- The empty mapping tables of the C2 witness. -/
def c2maps : Mappings := ⟨[], [], [], []⟩

/-- Witness for C2 at the catalog `c2lib` and the request "Direwolfs". -/
theorem c2_fuzzy_stage_witness :
    Matcher.match_npc c2lib c2maps "Direwolfs" none
        = Matcher.matchNpcFuzzy c2lib "Direwolfs" (Matcher.initResult "Direwolfs" none) ∧
    (Matcher.find_fuzzy_matches "Direwolfs" (aKeys c2lib.by_name) none).Perm
        (((aKeys c2lib.by_name).map
            (fun c => (c, Matcher.similarity "Direwolfs" c))).filter
          (fun p => Matcher.FUZZY_THRESHOLD ≤ p.2)) ∧
    List.Pairwise (fun p q => q.2 ≤ p.2)
        (Matcher.find_fuzzy_matches "Direwolfs" (aKeys c2lib.by_name) none) ∧
    (Matcher.find_fuzzy_matches "Direwolfs" (aKeys c2lib.by_name) none = [] →
      Matcher.match_npc c2lib c2maps "Direwolfs" none
        = Matcher.initResult "Direwolfs" none) ∧
    (∀ (c : String) (s : ℚ) (rest : List (String × ℚ)) (e : Entry),
      Matcher.find_fuzzy_matches "Direwolfs" (aKeys c2lib.by_name) none
          = (c, s) :: rest →
      truthyEntry (NpcLib.find_by_name c2lib c none) = some e →
      (90 : ℚ) / 100 ≤ s →
      Matcher.match_npc c2lib c2maps "Direwolfs" none
        = { Matcher.initResult "Direwolfs" none with
            found := true, entry := some e, method := "fuzzy",
            matched_name := aGetD e "_display_name" (.str c), fuzzy_score := some s }) ∧
    (∀ (c : String) (s : ℚ) (rest : List (String × ℚ)),
      Matcher.find_fuzzy_matches "Direwolfs" (aKeys c2lib.by_name) none
          = (c, s) :: rest →
      ¬ ((90 : ℚ) / 100 ≤ s ∧
          (truthyEntry (NpcLib.find_by_name c2lib c none)).isSome = true) →
      Matcher.match_npc c2lib c2maps "Direwolfs" none
          = { Matcher.initResult "Direwolfs" none with
              suggestions := (((c, s) :: rest).take 5).map Prod.fst } ∧
        (Matcher.match_npc c2lib c2maps "Direwolfs" none).found = false ∧
        (Matcher.match_npc c2lib c2maps "Direwolfs" none).suggestions.length ≤ 5) :=
  c2_fuzzy_stage c2lib c2maps "Direwolfs" none (by decide) (by decide) (by decide)
    (by decide)

/-! ## Canonical name index: supporting lemmas -/

namespace NpcLib

/-- The key an entry is indexed under. -/
def nameOf (e : Entry) : String := strLower (entryStr e "_display_name")

/-- The priority value of an entry's source. -/
def prioOf (e : Entry) : Nat := get_priority (entryStr e "_source_module")

theorem indexById_by_name (lib : Library) (e : Entry) :
    (indexById lib e).by_name = lib.by_name := by
  simp only [indexById]
  split_ifs <;> rfl

theorem indexByProfession_by_name (lib : Library) (e : Entry) :
    (indexByProfession lib e).by_name = lib.by_name := by
  simp only [indexByProfession]
  split
  · split_ifs <;> rfl
  · rfl

theorem indexByLevel_by_name (lib : Library) (e : Entry) :
    (indexByLevel lib e).by_name = lib.by_name := by
  rw [indexByLevel]
  split
  · split <;> rfl
  · rfl

theorem indexByName_by_name (lib : Library) (e : Entry) :
    (indexByName lib e).by_name =
      if nameOf e ≠ "" then
        match aGet lib.by_name (nameOf e) with
        | none => aSet lib.by_name (nameOf e) e
        | some existing =>
            if prioOf e < prioOf existing then aSet lib.by_name (nameOf e) e
            else lib.by_name
      else lib.by_name := by
  simp only [indexByName, nameOf, prioOf]
  split_ifs with h
  · rcases hm : aGet lib.by_name (strLower (entryStr e "_display_name")) with _ | ex
    · rfl
    · dsimp only
      split_ifs <;> rfl
  · rfl

theorem indexEntry_by_name (lib : Library) (e : Entry) :
    (indexEntry lib e).by_name =
      if nameOf e ≠ "" then
        match aGet lib.by_name (nameOf e) with
        | none => aSet lib.by_name (nameOf e) e
        | some existing =>
            if prioOf e < prioOf existing then aSet lib.by_name (nameOf e) e
            else lib.by_name
      else lib.by_name := by
  rw [indexEntry, indexByLevel_by_name, indexByProfession_by_name, indexByName_by_name,
    indexById_by_name]

end NpcLib

namespace NpcLib

/-- The `by_name` invariant of the indexing fold: the empty key is never
present, a present entry is one of the processed entries carrying that
(lower-cased, non-empty) name with a minimal priority value among them, and
an absent key means no processed entry carries that name. -/
def ByNameInv (lib : Library) (seen : List Entry) : Prop :=
  aGet lib.by_name "" = none ∧
  ∀ n, n ≠ "" →
    (∀ e, aGet lib.by_name n = some e → nameOf e = n ∧ e ∈ seen ∧
      ∀ e' ∈ seen, nameOf e' = n → prioOf e ≤ prioOf e') ∧
    (aGet lib.by_name n = none → ∀ e' ∈ seen, nameOf e' ≠ n)

theorem byNameInv_step (lib : Library) (x : Entry) (seen : List Entry)
    (h : ByNameInv lib seen) : ByNameInv (indexEntry lib x) (seen ++ [x]) := by
  obtain ⟨h0, hI⟩ := h
  rw [ByNameInv, indexEntry_by_name]
  by_cases hx : nameOf x ≠ ""
  · rw [if_pos hx]
    rcases hm : aGet lib.by_name (nameOf x) with _ | inc
    · -- canonical slot unset: set it
      dsimp only
      refine ⟨by rw [aGet_set_ne _ _ _ _ (fun hc => hx hc.symm)]; exact h0, ?_⟩
      intro n hn
      by_cases hnx : n = nameOf x
      · subst hnx
        rw [aGet_set_self]
        refine ⟨?_, ?_⟩
        · rintro e he
          injection he with he
          subst he
          refine ⟨rfl, List.mem_append_right _ (List.mem_singleton_self _), ?_⟩
          intro e' he' hne'
          rcases List.mem_append.mp he' with he' | he'
          · exact absurd hne' ((hI _ hn).2 hm e' he')
          · rw [List.mem_singleton.mp he']
        · intro hc
          exact absurd hc (by simp)
      · rw [aGet_set_ne _ _ _ _ hnx]
        refine ⟨?_, ?_⟩
        · intro e he
          obtain ⟨hname, hmem, hmin⟩ := (hI n hn).1 e he
          refine ⟨hname, List.mem_append_left _ hmem, ?_⟩
          intro e' he' hne'
          rcases List.mem_append.mp he' with he' | he'
          · exact hmin e' he' hne'
          · rw [List.mem_singleton.mp he'] at hne'
            exact absurd hne'.symm hnx
        · intro hnone e' he'
          rcases List.mem_append.mp he' with he' | he'
          · exact (hI n hn).2 hnone e' he'
          · rw [List.mem_singleton.mp he']
            exact fun hc => hnx hc.symm
    · -- canonical slot holds `inc`
      dsimp only
      obtain ⟨hinc_name, hinc_mem, hinc_min⟩ := (hI (nameOf x) hx).1 inc hm
      by_cases hp : prioOf x < prioOf inc
      · rw [if_pos hp]
        refine ⟨by rw [aGet_set_ne _ _ _ _ (fun hc => hx hc.symm)]; exact h0, ?_⟩
        intro n hn
        by_cases hnx : n = nameOf x
        · subst hnx
          rw [aGet_set_self]
          refine ⟨?_, ?_⟩
          · rintro e he
            injection he with he
            subst he
            refine ⟨rfl, List.mem_append_right _ (List.mem_singleton_self _), ?_⟩
            intro e' he' hne'
            rcases List.mem_append.mp he' with he' | he'
            · exact le_trans (le_of_lt hp) (hinc_min e' he' hne')
            · rw [List.mem_singleton.mp he']
          · intro hc
            exact absurd hc (by simp)
        · rw [aGet_set_ne _ _ _ _ hnx]
          refine ⟨?_, ?_⟩
          · intro e he
            obtain ⟨hname, hmem, hmin⟩ := (hI n hn).1 e he
            refine ⟨hname, List.mem_append_left _ hmem, ?_⟩
            intro e' he' hne'
            rcases List.mem_append.mp he' with he' | he'
            · exact hmin e' he' hne'
            · rw [List.mem_singleton.mp he'] at hne'
              exact absurd hne'.symm hnx
          · intro hnone e' he'
            rcases List.mem_append.mp he' with he' | he'
            · exact (hI n hn).2 hnone e' he'
            · rw [List.mem_singleton.mp he']
              exact fun hc => hnx hc.symm
      · rw [if_neg hp]
        refine ⟨h0, ?_⟩
        intro n hn
        refine ⟨?_, ?_⟩
        · intro e he
          obtain ⟨hname, hmem, hmin⟩ := (hI n hn).1 e he
          refine ⟨hname, List.mem_append_left _ hmem, ?_⟩
          intro e' he' hne'
          rcases List.mem_append.mp he' with he' | he'
          · exact hmin e' he' hne'
          · have hex : e' = x := List.mem_singleton.mp he'
            subst hex
            subst hne'
            have hne : inc = e := by
              rw [hm] at he
              injection he
            subst hne
            exact Nat.le_of_not_lt hp
        · intro hnone e' he'
          rcases List.mem_append.mp he' with he' | he'
          · exact (hI n hn).2 hnone e' he'
          · rw [List.mem_singleton.mp he']
            intro hc
            rw [← hc] at hnone
            rw [hnone] at hm
            cases hm
  · rw [if_neg hx]
    push_neg at hx
    refine ⟨h0, ?_⟩
    intro n hn
    refine ⟨?_, ?_⟩
    · intro e he
      obtain ⟨hname, hmem, hmin⟩ := (hI n hn).1 e he
      refine ⟨hname, List.mem_append_left _ hmem, ?_⟩
      intro e' he' hne'
      rcases List.mem_append.mp he' with he' | he'
      · exact hmin e' he' hne'
      · rw [List.mem_singleton.mp he'] at hne'
        rw [hx] at hne'
        exact absurd hne'.symm hn
    · intro hnone e' he'
      rcases List.mem_append.mp he' with he' | he'
      · exact (hI n hn).2 hnone e' he'
      · have hex : e' = x := List.mem_singleton.mp he'
        subst hex
        rw [hx]
        exact fun hc => hn hc.symm

theorem byNameInv_fold : ∀ (es : List Entry) (lib : Library) (seen : List Entry),
    ByNameInv lib seen → ByNameInv (es.foldl indexEntry lib) (seen ++ es)
  | [], lib, seen, h => by simpa using h
  | x :: es, lib, seen, h => by
      rw [List.foldl_cons]
      have := byNameInv_fold es (indexEntry lib x) (seen ++ [x]) (byNameInv_step lib x seen h)
      simpa using this

theorem byNameInv_build (es : List Entry) : ByNameInv (build_indexes es) es := by
  have h0 : ByNameInv ⟨[], [], [], [], []⟩ [] := by
    refine ⟨rfl, ?_⟩
    intro n _
    constructor
    · intro e he
      exact absurd he (by simp [aGet])
    · intro _ e' he'
      cases he'
  simpa using byNameInv_fold es ⟨[], [], [], [], []⟩ [] h0

end NpcLib

/-- Claim C1: during index construction the canonical `by_name` slot is set
when unset and otherwise replaced exactly when the new entry's source has a
strictly lower priority value; consequently `find_by_name` without a
preferred source returns an indexed entry of the requested (case-insensitive)
name whose priority value is minimal among all loaded entries with that name,
whatever the insertion order, and it finds one whenever such an entry was
loaded. -/
theorem c1_priority_index (es : List Entry) (name : String) (e : Entry) :
    (∀ (lib : Library) (x : Entry), NpcLib.nameOf x ≠ "" →
      aGet (NpcLib.indexEntry lib x).by_name (NpcLib.nameOf x)
        = (match aGet lib.by_name (NpcLib.nameOf x) with
           | none => some x
           | some existing =>
               if NpcLib.prioOf x < NpcLib.prioOf existing then some x
               else some existing)) ∧
    (NpcLib.find_by_name (NpcLib.build_indexes es) name none = some e →
      NpcLib.nameOf e = strLower name ∧ e ∈ es ∧
      ∀ e' ∈ es, NpcLib.nameOf e' = strLower name →
        NpcLib.prioOf e ≤ NpcLib.prioOf e') ∧
    ((∃ e' ∈ es, NpcLib.nameOf e' = strLower name) → strLower name ≠ "" →
      (NpcLib.find_by_name (NpcLib.build_indexes es) name none).isSome = true) := by
  obtain ⟨hinv0, hinv⟩ := NpcLib.byNameInv_build es
  refine ⟨?_, ?_, ?_⟩
  · intro lib x hx
    rw [NpcLib.indexEntry_by_name, if_pos hx]
    rcases hm : aGet lib.by_name (NpcLib.nameOf x) with _ | inc
    · exact aGet_set_self _ _ _
    · dsimp only
      split_ifs
      · exact aGet_set_self _ _ _
      · exact hm
  · intro hf
    simp only [NpcLib.find_by_name] at hf
    by_cases hn : strLower name = ""
    · rw [hn] at hf
      rw [hinv0] at hf
      cases hf
    · exact (hinv (strLower name) hn).1 e hf
  · rintro ⟨e', he', hname⟩ hn
    simp only [NpcLib.find_by_name]
    rcases hopt : aGet (NpcLib.build_indexes es).by_name (strLower name) with _ | v
    · exact absurd hname ((hinv (strLower name) hn).2 hopt e' he')
    · rfl

/-- Witness for C1: two "Broadsword" entries loaded in the order Creatures &
Treasures then Arms Law; the canonical entry is the Arms Law one. -/
theorem c1_priority_index_witness :
    NpcLib.find_by_name
        (NpcLib.build_indexes
          [[("_display_name", PyVal.str "Broadsword"),
            ("_source_module", PyVal.str "Creatures & Treasures")],
           [("_display_name", PyVal.str "Broadsword"),
            ("_source_module", PyVal.str "Arms Law")]])
        "Broadsword" none
      = some [("_display_name", PyVal.str "Broadsword"),
          ("_source_module", PyVal.str "Arms Law")] ∧
    NpcLib.prioOf [("_display_name", PyVal.str "Broadsword"),
        ("_source_module", PyVal.str "Arms Law")]
      ≤ NpcLib.prioOf [("_display_name", PyVal.str "Broadsword"),
          ("_source_module", PyVal.str "Creatures & Treasures")] := by
  decide

/-! ## Heap model for the mutation claim (C3)

`copy_for_modification` mutates Python objects in place, so the frame claim
is stated over an explicit object heap: cells hold either an immutable
primitive or a mutable container (dict of named references / list of
references).  `copy.deepcopy` allocates fresh cells for every container and
shares immutable primitives, as CPython does; every later write of the
function lands either on a freshly copied cell or on a freshly allocated
one.  The catalog's `by_name` index maps lower-cased names to the locations
of the entry objects. -/

/-- An immutable Python value. -/
inductive PyPrim
  | str (s : String)
  | int (n : Int)
  | bool (b : Bool)
  | null
deriving DecidableEq

/-- One heap cell: an immutable primitive, a dict of references, or a list
of references. -/
inductive HVal
  | prim (p : PyPrim)
  | dict (fields : List (String × Nat))
  | list (items : List Nat)
deriving DecidableEq

/-- The references a cell holds. -/
def HVal.refs : HVal → List Nat
  | .prim _ => []
  | .dict fs => fs.map Prod.snd
  | .list is => is

/-- The object heap: cell contents and the next fresh location. -/
structure Heap where
  cells : Nat → Option HVal
  nextLoc : Nat

/-- The empty heap. -/
def emptyHeap : Heap := ⟨fun _ => none, 0⟩

/-- Allocate a fresh cell. -/
def allocCell (h : Heap) (v : HVal) : Heap × Nat :=
  ({ cells := fun l => if l = h.nextLoc then some v else h.cells l,
     nextLoc := h.nextLoc + 1 }, h.nextLoc)

/-- Overwrite one cell in place. -/
def writeCell (h : Heap) (l : Nat) (v : HVal) : Heap :=
  { h with cells := fun x => if x = l then some v else h.cells x }

/-- `copy.deepcopy` over a worklist of locations: containers get fresh
cells, primitives (and dangling locations) are shared.  The fuel bounds the
nesting depth; each recursive call spends one unit. -/
def deepcopyMany : Nat → Heap → List Nat → Heap × List Nat
  | 0, h, _ => (h, [])
  | _ + 1, h, [] => (h, [])
  | fuel + 1, h, l :: ls =>
      let r :=
        match h.cells l with
        | some (.dict fs) =>
            let q := deepcopyMany fuel h (fs.map Prod.snd)
            allocCell q.1 (.dict (List.zip (fs.map Prod.fst) q.2))
        | some (.list is) =>
            let q := deepcopyMany fuel h is
            allocCell q.1 (.list q.2)
        | _ => (h, l)
      let rest := deepcopyMany fuel r.1 ls
      (rest.1, r.2 :: rest.2)

/-- `copy.deepcopy` of one object. -/
def deepcopyH (fuel : Nat) (h : Heap) (l : Nat) : Heap × Nat :=
  let r := deepcopyMany (fuel + 1) h [l]
  (r.1, r.2.headD l)

/-- Read a value tree back out of the heap (fuel-bounded). -/
def readMany : Nat → Heap → List Nat → List PyVal
  | 0, _, _ => []
  | _ + 1, _, [] => []
  | fuel + 1, h, l :: ls =>
      let v : PyVal :=
        match h.cells l with
        | some (.prim (.str s)) => .str s
        | some (.prim (.int n)) => .int n
        | some (.prim (.bool b)) => .bool b
        | some (.prim .null) => .null
        | some (.dict fs) =>
            .dict (List.zip (fs.map Prod.fst) (readMany fuel h (fs.map Prod.snd)))
        | some (.list is) => .list (readMany fuel h is)
        | none => .null
      v :: readMany fuel h ls

/-- Deep read of one object. -/
def readTreeH (fuel : Nat) (h : Heap) (l : Nat) : PyVal :=
  (readMany (fuel + 1) h [l]).headD .null

/-- Locations reachable from a worklist (fuel-bounded). -/
def reachMany : Nat → Heap → List Nat → List Nat
  | 0, _, _ => []
  | _ + 1, _, [] => []
  | fuel + 1, h, l :: ls =>
      l :: (reachMany fuel h (match h.cells l with | some v => v.refs | none => [])
        ++ reachMany fuel h ls)

/-- Does the location hold a mutable (container) cell? -/
def isMutableAt (h : Heap) (l : Nat) : Bool :=
  match h.cells l with
  | some (.dict _) => true
  | some (.list _) => true
  | _ => false

/-- Does the location hold an immutable cell, or nothing? -/
def isPrimOrNone (h : Heap) (l : Nat) : Bool :=
  match h.cells l with
  | some (.prim _) => true
  | none => true
  | _ => false

/-- Python truthiness of the object at a location. -/
def hTruthy (h : Heap) (l : Nat) : Bool :=
  match h.cells l with
  | some (.prim (.str s)) => !(s == "")
  | some (.prim (.int n)) => !(n == 0)
  | some (.prim (.bool b)) => b
  | some (.prim .null) => false
  | some (.dict fs) => !fs.isEmpty
  | some (.list is) => !is.isEmpty
  | none => false

/-- Allocate a fresh primitive object. -/
def hAllocPrim (h : Heap) (p : PyPrim) : Heap × Nat := allocCell h (.prim p)

/-- Field lookup on a dict object. -/
def hGetField (h : Heap) (l : Nat) (k : String) : Option Nat :=
  match h.cells l with
  | some (.dict fs) => aGet fs k
  | _ => none

/-- `obj[k] = <ref>` on a dict object (no-op on non-dicts). -/
def hSetRootRef (h : Heap) (root : Nat) (k : String) (r : Nat) : Heap :=
  match h.cells root with
  | some (.dict fs) => writeCell h root (.dict (aSet fs k r))
  | _ => h

/-- `obj[k] = <fresh primitive>`. -/
def hSetRootPrim (h : Heap) (root : Nat) (k : String) (p : PyPrim) : Heap :=
  let r := hAllocPrim h p
  hSetRootRef r.1 root k r.2

/-- `if k in obj and isinstance(obj[k], dict): obj[k]['_text'] = s`. -/
def hSetNestedText (h : Heap) (root : Nat) (k : String) (s : String) : Heap :=
  match hGetField h root k with
  | some ref =>
      match h.cells ref with
      | some (.dict nf) =>
          let rs := hAllocPrim h (.str s)
          writeCell rs.1 ref (.dict (aSet nf "_text" rs.2))
      | _ => h
  | none => h

/-- `new[k] = base.get(src)`: share the base's value object (or `None`). -/
def hSetRootFromBase (h : Heap) (root base : Nat) (k src : String) : Heap :=
  match hGetField h base src with
  | some r => hSetRootRef h root k r
  | none =>
      let r := hAllocPrim h .null
      hSetRootRef r.1 root k r.2

/-- `obj[k] = {'@type': ty, '_text': s}` with fresh cells. -/
def hAllocTyped (h : Heap) (root : Nat) (k ty s : String) : Heap :=
  let rt := hAllocPrim h (.str ty)
  let rs := hAllocPrim rt.1 (.str s)
  let rd := allocCell rs.1 (.dict [("@type", rt.2), ("_text", rs.2)])
  hSetRootRef rd.1 root k rd.2

/-- One iteration of the modification loop of the NPC
`copy_for_modification` (values reach the heap only through `str(value)`). -/
def hApplyModification (h : Heap) (root : Nat) (kv : String × PyVal) : Heap :=
  match hGetField h root kv.1 with
  | some ref =>
      match h.cells ref with
      | some (.dict d) =>
          if aContains d "_text" then
            let rs := hAllocPrim h (.str (pyStr kv.2))
            writeCell rs.1 ref (.dict (aSet d "_text" rs.2))
          else if kv.1 ∈ NpcLib.number_fields then
            hAllocTyped h root kv.1 "number" (pyStr kv.2)
          else if kv.1 ∈ NpcLib.string_fields then
            hAllocTyped h root kv.1 "string" (pyStr kv.2)
          else
            match aGet d "@type" with
            | some tref =>
                let rs := hAllocPrim h (.str (pyStr kv.2))
                let rd := allocCell rs.1 (.dict [("@type", tref), ("_text", rs.2)])
                hSetRootRef rd.1 root kv.1 rd.2
            | none => hAllocTyped h root kv.1 "string" (pyStr kv.2)
      | _ =>
          if kv.1 ∈ NpcLib.number_fields then
            hAllocTyped h root kv.1 "number" (pyStr kv.2)
          else if kv.1 ∈ NpcLib.string_fields then
            hAllocTyped h root kv.1 "string" (pyStr kv.2)
          else hAllocTyped h root kv.1 "string" (pyStr kv.2)
  | none =>
      if kv.1 ∈ NpcLib.number_fields then
        hAllocTyped h root kv.1 "number" (pyStr kv.2)
      else if kv.1 ∈ NpcLib.string_fields then
        hAllocTyped h root kv.1 "string" (pyStr kv.2)
      else hAllocTyped h root kv.1 "string" (pyStr kv.2)

mutual

/-- Allocate a fresh object tree for a caller-supplied value (YAML data is
disjoint from the catalog's objects). -/
def allocTree (h : Heap) : PyVal → Heap × Nat
  | .str s => hAllocPrim h (.str s)
  | .int n => hAllocPrim h (.int n)
  | .bool b => hAllocPrim h (.bool b)
  | .null => hAllocPrim h .null
  | .dict fs =>
      let r := allocTreeFields h fs
      allocCell r.1 (.dict r.2)
  | .list xs =>
      let r := allocTreeItems h xs
      allocCell r.1 (.list r.2)

/-- Allocate the fields of a dict tree. -/
def allocTreeFields (h : Heap) : List (String × PyVal) → Heap × List (String × Nat)
  | [] => (h, [])
  | kv :: rest =>
      let r := allocTree h kv.2
      let rr := allocTreeFields r.1 rest
      (rr.1, (kv.1, r.2) :: rr.2)

/-- Allocate the items of a list tree. -/
def allocTreeItems (h : Heap) : List PyVal → Heap × List Nat
  | [] => (h, [])
  | v :: rest =>
      let r := allocTree h v
      let rr := allocTreeItems r.1 rest
      (rr.1, r.2 :: rr.2)

end

namespace NpcHeap

/-- The in-place rewrites of `copy_for_modification` after the deep copy:
`name._text` / `nonid_name._text`, the identity and provenance fields, then
the modification loop. -/
def rewriteAndMerge (h : Heap) (root baseLoc : Nat) (new_name : String)
    (mods : Option (List (String × PyVal))) : Heap :=
  let h := hSetNestedText h root "name" new_name
  let h := hSetNestedText h root "nonid_name" new_name
  let h := hSetRootPrim h root "_display_name" (.str new_name)
  let h := hSetRootPrim h root "_id"
    (.str ("id-custom-" ++ strReplaceChar (strLower new_name) ' ' '_'))
  let h := hSetRootPrim h root "_reference_path" .null
  let h := hSetRootPrim h root "_is_custom" (.bool true)
  let h := hSetRootFromBase h root baseLoc "_based_on" "_display_name"
  let h := hSetRootFromBase h root baseLoc "_based_on_path" "_reference_path"
  let h := hSetRootFromBase h root baseLoc "_based_on_source" "_source_module"
  match mods with
  | none => h
  | some ms => ms.foldl (fun hh kv => hApplyModification hh root kv) h

/-- `CompleteNPCCreatureLibrary.copy_for_modification` over the heap:
resolve the base object, deep-copy it, rewrite the identity and provenance
fields in place on the copy, then merge the overrides.  Returns the location
of the synthesized object and the final heap. -/
def copy_for_modification (h : Heap) (byName : List (String × Nat))
    (name new_name : String) (mods : Option (List (String × PyVal))) :
    Option Nat × Heap :=
  match aGet byName (strLower name) with
  | none => (none, h)
  | some baseLoc =>
      if hTruthy h baseLoc = false then
        (none, h)
      else
        let rc := deepcopyH (baseLoc + 1) h baseLoc
        (some rc.2, rewriteAndMerge rc.1 rc.2 baseLoc new_name mods)

end NpcHeap

namespace ItemHeap

/-- The in-place rewrites of the item `copy_for_modification` after the deep
copy: as the NPC variant, but `_based_on` records the base's reference path,
there is no `_based_on_path`, and overrides are stored verbatim
(`new_entry[key] = value`, the value being a caller-supplied object
allocated fresh). -/
def rewriteAndMerge (h : Heap) (root baseLoc : Nat) (new_name : String)
    (mods : Option (List (String × PyVal))) : Heap :=
  let h := hSetNestedText h root "name" new_name
  let h := hSetNestedText h root "nonid_name" new_name
  let h := hSetRootPrim h root "_display_name" (.str new_name)
  let h := hSetRootPrim h root "_id"
    (.str ("id-custom-" ++ strReplaceChar (strLower new_name) ' ' '_'))
  let h := hSetRootPrim h root "_reference_path" .null
  let h := hSetRootPrim h root "_is_custom" (.bool true)
  let h := hSetRootFromBase h root baseLoc "_based_on" "_reference_path"
  let h := hSetRootFromBase h root baseLoc "_based_on_source" "_source_module"
  match mods with
  | none => h
  | some ms => ms.foldl (fun hh kv =>
      let r := allocTree hh kv.2
      hSetRootRef r.1 root kv.1 r.2) h

/-- `CompleteItemLibrary.copy_for_modification` over the heap: as the NPC
variant with the item rewrites. -/
def copy_for_modification (h : Heap) (byName : List (String × Nat))
    (name new_name : String) (mods : Option (List (String × PyVal))) :
    Option Nat × Heap :=
  match aGet byName (strLower name) with
  | none => (none, h)
  | some baseLoc =>
      if hTruthy h baseLoc = false then
        (none, h)
      else
        let rc := deepcopyH (baseLoc + 1) h baseLoc
        (some rc.2, rewriteAndMerge rc.1 rc.2 baseLoc new_name mods)

end ItemHeap

/-! ## Heap model: frame and freshness lemmas -/

/-- `h` extends `h₀`: no pre-existing cell changed, frontier not lowered. -/
def ExtH (h₀ h : Heap) : Prop :=
  h₀.nextLoc ≤ h.nextLoc ∧ ∀ l, l < h₀.nextLoc → h.cells l = h₀.cells l

/-- A location that a fresh cell may reference without sharing mutable
pre-existing structure: fresh, or an old immutable (or dangling). -/
def OkLoc (h₀ : Heap) (l : Nat) : Prop :=
  h₀.nextLoc ≤ l ∨ isPrimOrNone h₀ l = true

/-- `h` extends `h₀` and every fresh cell references only fresh locations
and old immutables. -/
def GoodH (h₀ h : Heap) : Prop :=
  ExtH h₀ h ∧ ∀ l v, h.cells l = some v → h₀.nextLoc ≤ l → ∀ r ∈ v.refs, OkLoc h₀ r

/-- No cell at or above the frontier. -/
def TidyH (h : Heap) : Prop := ∀ l, h.nextLoc ≤ l → h.cells l = none

/-- Every reference points below the frontier. -/
def refsBelow (h : Heap) : Prop :=
  ∀ l v, h.cells l = some v → ∀ r ∈ v.refs, r < h.nextLoc

theorem good_refl (h : Heap) (ht : TidyH h) : GoodH h h := by
  refine ⟨⟨le_refl _, fun _ _ => rfl⟩, ?_⟩
  intro l v hv hl
  rw [ht l hl] at hv
  cases hv

theorem good_nextLoc {h₀ h : Heap} (hg : GoodH h₀ h) : h₀.nextLoc ≤ h.nextLoc :=
  hg.1.1

theorem good_cells {h₀ h : Heap} (hg : GoodH h₀ h) {l : Nat} (hl : l < h₀.nextLoc) :
    h.cells l = h₀.cells l := hg.1.2 l hl

theorem alloc_good {h₀ h : Heap} {v : HVal} (hg : GoodH h₀ h)
    (hrefs : ∀ r ∈ v.refs, OkLoc h₀ r) :
    GoodH h₀ (allocCell h v).1 ∧ OkLoc h₀ (allocCell h v).2 ∧
      h₀.nextLoc ≤ (allocCell h v).2 := by
  refine ⟨⟨⟨le_trans hg.1.1 (Nat.le_succ _), ?_⟩, ?_⟩, Or.inl hg.1.1, hg.1.1⟩
  · intro l hl
    show (if l = h.nextLoc then some v else h.cells l) = h₀.cells l
    rw [if_neg (by have := hg.1.1; omega)]
    exact hg.1.2 l hl
  · intro l w hw hl
    by_cases he : l = h.nextLoc
    · subst he
      rw [show (allocCell h v).1.cells h.nextLoc = some v from by
        show (if h.nextLoc = h.nextLoc then some v else _) = _
        rw [if_pos rfl]] at hw
      injection hw with hw
      subst hw
      exact hrefs
    · rw [show (allocCell h v).1.cells l = h.cells l from by
        show (if l = h.nextLoc then some v else _) = _
        rw [if_neg he]] at hw
      exact hg.2 l w hw hl

theorem write_good {h₀ h : Heap} {l : Nat} {v : HVal} (hg : GoodH h₀ h)
    (hl : h₀.nextLoc ≤ l) (hrefs : ∀ r ∈ v.refs, OkLoc h₀ r) :
    GoodH h₀ (writeCell h l v) := by
  refine ⟨⟨hg.1.1, ?_⟩, ?_⟩
  · intro x hx
    show (if x = l then some v else h.cells x) = h₀.cells x
    rw [if_neg (by omega)]
    exact hg.1.2 x hx
  · intro x w hw hx
    by_cases he : x = l
    · subst he
      rw [show (writeCell h x v).cells x = some v from by
        show (if x = x then some v else _) = _
        rw [if_pos rfl]] at hw
      injection hw with hw
      subst hw
      exact hrefs
    · rw [show (writeCell h l v).cells x = h.cells x from by
        show (if x = l then some v else _) = _
        rw [if_neg he]] at hw
      exact hg.2 x w hw hx

/-- A location known to be safe that holds a container must be fresh. -/
theorem mutable_fresh {h₀ h : Heap} {l : Nat} (hg : GoodH h₀ h) (hok : OkLoc h₀ l)
    (hm : isMutableAt h l = true) : h₀.nextLoc ≤ l := by
  rcases hok with hok | hok
  · exact hok
  · by_contra hlt
    push_neg at hlt
    rw [isMutableAt, good_cells hg hlt] at hm
    rw [isPrimOrNone] at hok
    rcases hv : h₀.cells l with _ | v
    · rw [hv] at hm; cases hm
    · rw [hv] at hm hok
      cases v <;> simp_all

theorem mem_map_snd_zip {α β : Type} (as : List α) :
    ∀ (bs : List β) (x : β), x ∈ (List.zip as bs).map Prod.snd → x ∈ bs := by
  induction as with
  | nil => intro bs x hx; simp [List.zip] at hx
  | cons a as ih =>
      intro bs x hx
      cases bs with
      | nil => simp [List.zip] at hx
      | cons b bs =>
          rw [List.zip_cons_cons, List.map_cons] at hx
          rcases List.mem_cons.mp hx with hx | hx
          · exact hx ▸ List.mem_cons_self _ _
          · exact List.mem_cons_of_mem _ (ih bs x hx)

theorem mem_map_snd_aSet {κ α : Type} [DecidableEq κ] (k : κ) (v : α) :
    ∀ (m : List (κ × α)) (x : α), x ∈ (aSet m k v).map Prod.snd →
      x = v ∨ x ∈ m.map Prod.snd := by
  intro m
  induction m with
  | nil => intro x hx; simp [aSet] at hx; exact Or.inl hx
  | cons kv t ih =>
      intro x hx
      rw [aSet] at hx
      split_ifs at hx
      · rcases List.mem_cons.mp hx with hx | hx
        · exact Or.inl hx
        · exact Or.inr (List.mem_cons_of_mem _ hx)
      · rcases List.mem_cons.mp hx with hx | hx
        · exact Or.inr (hx ▸ List.mem_cons_self _ _)
        · rcases ih x hx with hx | hx
          · exact Or.inl hx
          · exact Or.inr (List.mem_cons_of_mem _ hx)

theorem aGet_mem {κ α : Type} [DecidableEq κ] (k : κ) (v : α) :
    ∀ m : List (κ × α), aGet m k = some v → (k, v) ∈ m := by
  intro m
  induction m with
  | nil => intro h; cases h
  | cons kv t ih =>
      intro h
      rw [aGet] at h
      split_ifs at h with he
      · injection h with h
        subst h
        subst he
        exact List.mem_cons_self _ _
      · exact List.mem_cons_of_mem _ (ih h)

theorem deepcopyMany_good (fuel : Nat) : ∀ (h₀ h : Heap) (ls : List Nat),
    GoodH h₀ h →
    GoodH h₀ (deepcopyMany fuel h ls).1 ∧
      ∀ l' ∈ (deepcopyMany fuel h ls).2, OkLoc h₀ l' := by
  induction fuel with
  | zero =>
      intro h₀ h ls hg
      exact ⟨hg, by intro l' hl'; simp [deepcopyMany] at hl'⟩
  | succ fuel ih =>
      intro h₀ h ls hg
      cases ls with
      | nil => exact ⟨hg, by intro l' hl'; simp [deepcopyMany] at hl'⟩
      | cons l ls =>
          rw [deepcopyMany]
          rcases hc : h.cells l with _ | v
          · dsimp only
            obtain ⟨h1, h2⟩ := ih h₀ h ls hg
            refine ⟨h1, ?_⟩
            intro l' hl'
            rcases List.mem_cons.mp hl' with hl' | hl'
            · subst hl'
              by_cases hl : l' < h₀.nextLoc
              · right
                rw [isPrimOrNone, ← good_cells hg hl, hc]
              · exact Or.inl (by omega)
            · exact h2 l' hl'
          · cases v with
            | prim p =>
                dsimp only
                obtain ⟨h1, h2⟩ := ih h₀ h ls hg
                refine ⟨h1, ?_⟩
                intro l' hl'
                rcases List.mem_cons.mp hl' with hl' | hl'
                · subst hl'
                  by_cases hl : l' < h₀.nextLoc
                  · right
                    rw [isPrimOrNone, ← good_cells hg hl, hc]
                  · exact Or.inl (by omega)
                · exact h2 l' hl'
            | dict fs =>
                dsimp only
                obtain ⟨hq, hoks⟩ := ih h₀ h (fs.map Prod.snd) hg
                have halloc := alloc_good (v := HVal.dict
                    (List.zip (fs.map Prod.fst) (deepcopyMany fuel h (fs.map Prod.snd)).2))
                  hq
                  (by
                    intro r hr
                    rw [HVal.refs] at hr
                    exact hoks r (mem_map_snd_zip _ _ _ hr))
                obtain ⟨hrest, hroks⟩ := ih h₀ _ ls halloc.1
                refine ⟨hrest, ?_⟩
                intro l' hl'
                rcases List.mem_cons.mp hl' with hl' | hl'
                · exact hl' ▸ halloc.2.1
                · exact hroks l' hl'
            | list is =>
                dsimp only
                obtain ⟨hq, hoks⟩ := ih h₀ h is hg
                have halloc := alloc_good (v := HVal.list (deepcopyMany fuel h is).2) hq
                  (by intro r hr; rw [HVal.refs] at hr; exact hoks r hr)
                obtain ⟨hrest, hroks⟩ := ih h₀ _ ls halloc.1
                refine ⟨hrest, ?_⟩
                intro l' hl'
                rcases List.mem_cons.mp hl' with hl' | hl'
                · exact hl' ▸ halloc.2.1
                · exact hroks l' hl'

theorem deepcopyMany_single (fuel : Nat) (h : Heap) (l : Nat) :
    ∃ a, (deepcopyMany (fuel + 1) h [l]).2 = [a] := by
  rw [deepcopyMany]
  cases fuel with
  | zero => exact ⟨_, rfl⟩
  | succ fuel => exact ⟨_, rfl⟩

theorem deepcopyH_good {h₀ h : Heap} (fuel l : Nat) (hg : GoodH h₀ h) :
    GoodH h₀ (deepcopyH fuel h l).1 ∧ OkLoc h₀ (deepcopyH fuel h l).2 := by
  obtain ⟨h1, h2⟩ := deepcopyMany_good (fuel + 1) h₀ h [l] hg
  obtain ⟨a, ha⟩ := deepcopyMany_single fuel h l
  refine ⟨h1, ?_⟩
  show OkLoc h₀ ((deepcopyMany (fuel + 1) h [l]).2.headD l)
  rw [ha]
  exact h2 a (ha ▸ List.mem_singleton_self a)

theorem hAllocPrim_good {h₀ h : Heap} (p : PyPrim) (hg : GoodH h₀ h) :
    GoodH h₀ (hAllocPrim h p).1 ∧ OkLoc h₀ (hAllocPrim h p).2 :=
  let r := alloc_good (v := .prim p) hg (by intro r hr; rw [HVal.refs] at hr; cases hr)
  ⟨r.1, r.2.1⟩

theorem hSetRootRef_good {h₀ h : Heap} {root : Nat} {k : String} {r : Nat}
    (hg : GoodH h₀ h) (hroot : OkLoc h₀ root) (hr : OkLoc h₀ r) :
    GoodH h₀ (hSetRootRef h root k r) := by
  rw [hSetRootRef]
  rcases hc : h.cells root with _ | v
  · exact hg
  cases v with
  | prim p => exact hg
  | list is => exact hg
  | dict fs =>
      have hfresh : h₀.nextLoc ≤ root :=
        mutable_fresh hg hroot (by rw [isMutableAt, hc])
      refine write_good hg hfresh ?_
      intro x hx
      rw [HVal.refs] at hx
      rcases mem_map_snd_aSet k r fs x hx with hx | hx
      · exact hx ▸ hr
      · exact hg.2 root _ hc hfresh x (by rw [HVal.refs]; exact hx)

theorem hSetRootPrim_good {h₀ h : Heap} {root : Nat} {k : String} {p : PyPrim}
    (hg : GoodH h₀ h) (hroot : OkLoc h₀ root) :
    GoodH h₀ (hSetRootPrim h root k p) := by
  rw [hSetRootPrim]
  exact hSetRootRef_good (hAllocPrim_good p hg).1 hroot (hAllocPrim_good p hg).2

theorem hSetNestedText_good {h₀ h : Heap} {root : Nat} {k : String} {s : String}
    (hg : GoodH h₀ h) (hroot : OkLoc h₀ root) :
    GoodH h₀ (hSetNestedText h root k s) := by
  rw [hSetNestedText]
  rcases hf : hGetField h root k with _ | ref
  · exact hg
  dsimp only
  rcases hc : h.cells ref with _ | v
  · exact hg
  cases v with
  | prim p => exact hg
  | list is => exact hg
  | dict nf =>
      obtain ⟨fs, hfs, hget⟩ : ∃ fs, h.cells root = some (.dict fs) ∧ aGet fs k = some ref := by
        rw [hGetField] at hf
        rcases hr : h.cells root with _ | w
        · rw [hr] at hf; cases hf
        · cases w with
          | dict fs => rw [hr] at hf; exact ⟨fs, rfl, hf⟩
          | prim p => rw [hr] at hf; cases hf
          | list is => rw [hr] at hf; cases hf
      have hrootfresh : h₀.nextLoc ≤ root :=
        mutable_fresh hg hroot (by rw [isMutableAt, hfs])
      have hrefok : OkLoc h₀ ref :=
        hg.2 root _ hfs hrootfresh ref
          (by rw [HVal.refs]; exact List.mem_map.mpr ⟨(k, ref), aGet_mem k ref fs hget, rfl⟩)
      have hreffresh : h₀.nextLoc ≤ ref :=
        mutable_fresh hg hrefok (by rw [isMutableAt, hc])
      refine write_good (hAllocPrim_good (.str s) hg).1 hreffresh ?_
      intro x hx
      rw [HVal.refs] at hx
      rcases mem_map_snd_aSet "_text" (hAllocPrim h (.str s)).2 nf x hx with hx | hx
      · exact hx ▸ (hAllocPrim_good (.str s) hg).2
      · exact hg.2 ref _ hc hreffresh x (by rw [HVal.refs]; exact hx)

theorem hSetRootFromBase_good {h₀ h : Heap} {root base : Nat} {k u : String}
    (hg : GoodH h₀ h) (hroot : OkLoc h₀ root) (hbase : base < h₀.nextLoc)
    (hsrc : ∀ r, hGetField h₀ base u = some r → isPrimOrNone h₀ r = true) :
    GoodH h₀ (hSetRootFromBase h root base k u) := by
  rw [hSetRootFromBase]
  have hfe : hGetField h base u = hGetField h₀ base u := by
    rw [hGetField, hGetField, good_cells hg hbase]
  rcases hf : hGetField h base u with _ | r
  · exact hSetRootRef_good (hAllocPrim_good .null hg).1 hroot
      (hAllocPrim_good .null hg).2
  · exact hSetRootRef_good hg hroot (Or.inr (hsrc r (hfe.symm.trans hf)))

theorem hAllocTyped_good {h₀ h : Heap} {root : Nat} {k ty s : String}
    (hg : GoodH h₀ h) (hroot : OkLoc h₀ root) :
    GoodH h₀ (hAllocTyped h root k ty s) := by
  rw [hAllocTyped]
  have g1 := hAllocPrim_good (.str ty) hg
  have g2 := hAllocPrim_good (h := (hAllocPrim h (.str ty)).1) (.str s) g1.1
  have g3 := alloc_good (v := .dict [("@type", (hAllocPrim h (.str ty)).2),
      ("_text", (hAllocPrim (hAllocPrim h (.str ty)).1 (.str s)).2)]) g2.1
    (by
      intro r hr
      rw [HVal.refs] at hr
      simp only [List.map_cons, List.map_nil] at hr
      rcases List.mem_cons.mp hr with hr | hr
      · exact hr ▸ g1.2
      · rcases List.mem_cons.mp hr with hr | hr
        · exact hr ▸ g2.2
        · cases hr)
  exact hSetRootRef_good g3.1 hroot g3.2.1

theorem hApplyModification_good {h₀ h : Heap} {root : Nat} {kv : String × PyVal}
    (hg : GoodH h₀ h) (hroot : OkLoc h₀ root) :
    GoodH h₀ (hApplyModification h root kv) := by
  rw [hApplyModification]
  rcases hf : hGetField h root kv.1 with _ | ref
  · dsimp only
    split_ifs <;> exact hAllocTyped_good hg hroot
  dsimp only
  rcases hc : h.cells ref with _ | v
  · split_ifs <;> exact hAllocTyped_good hg hroot
  cases v with
  | prim p => dsimp only; split_ifs <;> exact hAllocTyped_good hg hroot
  | list is => dsimp only; split_ifs <;> exact hAllocTyped_good hg hroot
  | dict d =>
      dsimp only
      obtain ⟨fs, hfs, hget⟩ : ∃ fs, h.cells root = some (.dict fs) ∧
          aGet fs kv.1 = some ref := by
        rw [hGetField] at hf
        rcases hr : h.cells root with _ | w
        · rw [hr] at hf; cases hf
        · cases w with
          | dict fs => rw [hr] at hf; exact ⟨fs, rfl, hf⟩
          | prim p => rw [hr] at hf; cases hf
          | list is => rw [hr] at hf; cases hf
      have hrootfresh : h₀.nextLoc ≤ root :=
        mutable_fresh hg hroot (by rw [isMutableAt, hfs])
      have hrefok : OkLoc h₀ ref :=
        hg.2 root _ hfs hrootfresh ref
          (by rw [HVal.refs]; exact List.mem_map.mpr ⟨(kv.1, ref), aGet_mem _ _ fs hget, rfl⟩)
      have hreffresh : h₀.nextLoc ≤ ref :=
        mutable_fresh hg hrefok (by rw [isMutableAt, hc])
      split_ifs with h1 h2 h3
      · refine write_good (hAllocPrim_good (.str (pyStr kv.2)) hg).1 hreffresh ?_
        intro x hx
        rw [HVal.refs] at hx
        rcases mem_map_snd_aSet "_text" (hAllocPrim h (.str (pyStr kv.2))).2 d x hx with
          hx | hx
        · exact hx ▸ (hAllocPrim_good (.str (pyStr kv.2)) hg).2
        · exact hg.2 ref _ hc hreffresh x (by rw [HVal.refs]; exact hx)
      · exact hAllocTyped_good hg hroot
      · exact hAllocTyped_good hg hroot
      · rcases ht : aGet d "@type" with _ | tref
        · exact hAllocTyped_good hg hroot
        · have htok : OkLoc h₀ tref :=
            hg.2 ref _ hc hreffresh tref
              (by rw [HVal.refs]; exact List.mem_map.mpr ⟨("@type", tref), aGet_mem _ _ d ht, rfl⟩)
          have g1 := hAllocPrim_good (.str (pyStr kv.2)) hg
          have g2 := alloc_good (v := .dict [("@type", tref),
              ("_text", (hAllocPrim h (.str (pyStr kv.2))).2)]) g1.1
            (by
              intro r hr
              rw [HVal.refs] at hr
              simp only [List.map_cons, List.map_nil] at hr
              rcases List.mem_cons.mp hr with hr | hr
              · exact hr ▸ htok
              · rcases List.mem_cons.mp hr with hr | hr
                · exact hr ▸ g1.2
                · cases hr)
          exact hSetRootRef_good g2.1 hroot g2.2.1

mutual

theorem allocTree_good (h₀ : Heap) : ∀ (h : Heap) (v : PyVal), GoodH h₀ h →
    GoodH h₀ (allocTree h v).1 ∧ OkLoc h₀ (allocTree h v).2
  | h, .str s, hg => hAllocPrim_good _ hg
  | h, .int n, hg => hAllocPrim_good _ hg
  | h, .bool b, hg => hAllocPrim_good _ hg
  | h, .null, hg => hAllocPrim_good _ hg
  | h, .dict fs, hg => by
      obtain ⟨g1, o1⟩ := allocTreeFields_good h₀ h fs hg
      have := alloc_good (v := .dict (allocTreeFields h fs).2) g1
        (by intro r hr; rw [HVal.refs] at hr; exact o1 r hr)
      exact ⟨this.1, this.2.1⟩
  | h, .list xs, hg => by
      obtain ⟨g1, o1⟩ := allocTreeItems_good h₀ h xs hg
      have := alloc_good (v := .list (allocTreeItems h xs).2) g1
        (by intro r hr; rw [HVal.refs] at hr; exact o1 r hr)
      exact ⟨this.1, this.2.1⟩

theorem allocTreeFields_good (h₀ : Heap) : ∀ (h : Heap) (fs : List (String × PyVal)),
    GoodH h₀ h →
    GoodH h₀ (allocTreeFields h fs).1 ∧
      ∀ x ∈ (allocTreeFields h fs).2.map Prod.snd, OkLoc h₀ x
  | h, [], hg => ⟨hg, by intro x hx; simp [allocTreeFields] at hx⟩
  | h, kv :: rest, hg => by
      obtain ⟨g1, o1⟩ := allocTree_good h₀ h kv.2 hg
      obtain ⟨g2, o2⟩ := allocTreeFields_good h₀ (allocTree h kv.2).1 rest g1
      refine ⟨g2, ?_⟩
      intro x hx
      rw [show (allocTreeFields h (kv :: rest)).2
          = (kv.1, (allocTree h kv.2).2) :: (allocTreeFields (allocTree h kv.2).1 rest).2
          from rfl, List.map_cons] at hx
      rcases List.mem_cons.mp hx with hx | hx
      · exact hx ▸ o1
      · exact o2 x hx

theorem allocTreeItems_good (h₀ : Heap) : ∀ (h : Heap) (xs : List PyVal),
    GoodH h₀ h →
    GoodH h₀ (allocTreeItems h xs).1 ∧ ∀ x ∈ (allocTreeItems h xs).2, OkLoc h₀ x
  | h, [], hg => ⟨hg, by intro x hx; simp [allocTreeItems] at hx⟩
  | h, v :: rest, hg => by
      obtain ⟨g1, o1⟩ := allocTree_good h₀ h v hg
      obtain ⟨g2, o2⟩ := allocTreeItems_good h₀ (allocTree h v).1 rest g1
      refine ⟨g2, ?_⟩
      intro x hx
      rw [show (allocTreeItems h (v :: rest)).2
          = (allocTree h v).2 :: (allocTreeItems (allocTree h v).1 rest).2 from rfl] at hx
      rcases List.mem_cons.mp hx with hx | hx
      · exact hx ▸ o1
      · exact o2 x hx

end

theorem foldl_applyMod_good {h₀ : Heap} {root : Nat}
    (ms : List (String × PyVal)) : ∀ h : Heap, GoodH h₀ h → OkLoc h₀ root →
    GoodH h₀ (ms.foldl (fun hh kv => hApplyModification hh root kv) h) := by
  induction ms with
  | nil => intro h hg _; exact hg
  | cons kv rest ih =>
      intro h hg hroot
      rw [List.foldl_cons]
      exact ih _ (hApplyModification_good hg hroot) hroot

theorem foldl_itemMod_good {h₀ : Heap} {root : Nat}
    (ms : List (String × PyVal)) : ∀ h : Heap, GoodH h₀ h → OkLoc h₀ root →
    GoodH h₀ (ms.foldl (fun hh kv =>
      let r := allocTree hh kv.2
      hSetRootRef r.1 root kv.1 r.2) h) := by
  induction ms with
  | nil => intro h hg _; exact hg
  | cons kv rest ih =>
      intro h hg hroot
      rw [List.foldl_cons]
      exact ih _ (hSetRootRef_good (allocTree_good h₀ h kv.2 hg).1 hroot
        (allocTree_good h₀ h kv.2 hg).2) hroot

theorem npc_rewriteAndMerge_good {h₀ h : Heap} {root baseLoc : Nat}
    {new_name : String} {mods : Option (List (String × PyVal))}
    (hg : GoodH h₀ h) (hroot : OkLoc h₀ root) (hbase : baseLoc < h₀.nextLoc)
    (hmeta : ∀ k, k ∈ ["_display_name", "_reference_path", "_source_module"] →
      ∀ r, hGetField h₀ baseLoc k = some r → isPrimOrNone h₀ r = true) :
    GoodH h₀ (NpcHeap.rewriteAndMerge h root baseLoc new_name mods) := by
  have g1 := hSetNestedText_good (k := "name") (s := new_name) hg hroot
  have g2 := hSetNestedText_good (k := "nonid_name") (s := new_name) g1 hroot
  have g3 := hSetRootPrim_good (k := "_display_name") (p := .str new_name) g2 hroot
  have g4 := hSetRootPrim_good (k := "_id")
    (p := .str ("id-custom-" ++ strReplaceChar (strLower new_name) ' ' '_')) g3 hroot
  have g5 := hSetRootPrim_good (k := "_reference_path") (p := .null) g4 hroot
  have g6 := hSetRootPrim_good (k := "_is_custom") (p := .bool true) g5 hroot
  have g7 := hSetRootFromBase_good (k := "_based_on") (u := "_display_name") g6 hroot
    hbase (hmeta "_display_name" (by simp))
  have g8 := hSetRootFromBase_good (k := "_based_on_path") (u := "_reference_path") g7
    hroot hbase (hmeta "_reference_path" (by simp))
  have g9 := hSetRootFromBase_good (k := "_based_on_source") (u := "_source_module") g8
    hroot hbase (hmeta "_source_module" (by simp))
  rcases mods with _ | ms
  · exact g9
  · exact foldl_applyMod_good ms _ g9 hroot

theorem item_rewriteAndMerge_good {h₀ h : Heap} {root baseLoc : Nat}
    {new_name : String} {mods : Option (List (String × PyVal))}
    (hg : GoodH h₀ h) (hroot : OkLoc h₀ root) (hbase : baseLoc < h₀.nextLoc)
    (hmeta : ∀ k, k ∈ ["_display_name", "_reference_path", "_source_module"] →
      ∀ r, hGetField h₀ baseLoc k = some r → isPrimOrNone h₀ r = true) :
    GoodH h₀ (ItemHeap.rewriteAndMerge h root baseLoc new_name mods) := by
  have g1 := hSetNestedText_good (k := "name") (s := new_name) hg hroot
  have g2 := hSetNestedText_good (k := "nonid_name") (s := new_name) g1 hroot
  have g3 := hSetRootPrim_good (k := "_display_name") (p := .str new_name) g2 hroot
  have g4 := hSetRootPrim_good (k := "_id")
    (p := .str ("id-custom-" ++ strReplaceChar (strLower new_name) ' ' '_')) g3 hroot
  have g5 := hSetRootPrim_good (k := "_reference_path") (p := .null) g4 hroot
  have g6 := hSetRootPrim_good (k := "_is_custom") (p := .bool true) g5 hroot
  have g7 := hSetRootFromBase_good (k := "_based_on") (u := "_reference_path") g6 hroot
    hbase (hmeta "_reference_path" (by simp))
  have g8 := hSetRootFromBase_good (k := "_based_on_source") (u := "_source_module") g7
    hroot hbase (hmeta "_source_module" (by simp))
  rcases mods with _ | ms
  · exact g8
  · exact foldl_itemMod_good ms _ g8 hroot

theorem readMany_ext {h₀ h : Heap} (hext : ExtH h₀ h) (hwf : refsBelow h₀) :
    ∀ (fuel : Nat) (ls : List Nat), (∀ l ∈ ls, l < h₀.nextLoc) →
    readMany fuel h ls = readMany fuel h₀ ls := by
  intro fuel
  induction fuel with
  | zero => intro ls _; rfl
  | succ fuel ih =>
      intro ls hls
      cases ls with
      | nil => rfl
      | cons l ls =>
          have hl := hls l (List.mem_cons_self _ _)
          have hcell : h.cells l = h₀.cells l := hext.2 l hl
          rw [readMany, readMany]
          rw [hcell]
          have htail : readMany fuel h ls = readMany fuel h₀ ls :=
            ih ls (fun x hx => hls x (List.mem_cons_of_mem _ hx))
          rcases hc : h₀.cells l with _ | v
          · rw [htail]
          · cases v with
            | prim p => cases p <;> rw [htail]
            | dict fs =>
                simp only [htail, ih (fs.map Prod.snd) (fun x hx => hwf l _ hc x
                  (by rw [HVal.refs]; exact hx))]
            | list is =>
                simp only [htail,
                  ih is (fun x hx => hwf l _ hc x (by rw [HVal.refs]; exact hx))]

theorem reach_fresh {h₀ h : Heap} (hg : GoodH h₀ h) :
    ∀ (fuel : Nat) (ls : List Nat), (∀ l ∈ ls, OkLoc h₀ l) →
    ∀ l', l' ∈ reachMany fuel h ls → isMutableAt h l' = true → h₀.nextLoc ≤ l' := by
  intro fuel
  induction fuel with
  | zero => intro ls _ l' hl'; simp [reachMany] at hl'
  | succ fuel ih =>
      intro ls hls l' hl' hmut
      cases ls with
      | nil => simp [reachMany] at hl'
      | cons l tail =>
          rw [reachMany] at hl'
          rcases List.mem_cons.mp hl' with hl' | hl'
          · subst hl'
            exact mutable_fresh hg (hls l' (List.mem_cons_self _ _)) hmut
          · rcases List.mem_append.mp hl' with hl' | hl'
            · -- reached through the references of the cell at l
              have hok := hls l (List.mem_cons_self _ _)
              rcases hcl : h.cells l with _ | v
              · rw [hcl] at hl'
                cases fuel <;> simp [reachMany] at hl'
              · rw [hcl] at hl'
                have hchildren : ∀ r ∈ v.refs, OkLoc h₀ r := by
                  by_cases hlt : l < h₀.nextLoc
                  · intro r hr
                    exfalso
                    rcases hok with hok | hok
                    · omega
                    · rw [isPrimOrNone] at hok
                      rw [good_cells hg hlt] at hcl
                      rw [hcl] at hok
                      cases v with
                      | prim p => rw [HVal.refs] at hr; cases hr
                      | dict fs => cases hok
                      | list is => cases hok
                  · exact hg.2 l v hcl (by omega)
                exact ih v.refs hchildren l' hl' hmut
            · exact ih tail (fun x hx => hls x (List.mem_cons_of_mem _ hx)) l' hl' hmut

/-- Claim C3: neither `copy_for_modification` (NPC variant) nor the item
variant ever mutates a pre-existing object: every pre-existing cell is
untouched, every pre-existing object — the base entry in particular — reads
back deeply equal, and every mutable cell reachable from the synthesized
entity is freshly allocated, so the result shares no mutable structure with
the catalog's in-memory data.  The hypotheses say the heap is well-formed,
the index points below the allocation frontier, and the base entry's
`_display_name` / `_reference_path` / `_source_module` metadata are
immutable values (strings or `None`), as the data model prescribes. -/
theorem c3_copy_no_mutation (h₀ : Heap) (byName : List (String × Nat))
    (name new_name : String) (mods : Option (List (String × PyVal)))
    (htidy : TidyH h₀)
    (hbase : ∀ bl, aGet byName (strLower name) = some bl → bl < h₀.nextLoc)
    (hmeta : ∀ bl, aGet byName (strLower name) = some bl →
      ∀ k, k ∈ ["_display_name", "_reference_path", "_source_module"] →
      ∀ r, hGetField h₀ bl k = some r → isPrimOrNone h₀ r = true) :
    ((∀ l, l < h₀.nextLoc →
        (NpcHeap.copy_for_modification h₀ byName name new_name mods).2.cells l
          = h₀.cells l) ∧
      (refsBelow h₀ → ∀ fuel l, l < h₀.nextLoc →
        readTreeH fuel (NpcHeap.copy_for_modification h₀ byName name new_name mods).2 l
          = readTreeH fuel h₀ l) ∧
      (∀ root, (NpcHeap.copy_for_modification h₀ byName name new_name mods).1
          = some root →
        ∀ fuel l', l' ∈ reachMany fuel
            (NpcHeap.copy_for_modification h₀ byName name new_name mods).2 [root] →
          isMutableAt (NpcHeap.copy_for_modification h₀ byName name new_name mods).2 l'
            = true → h₀.nextLoc ≤ l')) ∧
    ((∀ l, l < h₀.nextLoc →
        (ItemHeap.copy_for_modification h₀ byName name new_name mods).2.cells l
          = h₀.cells l) ∧
      (refsBelow h₀ → ∀ fuel l, l < h₀.nextLoc →
        readTreeH fuel (ItemHeap.copy_for_modification h₀ byName name new_name mods).2 l
          = readTreeH fuel h₀ l) ∧
      (∀ root, (ItemHeap.copy_for_modification h₀ byName name new_name mods).1
          = some root →
        ∀ fuel l', l' ∈ reachMany fuel
            (ItemHeap.copy_for_modification h₀ byName name new_name mods).2 [root] →
          isMutableAt (ItemHeap.copy_for_modification h₀ byName name new_name mods).2 l'
            = true → h₀.nextLoc ≤ l')) := by
  have key : ∀ (H : Heap) (rt : Nat), GoodH h₀ H → OkLoc h₀ rt →
      (∀ l, l < h₀.nextLoc → H.cells l = h₀.cells l) ∧
      (refsBelow h₀ → ∀ fuel l, l < h₀.nextLoc →
        readTreeH fuel H l = readTreeH fuel h₀ l) ∧
      (∀ fuel l', l' ∈ reachMany fuel H [rt] → isMutableAt H l' = true →
        h₀.nextLoc ≤ l') := by
    intro H rt hg hok
    refine ⟨fun l hl => good_cells hg hl, ?_, ?_⟩
    · intro hwf fuel l hl
      rw [readTreeH, readTreeH, readMany_ext hg.1 hwf (fuel + 1) [l]
        (by intro x hx; rw [List.mem_singleton.mp hx]; exact hl)]
    · intro fuel l' hl' hm
      exact reach_fresh hg fuel [rt]
        (by intro x hx; rw [List.mem_singleton.mp hx]; exact hok) l' hl' hm
  constructor
  · -- NPC variant
    rcases hb : aGet byName (strLower name) with _ | bl
    · have he : NpcHeap.copy_for_modification h₀ byName name new_name mods
          = (none, h₀) := by
        simp only [NpcHeap.copy_for_modification, hb]
      rw [he]
      exact ⟨fun l _ => rfl, fun _ _ _ _ => rfl, fun root hroot => by cases hroot⟩
    · by_cases hguard : hTruthy h₀ bl = false
      · have he : NpcHeap.copy_for_modification h₀ byName name new_name mods
            = (none, h₀) := by
          simp only [NpcHeap.copy_for_modification, hb]
          rw [if_pos hguard]
        rw [he]
        exact ⟨fun l _ => rfl, fun _ _ _ _ => rfl, fun root hroot => by cases hroot⟩
      · have he : NpcHeap.copy_for_modification h₀ byName name new_name mods
            = (some (deepcopyH (bl + 1) h₀ bl).2,
               NpcHeap.rewriteAndMerge (deepcopyH (bl + 1) h₀ bl).1
                 (deepcopyH (bl + 1) h₀ bl).2 bl new_name mods) := by
          simp only [NpcHeap.copy_for_modification, hb]
          rw [if_neg hguard]
        rw [he]
        have g0 := good_refl h₀ htidy
        obtain ⟨gd, od⟩ := deepcopyH_good (bl + 1) bl g0
        have gF := @npc_rewriteAndMerge_good h₀ _ _ bl new_name mods gd od (hbase bl hb) (hmeta bl hb)
        obtain ⟨k1, k2, k3⟩ := key _ (deepcopyH (bl + 1) h₀ bl).2 gF od
        refine ⟨k1, k2, ?_⟩
        intro root hroot fuel l' hl' hm
        injection hroot with hroot
        subst hroot
        exact k3 fuel l' hl' hm
  · -- item variant
    rcases hb : aGet byName (strLower name) with _ | bl
    · have he : ItemHeap.copy_for_modification h₀ byName name new_name mods
          = (none, h₀) := by
        simp only [ItemHeap.copy_for_modification, hb]
      rw [he]
      exact ⟨fun l _ => rfl, fun _ _ _ _ => rfl, fun root hroot => by cases hroot⟩
    · by_cases hguard : hTruthy h₀ bl = false
      · have he : ItemHeap.copy_for_modification h₀ byName name new_name mods
            = (none, h₀) := by
          simp only [ItemHeap.copy_for_modification, hb]
          rw [if_pos hguard]
        rw [he]
        exact ⟨fun l _ => rfl, fun _ _ _ _ => rfl, fun root hroot => by cases hroot⟩
      · have he : ItemHeap.copy_for_modification h₀ byName name new_name mods
            = (some (deepcopyH (bl + 1) h₀ bl).2,
               ItemHeap.rewriteAndMerge (deepcopyH (bl + 1) h₀ bl).1
                 (deepcopyH (bl + 1) h₀ bl).2 bl new_name mods) := by
          simp only [ItemHeap.copy_for_modification, hb]
          rw [if_neg hguard]
        rw [he]
        have g0 := good_refl h₀ htidy
        obtain ⟨gd, od⟩ := deepcopyH_good (bl + 1) bl g0
        have gF := @item_rewriteAndMerge_good h₀ _ _ bl new_name mods gd od (hbase bl hb) (hmeta bl hb)
        obtain ⟨k1, k2, k3⟩ := key _ (deepcopyH (bl + 1) h₀ bl).2 gF od
        refine ⟨k1, k2, ?_⟩
        intro root hroot fuel l' hl' hm
        injection hroot with hroot
        subst hroot
        exact k3 fuel l' hl' hm

theorem tidyH_empty : TidyH emptyHeap := fun _ _ => rfl

theorem alloc_tidyH {h : Heap} {v : HVal} (ht : TidyH h) : TidyH (allocCell h v).1 := by
  intro l hl
  have hl' : h.nextLoc + 1 ≤ l := hl
  show (if l = h.nextLoc then some v else h.cells l) = none
  rw [if_neg (by omega)]
  exact ht l (by omega)

mutual

theorem allocTree_tidyH : ∀ (h : Heap) (v : PyVal), TidyH h → TidyH (allocTree h v).1
  | h, .str s, ht => alloc_tidyH ht
  | h, .int n, ht => alloc_tidyH ht
  | h, .bool b, ht => alloc_tidyH ht
  | h, .null, ht => alloc_tidyH ht
  | h, .dict fs, ht => alloc_tidyH (allocTreeFields_tidyH h fs ht)
  | h, .list xs, ht => alloc_tidyH (allocTreeItems_tidyH h xs ht)

theorem allocTreeFields_tidyH : ∀ (h : Heap) (fs : List (String × PyVal)),
    TidyH h → TidyH (allocTreeFields h fs).1
  | _, [], ht => ht
  | h, kv :: rest, ht =>
      allocTreeFields_tidyH (allocTree h kv.2).1 rest (allocTree_tidyH h kv.2 ht)

theorem allocTreeItems_tidyH : ∀ (h : Heap) (xs : List PyVal),
    TidyH h → TidyH (allocTreeItems h xs).1
  | _, [], ht => ht
  | h, v :: rest, ht =>
      allocTreeItems_tidyH (allocTree h v).1 rest (allocTree_tidyH h v ht)

end

/-- The base catalog entry of the C3 witness, as a value tree. -/
def c3base : PyVal :=
  .dict [("_display_name", .str "Wolf"),
    ("name", .dict [("_text", .str "Wolf")]),
    ("_source_module", .str "Creatures & Treasures")]

/-- The C3 witness heap: the base entry allocated in an empty heap. -/
def c3heap : Heap := (allocTree emptyHeap c3base).1

/-- The location of the base entry in the C3 witness heap. -/
def c3loc : Nat := (allocTree emptyHeap c3base).2

/-- The C3 witness name index. -/
def c3byName : List (String × Nat) := [("wolf", c3loc)]

/-- Witness for C3: synthesizing "Dire Wolf" from the one-entry catalog of
`c3heap` with a `hits` override, through both library variants. -/
theorem c3_copy_no_mutation_witness :
    ((∀ l, l < c3heap.nextLoc →
        (NpcHeap.copy_for_modification c3heap c3byName "Wolf" "Dire Wolf"
          (some [("hits", PyVal.int 150)])).2.cells l = c3heap.cells l) ∧
      (refsBelow c3heap → ∀ fuel l, l < c3heap.nextLoc →
        readTreeH fuel (NpcHeap.copy_for_modification c3heap c3byName "Wolf" "Dire Wolf"
          (some [("hits", PyVal.int 150)])).2 l = readTreeH fuel c3heap l) ∧
      (∀ root, (NpcHeap.copy_for_modification c3heap c3byName "Wolf" "Dire Wolf"
          (some [("hits", PyVal.int 150)])).1 = some root →
        ∀ fuel l', l' ∈ reachMany fuel
            (NpcHeap.copy_for_modification c3heap c3byName "Wolf" "Dire Wolf"
              (some [("hits", PyVal.int 150)])).2 [root] →
          isMutableAt (NpcHeap.copy_for_modification c3heap c3byName "Wolf" "Dire Wolf"
            (some [("hits", PyVal.int 150)])).2 l' = true → c3heap.nextLoc ≤ l')) ∧
    ((∀ l, l < c3heap.nextLoc →
        (ItemHeap.copy_for_modification c3heap c3byName "Wolf" "Dire Wolf"
          (some [("hits", PyVal.int 150)])).2.cells l = c3heap.cells l) ∧
      (refsBelow c3heap → ∀ fuel l, l < c3heap.nextLoc →
        readTreeH fuel (ItemHeap.copy_for_modification c3heap c3byName "Wolf" "Dire Wolf"
          (some [("hits", PyVal.int 150)])).2 l = readTreeH fuel c3heap l) ∧
      (∀ root, (ItemHeap.copy_for_modification c3heap c3byName "Wolf" "Dire Wolf"
          (some [("hits", PyVal.int 150)])).1 = some root →
        ∀ fuel l', l' ∈ reachMany fuel
            (ItemHeap.copy_for_modification c3heap c3byName "Wolf" "Dire Wolf"
              (some [("hits", PyVal.int 150)])).2 [root] →
          isMutableAt (ItemHeap.copy_for_modification c3heap c3byName "Wolf" "Dire Wolf"
            (some [("hits", PyVal.int 150)])).2 l' = true → c3heap.nextLoc ≤ l')) :=
  c3_copy_no_mutation c3heap c3byName "Wolf" "Dire Wolf" (some [("hits", PyVal.int 150)])
    (allocTree_tidyH emptyHeap c3base tidyH_empty)
    (by
      intro bl hbl
      rw [show aGet c3byName (strLower "Wolf") = some 4 from by decide] at hbl
      injection hbl with h
      subst h
      decide)
    (by
      intro bl hbl k hk r hr
      rw [show aGet c3byName (strLower "Wolf") = some 4 from by decide] at hbl
      injection hbl with h
      subst h
      simp only [List.mem_cons, List.not_mem_nil, or_false] at hk
      rcases hk with hk | hk | hk <;> subst hk
      · rw [show hGetField c3heap 4 "_display_name" = some 0 from by decide] at hr
        injection hr with h
        subst h
        decide
      · rw [show hGetField c3heap 4 "_reference_path" = none from by decide] at hr
        cases hr
      · rw [show hGetField c3heap 4 "_source_module" = some 3 from by decide] at hr
        injection hr with h
        subst h
        decide)
